import Mathlib

/-!
Verification of the bellman Mirage CC-SNARK core against its specification.

The development shallowly embeds the Rust sources:

* `src/domain.rs` — the radix-2 evaluation-domain FFT engine (`from_coeffs`,
  `fft`, `ifft`, `coset_fft`, `icoset_fft`, `serial_fft`, `parallel_fft`,
  `distribute_powers`, `divide_by_z_on_coset`, `mul_assign`, `sub_assign`).
* `src/kw15.rs` — the KW15 linear-subspace argument.
* `src/commit.rs`, `src/commit/cp_link.rs` — Pedersen commitments and cp_link.
* `src/mirage/prover.rs`, `src/mirage/verifier.rs` — the Mirage prover and
  verifier.

Groups and the pairing are abstract collaborators in the sources (a generic
`Engine`).  Following the repository's own test engine (`DummyEngine`, with
scalar field of size 64513, generators `g1 = g2 = 1`), the pairing stack is
embedded in the canonical scalar model: `G1 = G2 = GT = F` written additively,
scalar action is field multiplication, the pairing is `e a b = a * b`,
`multi_miller_loop` is the sum of pairwise products, `final_exponentiation` is
the identity, and the GT identity is `0`.  Every bilinear-pairing computation
performed by the sources is faithfully mirrored by this model.

Arrays mutated in place are embedded as functions `ℕ → F` updated pointwise;
a slice of length `n` is the restriction to indices `< n`, and list wrappers
recover the concrete vectors.  Loops become `List.foldl` over the ranges the
source iterates, threading exactly the state the source threads.  The scoped
fork-join `worker.scope` loops of `domain.rs` that update each slice element
exactly once (scalar multiplication in `ifft`, `distribute_powers`,
`divide_by_z_on_coset`, `mul_assign`, `sub_assign`) are embedded as the
pointwise maps they compute; the worker's chunking partitions the index space
and is invisible in the result.  The `Worker` itself (module `multicore`, not
part of the sources under verification) is its observable `log_num_threads`.
-/

namespace BellmanProof

/-! ## Bit reversal, from `serial_fft` in `src/domain.rs`:
`r = 0; for _ in 0..l { r = (r << 1) | (n & 1); n >>= 1 }; r` -/

/-- One iteration of the `bitreverse` loop body acting on the pair `(r, n)`. -/
def bitrevStep (rn : ℕ × ℕ) : ℕ × ℕ :=
  ((rn.1 <<< 1) ||| (rn.2 &&& 1), rn.2 >>> 1)

/-- Reversal of the low `l` bits of `n` (`fn bitreverse` in `src/domain.rs`). -/
def bitreverse (n : ℕ) (l : ℕ) : ℕ :=
  ((List.range l).foldl (fun rn _ => bitrevStep rn) (0, n)).1

theorem two_mul_or_bit (r b : ℕ) (hb : b ≤ 1) : 2 * r ||| b = 2 * r + b := by
  apply Nat.eq_of_testBit_eq
  intro i
  rw [Nat.testBit_lor]
  cases i with
  | zero =>
    simp only [Nat.testBit_zero]
    rcases Nat.eq_zero_or_pos b with h | h
    · subst h
      simp
    · have hb1 : b = 1 := by omega
      subst hb1
      simp
      omega
  | succ i =>
    simp only [Nat.testBit_add_one]
    have h2 : 2 * r / 2 = r := by omega
    have h3 : (2 * r + b) / 2 = r := by omega
    have h4 : b / 2 = 0 := by omega
    rw [h2, h3, h4]
    simp

theorem bitrevStep_eq (r n : ℕ) : bitrevStep (r, n) = (2 * r + n % 2, n / 2) := by
  unfold bitrevStep
  have h1 : r <<< 1 = 2 * r := by
    rw [Nat.shiftLeft_eq]
    ring
  have h2 : n &&& 1 = n % 2 := Nat.and_one_is_mod n
  have h3 : n >>> 1 = n / 2 := by
    rw [Nat.shiftRight_eq_div_pow]
  simp only [h1, h2, h3]
  rw [two_mul_or_bit r (n % 2) (by omega)]

theorem bitrev_foldl (l : ℕ) : ∀ r n : ℕ,
    (List.range l).foldl (fun rn _ => bitrevStep rn) (r, n) =
      (r * 2 ^ l + bitreverse n l, n / 2 ^ l) := by
  induction l with
  | zero => intro r n; simp [bitreverse]
  | succ l ih =>
    intro r n
    have expand : ∀ r0 n0 : ℕ,
        (List.range (l + 1)).foldl (fun rn _ => bitrevStep rn) (r0, n0) =
          ((2 * r0 + n0 % 2) * 2 ^ l + bitreverse (n0 / 2) l, n0 / 2 / 2 ^ l) := by
      intro r0 n0
      rw [List.range_succ_eq_map, List.foldl_cons, List.foldl_map, bitrevStep_eq, ih]
    have hb : bitreverse n (l + 1) = n % 2 * 2 ^ l + bitreverse (n / 2) l := by
      show ((List.range (l + 1)).foldl (fun rn _ => bitrevStep rn) (0, n)).1 = _
      rw [expand 0 n]
      simp
    rw [expand r n, hb]
    refine Prod.ext ?_ ?_
    · show (2 * r + n % 2) * 2 ^ l + bitreverse (n / 2) l =
        r * 2 ^ (l + 1) + (n % 2 * 2 ^ l + bitreverse (n / 2) l)
      ring
    · show n / 2 / 2 ^ l = n / 2 ^ (l + 1)
      rw [Nat.div_div_eq_div_mul, ← pow_succ']

/-- Recursion for bit reversal: the low bit of `n` becomes the top bit. -/
theorem bitreverse_succ (n l : ℕ) :
    bitreverse n (l + 1) = n % 2 * 2 ^ l + bitreverse (n / 2) l := by
  show ((List.range (l + 1)).foldl (fun rn _ => bitrevStep rn) (0, n)).1 = _
  rw [List.range_succ_eq_map, List.foldl_cons, List.foldl_map, bitrevStep_eq, bitrev_foldl]
  simp

@[simp] theorem bitreverse_zero_l (n : ℕ) : bitreverse n 0 = 0 := rfl

theorem bitreverse_lt (n l : ℕ) : bitreverse n l < 2 ^ l := by
  induction l generalizing n with
  | zero => simp
  | succ l ih =>
    rw [bitreverse_succ, pow_succ]
    have h1 := ih (n / 2)
    have h2 : n % 2 ≤ 1 := Nat.le_of_lt_succ (Nat.mod_lt _ (by norm_num))
    calc n % 2 * 2 ^ l + bitreverse (n / 2) l ≤ 1 * 2 ^ l + bitreverse (n / 2) l := by
          exact Nat.add_le_add_right (Nat.mul_le_mul_right _ h2) _
      _ < 2 ^ l + 2 ^ l := by omega
      _ = 2 ^ l * 2 := by ring

/-- Appending a high bit to the input puts it at the bottom of the reversal. -/
theorem bitreverse_high (l : ℕ) : ∀ x b : ℕ, x < 2 ^ l → b ≤ 1 →
    bitreverse (x + b * 2 ^ l) (l + 1) = 2 * bitreverse x l + b := by
  induction l with
  | zero =>
    intro x b hx hb
    interval_cases x
    simp only [bitreverse_succ, bitreverse_zero_l, pow_zero, mul_one, Nat.zero_add]
    omega
  | succ l ih =>
    intro x b hx hb
    have h2l : (0:ℕ) < 2 ^ l := Nat.pos_pow_of_pos l (by norm_num)
    have hp : b * 2 ^ (l + 1) = 2 * (b * 2 ^ l) := by
      rw [pow_succ]
      ring
    have hmod : (x + b * 2 ^ (l + 1)) % 2 = x % 2 := by
      rw [hp]
      omega
    have hdiv : (x + b * 2 ^ (l + 1)) / 2 = x / 2 + b * 2 ^ l := by
      rw [hp]
      omega
    have hx2 : x / 2 < 2 ^ l := by
      rw [pow_succ] at hx
      omega
    rw [bitreverse_succ, hmod, hdiv, ih (x / 2) b hx2 hb]
    rw [bitreverse_succ]
    ring

/-- Bit reversal is an involution on `[0, 2^l)`. -/
theorem bitreverse_bitreverse (l : ℕ) : ∀ n : ℕ, n < 2 ^ l →
    bitreverse (bitreverse n l) l = n := by
  induction l with
  | zero => intro n hn; interval_cases n; rfl
  | succ l ih =>
    intro n hn
    rw [bitreverse_succ n l, Nat.add_comm]
    rw [bitreverse_high l (bitreverse (n / 2) l) (n % 2) (bitreverse_lt _ _)
      (Nat.le_of_lt_succ (Nat.mod_lt _ (by norm_num)))]
    rw [ih (n / 2) (by rw [pow_succ] at hn; omega)]
    omega

/-- Reversing an even value drops the bottom zero bit. -/
theorem bitreverse_two_mul (q l : ℕ) :
    bitreverse (2 * q) (l + 1) = bitreverse q l := by
  rw [bitreverse_succ]
  simp [Nat.mul_div_cancel_left, Nat.mul_mod_right]

/-- Reversing an odd value puts a one in the top position. -/
theorem bitreverse_two_mul_add_one (q l : ℕ) :
    bitreverse (2 * q + 1) (l + 1) = 2 ^ l + bitreverse q l := by
  rw [bitreverse_succ]
  have h1 : (2 * q + 1) % 2 = 1 := by omega
  have h2 : (2 * q + 1) / 2 = q := by omega
  rw [h1, h2]
  ring

/-! ## The bit-reversal swap pass of `serial_fft`:
`for k in 0..n { let rk = bitreverse(k, log_n); if k < rk { a.swap(rk, k) } }` -/

/-- Exchange the values at two positions of an array. -/
def swapAt {F : Type} (a : ℕ → F) (i j : ℕ) : ℕ → F :=
  fun t => if t = i then a j else if t = j then a i else a t

/-- The swap pass of `serial_fft` over indices `k < 2 ^ logn`. -/
def bitrevSwaps {F : Type} (a : ℕ → F) (logn : ℕ) : ℕ → F :=
  (List.range (2 ^ logn)).foldl
    (fun a k =>
      let rk := bitreverse k logn
      if k < rk then swapAt a rk k else a) a

theorem bitrevSwaps_upto {F : Type} (a : ℕ → F) (logn : ℕ) (j : ℕ)
    (hj : j ≤ 2 ^ logn) :
    ∀ i, ((List.range j).foldl
        (fun a k =>
          let rk := bitreverse k logn
          if k < rk then swapAt a rk k else a) a) i =
      if i < 2 ^ logn ∧ (i < j ∨ bitreverse i logn < j) then a (bitreverse i logn)
      else a i := by
  induction j with
  | zero =>
    intro i
    simp
  | succ j ih =>
    intro i
    have hj2 : j ≤ 2 ^ logn := Nat.le_of_succ_le hj
    have hjlt : j < 2 ^ logn := hj
    rw [List.range_succ, List.foldl_append, List.foldl_cons, List.foldl_nil]
    set b := (List.range j).foldl
      (fun a k =>
        let rk := bitreverse k logn
        if k < rk then swapAt a rk k else a) a with hb
    by_cases hswap : j < bitreverse j logn
    · rw [if_pos hswap]
      unfold swapAt
      by_cases hi1 : i = bitreverse j logn
      · subst hi1
        rw [if_pos rfl]
        rw [ih hj2 j]
        have hrr : bitreverse (bitreverse j logn) logn = j := bitreverse_bitreverse logn j hjlt
        rw [if_neg (by omega), if_pos ⟨bitreverse_lt _ _, Or.inr (by omega)⟩, hrr]
      · rw [if_neg hi1]
        by_cases hi2 : i = j
        · subst hi2
          rw [if_pos rfl, ih hj2 (bitreverse i logn)]
          have hrr : bitreverse (bitreverse i logn) logn = i :=
            bitreverse_bitreverse logn i hjlt
          rw [if_neg (by rw [hrr]; omega), if_pos ⟨hjlt, Or.inl (by omega)⟩]
        · rw [if_neg hi2, ih hj2 i]
          by_cases hin : i < 2 ^ logn
          · have hnotrev : bitreverse i logn = j → i = bitreverse j logn := by
              intro h
              rw [← h, bitreverse_bitreverse logn i hin]
            rcases Nat.lt_or_ge i j with h | h
            · rw [if_pos ⟨hin, Or.inl h⟩, if_pos ⟨hin, Or.inl (by omega)⟩]
            · rcases Nat.lt_or_ge (bitreverse i logn) j with h2 | h2
              · rw [if_pos ⟨hin, Or.inr h2⟩, if_pos ⟨hin, Or.inr (by omega)⟩]
              · rw [if_neg (by omega)]
                rw [if_neg (by
                  rintro ⟨-, hor | hor⟩
                  · omega
                  · exact hi1 (hnotrev (by omega)))]
          · rw [if_neg (by tauto), if_neg (by tauto)]
    · rw [if_neg hswap, ih hj2 i]
      by_cases hin : i < 2 ^ logn
      · rcases Nat.lt_or_ge i j with h | h
        · rw [if_pos ⟨hin, Or.inl h⟩, if_pos ⟨hin, Or.inl (by omega)⟩]
        · rcases Nat.lt_or_ge (bitreverse i logn) j with h2 | h2
          · rw [if_pos ⟨hin, Or.inr h2⟩, if_pos ⟨hin, Or.inr (by omega)⟩]
          · by_cases hij : i = j
            · subst hij
              have : bitreverse i logn = i := by omega
              rw [if_neg (by omega), if_pos ⟨hin, Or.inl (by omega)⟩, this]
            · rw [if_neg (by omega)]
              rw [if_neg (by
                rintro ⟨-, hor | hor⟩
                · omega
                · have : bitreverse i logn = j := by omega
                  have hrr : bitreverse (bitreverse i logn) logn = i :=
                    bitreverse_bitreverse logn i hin
                  rw [this] at hrr
                  omega)]
      · rw [if_neg (by tauto), if_neg (by tauto)]

/-- The swap pass realizes the bit-reversal permutation. -/
theorem bitrevSwaps_apply {F : Type} (a : ℕ → F) (logn : ℕ) (i : ℕ) :
    bitrevSwaps a logn i = if i < 2 ^ logn then a (bitreverse i logn) else a i := by
  unfold bitrevSwaps
  rw [bitrevSwaps_upto a logn (2 ^ logn) le_rfl i]
  by_cases hin : i < 2 ^ logn
  · rw [if_pos ⟨hin, Or.inl hin⟩, if_pos hin]
  · rw [if_neg (by tauto), if_neg hin]

/-! ## The butterfly loops of `serial_fft` (`src/domain.rs`)

```text
let mut m = 1;
for _ in 0..log_n {
    let w_m = omega.pow_vartime(&[u64::from(n / (2 * m))]);
    let mut k = 0;
    while k < n {
        let mut w = S::one();
        for j in 0..m {
            let mut t = a[(k + j + m)];
            t.group_mul_assign(&w);
            let mut tmp = a[(k + j)];
            tmp.group_sub_assign(&t);
            a[(k + j + m)] = tmp;
            a[(k + j)].group_add_assign(&t);
            w.mul_assign(&w_m);
        }
        k += 2 * m;
    }
    m *= 2;
}
```
-/

section SerialFft

variable {F : Type} [Field F]

/-- Body of the inner `for j in 0..m` loop of `serial_fft`, acting on the pair
of the array and the running twiddle `w`. -/
def butterflyStep (wm : F) (k m : ℕ) (aw : (ℕ → F) × F) (j : ℕ) : (ℕ → F) × F :=
  let a := aw.1
  let w := aw.2
  let t := a (k + j + m) * w
  let tmp := a (k + j) - t
  let a1 : ℕ → F := fun i => if i = k + j + m then tmp else a i
  let a2 : ℕ → F := fun i => if i = k + j then a1 (k + j) + t else a1 i
  (a2, w * wm)

/-- The inner butterfly pass of `serial_fft` on the block starting at `k`. -/
def butterflyPass (wm : F) (k m : ℕ) (a : ℕ → F) : ℕ → F :=
  ((List.range m).foldl (butterflyStep wm k m) (a, 1)).1

/-- One iteration of the outer `for _ in 0..log_n` loop of `serial_fft`: the
`while k < n` walk over the blocks, then `m *= 2`.  For the power-of-two sizes
`serial_fft` is called with, the `while` loop runs exactly `n / (2 * m)`
times. -/
def serialFftStage (ω : F) (n : ℕ) (am : (ℕ → F) × ℕ) : (ℕ → F) × ℕ :=
  let m := am.2
  let wm := ω ^ (n / (2 * m))
  ((List.range (n / (2 * m))).foldl
      (fun a kk => butterflyPass wm (kk * (2 * m)) m a) am.1,
    2 * m)

/-- `serial_fft` from `src/domain.rs`: bit-reversal swaps, then `log_n`
butterfly stages with doubling block half-width `m`. -/
def serialFft (a : ℕ → F) (ω : F) (logn : ℕ) : ℕ → F :=
  ((List.range logn).foldl (fun am _ => serialFftStage ω (2 ^ logn) am)
      (bitrevSwaps a logn, 1)).1

/-- `serial_fft` acting on a concrete coefficient vector. -/
def serialFftList (a : List F) (ω : F) (logn : ℕ) : List F :=
  (List.range a.length).map (serialFft (fun i => a.getD i 0) ω logn)

theorem butterflyFold_char (wm : F) (k m : ℕ) (j0 : ℕ) (hj0 : j0 ≤ m) (hm : 0 < m) :
    ∀ (a : ℕ → F) (w0 : F),
      ((List.range j0).foldl (butterflyStep wm k m) (a, w0)).2 = w0 * wm ^ j0 ∧
      ∀ i, ((List.range j0).foldl (butterflyStep wm k m) (a, w0)).1 i =
        if k ≤ i ∧ i < k + j0 then a i + w0 * wm ^ (i - k) * a (i + m)
        else if k + m ≤ i ∧ i < k + m + j0 then
          a (i - m) + -(w0 * wm ^ (i - (k + m)) * a i)
        else a i := by
  induction j0 with
  | zero =>
    intro a w0
    refine ⟨by simp, fun i => ?_⟩
    simp only [List.range_zero, List.foldl_nil]
    rw [if_neg (by omega), if_neg (by omega)]
  | succ j0 ih =>
    intro a w0
    have hj0m : j0 ≤ m := Nat.le_of_succ_le hj0
    have hj0lt : j0 < m := hj0
    obtain ⟨ihw, iha⟩ := ih hj0m a w0
    rw [List.range_succ, List.foldl_append, List.foldl_cons, List.foldl_nil]
    set st := (List.range j0).foldl (butterflyStep wm k m) (a, w0) with hst
    have hread_lo : st.1 (k + j0) = a (k + j0) := by
      rw [iha]
      rw [if_neg (by omega), if_neg (by omega)]
    have hread_hi : st.1 (k + j0 + m) = a (k + j0 + m) := by
      rw [iha]
      rw [if_neg (by omega), if_neg (by omega)]
    have hstep : butterflyStep wm k m st j0 =
        butterflyStep wm k m (st.1, st.2) j0 := by rfl
    constructor
    · show (butterflyStep wm k m st j0).2 = _
      unfold butterflyStep
      rw [ihw, pow_succ]
      ring
    · intro i
      show (butterflyStep wm k m st j0).1 i = _
      unfold butterflyStep
      simp only []
      by_cases hi1 : i = k + j0
      · rw [if_pos hi1]
        rw [if_neg (by omega)]
        rw [hread_lo, hread_hi, ihw, hi1]
        rw [if_pos (by omega)]
        have : k + j0 - k = j0 := by omega
        rw [this]
        ring
      · rw [if_neg hi1]
        by_cases hi2 : i = k + j0 + m
        · rw [if_pos hi2, hread_lo, hread_hi, ihw, hi2]
          rw [if_neg (by omega), if_pos (by omega)]
          have h1 : k + j0 + m - m = k + j0 := by omega
          have h2 : k + j0 + m - (k + m) = j0 := by omega
          rw [h1, h2]
          ring
        · rw [if_neg hi2, iha]
          by_cases ha : k ≤ i ∧ i < k + j0
          · rw [if_pos ha, if_pos (by omega)]
          · rw [if_neg ha]
            by_cases hb : k + m ≤ i ∧ i < k + m + j0
            · rw [if_pos hb, if_neg (by omega), if_pos (by omega)]
            · rw [if_neg hb]
              rw [if_neg (by omega), if_neg (by omega)]

theorem butterflyPass_lo (wm : F) (k m t : ℕ) (hm : 0 < m) (ht : t < m) (a : ℕ → F) :
    butterflyPass wm k m a (k + t) = a (k + t) + wm ^ t * a (k + t + m) := by
  unfold butterflyPass
  rw [(butterflyFold_char wm k m m le_rfl hm a 1).2 (k + t)]
  rw [if_pos (by omega)]
  have : k + t - k = t := by omega
  rw [this, one_mul]

theorem butterflyPass_hi (wm : F) (k m t : ℕ) (hm : 0 < m) (ht : t < m) (a : ℕ → F) :
    butterflyPass wm k m a (k + t + m) = a (k + t) - wm ^ t * a (k + t + m) := by
  unfold butterflyPass
  rw [(butterflyFold_char wm k m m le_rfl hm a 1).2 (k + t + m)]
  rw [if_neg (by omega), if_pos (by omega)]
  have h1 : k + t + m - m = k + t := by omega
  have h2 : k + t + m - (k + m) = t := by omega
  rw [h1, h2, one_mul]
  ring

theorem butterflyPass_out (wm : F) (k m i : ℕ) (hm : 0 < m)
    (hi : i < k ∨ k + 2 * m ≤ i) (a : ℕ → F) :
    butterflyPass wm k m a i = a i := by
  unfold butterflyPass
  rw [(butterflyFold_char wm k m m le_rfl hm a 1).2 i]
  rw [if_neg (by omega), if_neg (by omega)]

theorem stageFold_char (wm : F) (m : ℕ) (hm : 0 < m) (B : ℕ) (a : ℕ → F) :
    ∀ i, ((List.range B).foldl
        (fun a kk => butterflyPass wm (kk * (2 * m)) m a) a) i =
      if i < B * (2 * m) then
        (if i % (2 * m) < m then a i + wm ^ (i % (2 * m)) * a (i + m)
         else a (i - m) - wm ^ (i % (2 * m) - m) * a i)
      else a i := by
  induction B with
  | zero =>
    intro i
    simp
  | succ B ih =>
    intro i
    rw [List.range_succ, List.foldl_append, List.foldl_cons, List.foldl_nil]
    set c := (List.range B).foldl (fun a kk => butterflyPass wm (kk * (2 * m)) m a) a
      with hc
    have hout : ∀ t, B * (2 * m) ≤ t → c t = a t := by
      intro t ht
      rw [ih t, if_neg (by omega)]
    have hmul : (B + 1) * (2 * m) = B * (2 * m) + 2 * m := by ring
    rcases Nat.lt_or_ge i (B * (2 * m)) with hlt | hge
    · rw [butterflyPass_out wm (B * (2 * m)) m i hm (by omega) c, ih i,
        if_pos hlt, if_pos (show i < (B + 1) * (2 * m) by omega)]
    · rcases Nat.lt_or_ge i ((B + 1) * (2 * m)) with hlt2 | hge2
      · have hdecomp : ∃ t, t < 2 * m ∧ i = B * (2 * m) + t := by
          refine ⟨i - B * (2 * m), by omega, by omega⟩
        obtain ⟨t, ht, rfl⟩ := hdecomp
        have hmod : (B * (2 * m) + t) % (2 * m) = t := by
          rw [Nat.mul_comm B (2 * m), Nat.mul_add_mod]
          exact Nat.mod_eq_of_lt ht
        rcases Nat.lt_or_ge t m with htm | htm
        · rw [butterflyPass_lo wm (B * (2 * m)) m t hm htm c]
          rw [hout (B * (2 * m) + t) (by omega),
            hout (B * (2 * m) + t + m) (by omega)]
          rw [if_pos (show B * (2 * m) + t < (B + 1) * (2 * m) by omega),
            hmod, if_pos htm]
        · have hdec2 : B * (2 * m) + t = B * (2 * m) + (t - m) + m := by omega
          rw [hdec2, butterflyPass_hi wm (B * (2 * m)) m (t - m) hm (by omega) c]
          rw [hout (B * (2 * m) + (t - m)) (by omega),
            hout (B * (2 * m) + (t - m) + m) (by omega)]
          have hmod2 : (B * (2 * m) + (t - m) + m) % (2 * m) = t := by
            have heq : B * (2 * m) + (t - m) + m = B * (2 * m) + t := by omega
            rw [heq, hmod]
          rw [if_pos (show B * (2 * m) + (t - m) + m < (B + 1) * (2 * m) by omega),
            hmod2, if_neg (show ¬ t < m by omega)]
          have h1 : B * (2 * m) + (t - m) + m - m = B * (2 * m) + (t - m) := by omega
          rw [h1]
      · rw [butterflyPass_out wm (B * (2 * m)) m i hm (by omega) c,
          hout i (by omega), if_neg (show ¬ i < (B + 1) * (2 * m) by omega)]

/-- The discrete Fourier sum `∑ t < M, x t * ζ ^ (t * k)`: entry `k` of the
`M`-point DFT of `x` at the root `ζ`. -/
def dftSum (x : ℕ → F) (ζ : F) (M k : ℕ) : F :=
  ∑ t ∈ Finset.range M, x t * ζ ^ (t * k)

theorem dftSum_split (y : ℕ → F) (ζ : F) (M j : ℕ) :
    dftSum y ζ (2 * M) j =
      dftSum (fun t => y (2 * t)) (ζ ^ 2) M j
        + ζ ^ j * dftSum (fun t => y (2 * t + 1)) (ζ ^ 2) M j := by
  induction M with
  | zero => simp [dftSum]
  | succ M ih =>
    have h2 : 2 * (M + 1) = 2 * M + 1 + 1 := by ring
    unfold dftSum at ih ⊢
    rw [h2, Finset.sum_range_succ, Finset.sum_range_succ,
      Finset.sum_range_succ, Finset.sum_range_succ, ih]
    beta_reduce
    have e1 : (ζ ^ 2) ^ (M * j) = ζ ^ (2 * M * j) := by
      rw [← pow_mul]
      congr 1
      ring
    have e3 : ζ ^ ((2 * M + 1) * j) = ζ ^ (2 * M * j) * ζ ^ j := by
      rw [← pow_add]
      congr 1
      ring
    rw [e1, e3]
    ring

theorem dftSum_period (x : ℕ → F) (ζ : F) (M j : ℕ) (h : ζ ^ M = 1) :
    dftSum x ζ M (M + j) = dftSum x ζ M j := by
  unfold dftSum
  refine Finset.sum_congr rfl fun t ht => ?_
  have e : ζ ^ (t * (M + j)) = (ζ ^ M) ^ t * ζ ^ (t * j) := by
    rw [← pow_mul, ← pow_add]
    ring_nf
  rw [e, h, one_pow, one_mul]

theorem serialFftStage_def (ω : F) (n : ℕ) (am : (ℕ → F) × ℕ) :
    serialFftStage ω n am =
      ((List.range (n / (2 * am.2))).foldl
        (fun a kk => butterflyPass (ω ^ (n / (2 * am.2))) (kk * (2 * am.2)) am.2 a) am.1,
       2 * am.2) := rfl

/-- The state of `serial_fft` after the bit-reversal pass and the first `s`
butterfly stages. -/
def serialFftIter (a : ℕ → F) (ω : F) (logn s : ℕ) : (ℕ → F) × ℕ :=
  (List.range s).foldl (fun am _ => serialFftStage ω (2 ^ logn) am)
    (bitrevSwaps a logn, 1)

theorem serialFft_eq_iter (a : ℕ → F) (ω : F) (logn : ℕ) :
    serialFft a ω logn = (serialFftIter a ω logn logn).1 := rfl

theorem serialFftIter_succ (a : ℕ → F) (ω : F) (logn s : ℕ) :
    serialFftIter a ω logn (s + 1) =
      serialFftStage ω (2 ^ logn) (serialFftIter a ω logn s) := by
  unfold serialFftIter
  rw [List.range_succ, List.foldl_append, List.foldl_cons, List.foldl_nil]

/-- Invariant of the butterfly stages: after `s` stages, block `q` of width
`2 ^ s` holds the `2 ^ s`-point DFT of the stride-`2 ^ (L - s)` subsequence of
the input starting at offset `bitreverse q (L - s)`. -/
theorem serialFftIter_inv (a : ℕ → F) (ω : F) (L : ℕ)
    (hω1 : ω ^ 2 ^ L = 1) (hωh : 1 ≤ L → ω ^ 2 ^ (L - 1) = -1) :
    ∀ s, s ≤ L →
      (serialFftIter a ω L s).2 = 2 ^ s ∧
      ∀ q j, q < 2 ^ (L - s) → j < 2 ^ s →
        (serialFftIter a ω L s).1 (q * 2 ^ s + j) =
          dftSum (fun t => a (t * 2 ^ (L - s) + bitreverse q (L - s)))
            (ω ^ 2 ^ (L - s)) (2 ^ s) j := by
  intro s
  induction s with
  | zero =>
    intro _
    refine ⟨rfl, fun q j hq hj => ?_⟩
    interval_cases j
    show bitrevSwaps a L (q * 1 + 0) = _
    have hq2 : q * 1 + 0 = q := by omega
    rw [hq2, bitrevSwaps_apply]
    simp only [Nat.sub_zero] at hq ⊢
    rw [if_pos hq]
    unfold dftSum
    rw [pow_zero, Finset.sum_range_one]
    simp
  | succ s ih =>
    intro hs
    have hsL : s ≤ L := by omega
    obtain ⟨ihm, iha⟩ := ih hsL
    rw [serialFftIter_succ]
    set prev := serialFftIter a ω L s with hprev
    rw [serialFftStage_def, ihm]
    have hpow : (2:ℕ) ^ L / (2 * 2 ^ s) = 2 ^ (L - s - 1) := by
      have h1 : (2:ℕ) * 2 ^ s = 2 ^ (s + 1) := (pow_succ' 2 s).symm
      have hsub1 : L - (s + 1) = L - s - 1 := by omega
      rw [h1, Nat.pow_div (by omega) (by norm_num), hsub1]
    rw [hpow]
    have hm : (0:ℕ) < 2 ^ s := Nat.pos_pow_of_pos s (by norm_num)
    have h2M : (2:ℕ) * 2 ^ s = 2 ^ (s + 1) := (pow_succ' 2 s).symm
    have hLsub : L - (s + 1) = L - s - 1 := by omega
    have hLs : L - s = (L - s - 1) + 1 := by omega
    have hes : L - s - 1 + 1 = L - s := by omega
    have hζsq : (ω ^ 2 ^ (L - s - 1)) ^ 2 = ω ^ 2 ^ (L - s) := by
      rw [← pow_mul, ← pow_succ, hes]
    have hζM1 : (ω ^ 2 ^ (L - s)) ^ 2 ^ s = 1 := by
      rw [← pow_mul, ← pow_add]
      have h1 : L - s + s = L := by omega
      rw [h1, hω1]
    have hζhalf : (ω ^ 2 ^ (L - s - 1)) ^ 2 ^ s = -1 := by
      rw [← pow_mul, ← pow_add]
      have h1 : L - s - 1 + s = L - 1 := by omega
      rw [h1]
      exact hωh (by omega)
    constructor
    · show 2 * 2 ^ s = 2 ^ (s + 1)
      rw [pow_succ]
      ring
    · intro q j hq hj
      rw [hLsub] at hq ⊢
      rw [hLs] at iha hζsq hζM1
      set D := L - s - 1 with hD
      simp only [Nat.add_sub_cancel] at hζsq
      have hDpow : (2:ℕ) ^ (D + 1) = 2 ^ D * 2 := pow_succ 2 D
      show (List.range (2 ^ D)).foldl
          (fun b kk => butterflyPass (ω ^ 2 ^ D) (kk * (2 * 2 ^ s)) (2 ^ s) b)
          prev.1 (q * 2 ^ (s + 1) + j) = _
      rw [stageFold_char (ω ^ 2 ^ D) (2 ^ s) hm (2 ^ D) prev.1
          (q * 2 ^ (s + 1) + j)]
      have hBn : (2:ℕ) ^ D * (2 * 2 ^ s) = 2 ^ L := by
        rw [h2M, ← pow_add]
        congr 1
        omega
      have hq1succ : (q + 1) * 2 ^ (s + 1) = q * 2 ^ (s + 1) + 2 ^ (s + 1) := by ring
      have hqmul : (q + 1) * 2 ^ (s + 1) ≤ 2 ^ D * 2 ^ (s + 1) :=
        Nat.mul_le_mul_right _ (by omega)
      have hexp : (2:ℕ) ^ D * 2 ^ (s + 1) = 2 ^ L := by
        rw [← pow_add]
        congr 1
        omega
      have hin : q * 2 ^ (s + 1) + j < 2 ^ L := by omega
      rw [if_pos (by rw [hBn]; exact hin)]
      have hmod : (q * 2 ^ (s + 1) + j) % (2 * 2 ^ s) = j := by
        rw [h2M, Nat.mul_comm q (2 ^ (s + 1)), Nat.mul_add_mod]
        exact Nat.mod_eq_of_lt hj
      rw [hmod]
      have hq2 : 2 * q + 1 < 2 ^ (D + 1) := by
        rw [hDpow]
        omega
      have hq1 : 2 * q < 2 ^ (D + 1) := by omega
      have hevenfun : (fun t => a (2 * t * 2 ^ D + bitreverse q D)) =
          fun t => a (t * 2 ^ (D + 1) + bitreverse (2 * q) (D + 1)) := by
        funext t
        have e1 : 2 * t * 2 ^ D = t * 2 ^ (D + 1) := by
          rw [hDpow]
          ring
        rw [e1, bitreverse_two_mul]
      have hoddfun : (fun t => a ((2 * t + 1) * 2 ^ D + bitreverse q D)) =
          fun t => a (t * 2 ^ (D + 1) + bitreverse (2 * q + 1) (D + 1)) := by
        funext t
        have e1 : (2 * t + 1) * 2 ^ D + bitreverse q D =
            t * 2 ^ (D + 1) + (2 ^ D + bitreverse q D) := by
          rw [hDpow]
          ring
        rw [e1, bitreverse_two_mul_add_one]
      have hqq : q * 2 ^ (s + 1) = 2 * q * 2 ^ s := by
        rw [pow_succ]
        ring
      have hsplit := dftSum_split
        (fun u => a (u * 2 ^ D + bitreverse q D))
        (ω ^ 2 ^ D) (2 ^ s) j
      beta_reduce at hsplit
      rw [h2M, hevenfun, hoddfun, hζsq] at hsplit
      rcases Nat.lt_or_ge j (2 ^ s) with hjM | hjM
      · rw [if_pos hjM]
        have e1 : q * 2 ^ (s + 1) + j = 2 * q * 2 ^ s + j := by omega
        have e2 : 2 * q * 2 ^ s + j + 2 ^ s = (2 * q + 1) * 2 ^ s + j := by ring
        rw [e1, e2, iha (2 * q) j hq1 hjM, iha (2 * q + 1) j hq2 hjM]
        rw [hsplit]
      · rw [if_neg (by omega)]
        obtain ⟨j0, rfl⟩ : ∃ j0, j = 2 ^ s + j0 := ⟨j - 2 ^ s, by omega⟩
        have hj0 : j0 < 2 ^ s := by
          rw [pow_succ] at hj
          omega
        have hsub : 2 ^ s + j0 - 2 ^ s = j0 := by omega
        have e1 : q * 2 ^ (s + 1) + (2 ^ s + j0) - 2 ^ s = 2 * q * 2 ^ s + j0 := by omega
        have hq21 : (2 * q + 1) * 2 ^ s = 2 * q * 2 ^ s + 2 ^ s := by ring
        have e2 : q * 2 ^ (s + 1) + (2 ^ s + j0) = (2 * q + 1) * 2 ^ s + j0 := by omega
        rw [hsub, e1, e2, iha (2 * q) j0 hq1 hj0, iha (2 * q + 1) j0 hq2 hj0]
        rw [hsplit]
        rw [dftSum_period _ _ _ _ hζM1, dftSum_period _ _ _ _ hζM1]
        rw [pow_add (ω ^ 2 ^ D) (2 ^ s) j0, hζhalf]
        ring

/-- A primitive `2 ^ L`-th root of unity has `ω ^ (2 ^ (L - 1)) = -1`. -/
theorem primitive_pow_half (ω : F) (L : ℕ) (hω : IsPrimitiveRoot ω (2 ^ L))
    (hL : 1 ≤ L) : ω ^ 2 ^ (L - 1) = -1 := by
  have hsq : ω ^ 2 ^ (L - 1) * ω ^ 2 ^ (L - 1) = 1 := by
    rw [← pow_add]
    have e1 : (2:ℕ) ^ (L - 1) * 2 = 2 ^ (L - 1 + 1) := (pow_succ 2 (L - 1)).symm
    have e2 : L - 1 + 1 = L := by omega
    rw [e2] at e1
    have e3 : 2 ^ (L - 1) + 2 ^ (L - 1) = 2 ^ L := by omega
    rw [e3, hω.pow_eq_one]
  rcases mul_self_eq_one_iff.mp hsq with h1 | h1
  · exfalso
    have hdvd := (hω.pow_eq_one_iff_dvd (2 ^ (L - 1))).mp h1
    have hpos : 0 < 2 ^ (L - 1) := Nat.pos_pow_of_pos _ (by norm_num)
    have hle := Nat.le_of_dvd hpos hdvd
    have hlt : 2 ^ (L - 1) < 2 ^ L := Nat.pow_lt_pow_right (by norm_num) (by omega)
    omega
  · exact h1

/-- The serial FFT computes the DFT matrix at a primitive root. -/
theorem serialFft_dft (a : ℕ → F) (ω : F) (L : ℕ)
    (hω1 : ω ^ 2 ^ L = 1) (hωh : 1 ≤ L → ω ^ 2 ^ (L - 1) = -1) :
    ∀ i, i < 2 ^ L → serialFft a ω L i = dftSum a ω (2 ^ L) i := by
  intro i hi
  rw [serialFft_eq_iter]
  have h := (serialFftIter_inv a ω L hω1 hωh L le_rfl).2 0 i
    (by simp) (by simpa using hi)
  simp only [Nat.sub_self, pow_zero, pow_one, mul_one, bitreverse_zero_l,
    Nat.add_zero, Nat.zero_mul, Nat.zero_add, zero_mul, zero_add, mul_one] at h
  exact h

theorem serialFft_dft_of_primitive (a : ℕ → F) (ω : F) (L : ℕ)
    (hω : IsPrimitiveRoot ω (2 ^ L)) :
    ∀ i, i < 2 ^ L → serialFft a ω L i = dftSum a ω (2 ^ L) i :=
  serialFft_dft a ω L hω.pow_eq_one (primitive_pow_half ω L hω)

/-- Geometric sum of a nontrivial root of unity vanishes. -/
theorem rootSum_ne (μ : F) (M : ℕ) (hμ : μ ^ M = 1) (h1 : μ ≠ 1) :
    ∑ k ∈ Finset.range M, μ ^ k = 0 := by
  rw [geom_sum_eq h1, hμ, sub_self, zero_div]

/-- Orthogonality of characters for a primitive `M`-th root of unity. -/
theorem dft_orthogonal (ω : F) (M : ℕ) (hω : IsPrimitiveRoot ω M)
    (t j : ℕ) (ht : t < M) (hj : j < M) :
    ∑ k ∈ Finset.range M, ω ^ (t * k) * ω⁻¹ ^ (k * j) =
      if t = j then (M : F) else 0 := by
  have hM : 0 < M := by omega
  have hω0 : ω ≠ 0 := by
    intro h
    have h1 := hω.pow_eq_one
    rw [h, zero_pow (show M ≠ 0 by omega)] at h1
    exact zero_ne_one h1
  have hωj : ω ^ j ≠ 0 := pow_ne_zero _ hω0
  have hterm : ∀ k, ω ^ (t * k) * ω⁻¹ ^ (k * j) = (ω ^ t / ω ^ j) ^ k := by
    intro k
    rw [div_pow, ← pow_mul, ← pow_mul, div_eq_mul_inv, ← inv_pow, Nat.mul_comm j k]
  rw [Finset.sum_congr rfl fun k _ => hterm k]
  by_cases heq : t = j
  · subst heq
    rw [div_self hωj, if_pos rfl]
    simp
  · rw [if_neg heq]
    have hμM : (ω ^ t / ω ^ j) ^ M = 1 := by
      rw [div_pow, ← pow_mul, ← pow_mul, Nat.mul_comm t M, Nat.mul_comm j M,
        pow_mul, pow_mul, hω.pow_eq_one, one_pow, one_pow]
      exact div_self one_ne_zero
    have hne1 : ω ^ t / ω ^ j ≠ 1 := by
      intro h
      rw [div_eq_one_iff_eq hωj] at h
      exact heq (hω.pow_inj ht hj h)
    exact rootSum_ne _ M hμM hne1

/-- DFT inversion: applying the DFT at `ω⁻¹` to the DFT at `ω` scales by `M`. -/
theorem dftSum_inv (x : ℕ → F) (ω : F) (M : ℕ) (hω : IsPrimitiveRoot ω M)
    (j : ℕ) (hj : j < M) :
    dftSum (fun k => dftSum x ω M k) ω⁻¹ M j = (M : F) * x j := by
  unfold dftSum
  have hswap : ∑ k ∈ Finset.range M, (∑ t ∈ Finset.range M, x t * ω ^ (t * k)) * ω⁻¹ ^ (k * j)
      = ∑ t ∈ Finset.range M, x t * ∑ k ∈ Finset.range M, ω ^ (t * k) * ω⁻¹ ^ (k * j) := by
    have h1 : ∀ k, (∑ t ∈ Finset.range M, x t * ω ^ (t * k)) * ω⁻¹ ^ (k * j)
        = ∑ t ∈ Finset.range M, x t * (ω ^ (t * k) * ω⁻¹ ^ (k * j)) := by
      intro k
      rw [Finset.sum_mul]
      refine Finset.sum_congr rfl fun t _ => ?_
      ring
    rw [Finset.sum_congr rfl fun k _ => h1 k, Finset.sum_comm]
    refine Finset.sum_congr rfl fun t _ => ?_
    rw [Finset.mul_sum]
  rw [hswap]
  have hterm : ∀ t ∈ Finset.range M, x t * (∑ k ∈ Finset.range M, ω ^ (t * k) * ω⁻¹ ^ (k * j))
      = if t = j then x t * (M : F) else 0 := by
    intro t ht
    rw [dft_orthogonal ω M hω t j (Finset.mem_range.mp ht) hj]
    by_cases heq : t = j
    · rw [if_pos heq, if_pos heq]
    · rw [if_neg heq, if_neg heq, mul_zero]
  rw [Finset.sum_congr rfl hterm, Finset.sum_ite_eq' (Finset.range M) j
    (fun t => x t * (M : F))]
  rw [if_pos (Finset.mem_range.mpr hj)]
  ring

/-! ## `parallel_fft` (`src/domain.rs`)

```text
let num_cpus = 1 << log_cpus;
let log_new_n = log_n - log_cpus;
let mut tmp = vec![vec![T::group_zero(); 1 << log_new_n]; num_cpus];
let new_omega = omega.pow_vartime(&[num_cpus as u64]);
for (j, tmp) in tmp.iter_mut().enumerate() {   // spawned per j
    let omega_j = omega.pow_vartime(&[j as u64]);
    let omega_step = omega.pow_vartime(&[(j as u64) << log_new_n]);
    let mut elt = S::one();
    for (i, tmp) in tmp.iter_mut().enumerate() {
        for s in 0..num_cpus {
            let idx = (i + (s << log_new_n)) % (1 << log_n);
            let mut t = a[idx];
            t.group_mul_assign(&elt);
            tmp.group_add_assign(&t);
            elt.mul_assign(&omega_step);
        }
        elt.mul_assign(&omega_j);
    }
    serial_fft(tmp, &new_omega, log_new_n);
}
// interleave after the scope joins:
// a[idx] = tmp[idx & mask][idx >> log_cpus]
```
-/

/-- The shuffle loop of `parallel_fft` producing sub-vector `j` of `tmp`
before its sub-FFT.  The fold state is the sub-vector under construction
together with the running factor `elt`. -/
def parallelShuffle (a : ℕ → F) (ω : F) (logn logcpus j : ℕ) : ℕ → F :=
  let lognewn := logn - logcpus
  let numcpus := 2 ^ logcpus
  let omegaj := ω ^ j
  let omegastep := ω ^ (j <<< lognewn)
  ((List.range (2 ^ lognewn)).foldl (fun (te : (ℕ → F) × F) i =>
      let te2 := (List.range numcpus).foldl (fun (ts : (ℕ → F) × F) s =>
        let idx := (i + (s <<< lognewn)) % 2 ^ logn
        ((fun iq => if iq = i then ts.1 iq + a idx * ts.2 else ts.1 iq), ts.2 * omegastep)) te
      (te2.1, te2.2 * omegaj)) ((fun _ => (0:F)), (1:F))).1

/-- `parallel_fft` from `src/domain.rs`: per sub-vector `j`, shuffle then
`serial_fft` at `new_omega`; finally interleave
`a[idx] = tmp[idx & mask][idx >> log_cpus]`. -/
def parallelFft (a : ℕ → F) (ω : F) (logn logcpus : ℕ) : ℕ → F :=
  fun idx =>
    if idx < 2 ^ logn then
      serialFft (parallelShuffle a ω logn logcpus (idx &&& (2 ^ logcpus - 1)))
        (ω ^ 2 ^ logcpus) (logn - logcpus) (idx >>> logcpus)
    else a idx

/-- `parallel_fft` acting on a concrete coefficient vector. -/
def parallelFftList (a : List F) (ω : F) (logn logcpus : ℕ) : List F :=
  (List.range a.length).map (parallelFft (fun i => a.getD i 0) ω logn logcpus)

theorem parallelShuffle_inner (a : ℕ → F) (logn lognewn : ℕ) (os : F) (i : ℕ) :
    ∀ (S0 : ℕ) (tf : ℕ → F) (e0 : F),
      (List.range S0).foldl (fun (ts : (ℕ → F) × F) s =>
        let idx := (i + (s <<< lognewn)) % 2 ^ logn
        ((fun iq => if iq = i then ts.1 iq + a idx * ts.2 else ts.1 iq), ts.2 * os)) (tf, e0) =
      ((fun iq => if iq = i then
          tf iq + ∑ s ∈ Finset.range S0, a ((i + (s <<< lognewn)) % 2 ^ logn) * (e0 * os ^ s)
        else tf iq), e0 * os ^ S0) := by
  intro S0
  induction S0 with
  | zero =>
    intro tf e0
    simp only [List.range_zero, List.foldl_nil, Finset.range_zero, Finset.sum_empty,
      pow_zero, mul_one, add_zero, ite_self]
  | succ S0 ih =>
    intro tf e0
    rw [List.range_succ, List.foldl_append, List.foldl_cons, List.foldl_nil, ih tf e0]
    refine Prod.ext ?_ ?_
    · funext iq
      by_cases h : iq = i
      · subst h
        simp only [eq_self_iff_true, if_true]
        rw [Finset.sum_range_succ]
        ring
      · simp only [if_neg h]
    · show e0 * os ^ S0 * os = e0 * os ^ (S0 + 1)
      rw [pow_succ]
      ring

theorem parallelShuffle_apply (a : ℕ → F) (ω : F) (logn logcpus j : ℕ) (i : ℕ)
    (hi : i < 2 ^ (logn - logcpus)) :
    parallelShuffle a ω logn logcpus j i =
      ∑ s ∈ Finset.range (2 ^ logcpus),
        a ((i + (s <<< (logn - logcpus))) % 2 ^ logn)
          * ((ω ^ (j <<< (logn - logcpus))) ^ (i * 2 ^ logcpus + s) * (ω ^ j) ^ i) := by
  unfold parallelShuffle
  have houter : ∀ (I0 : ℕ), I0 ≤ 2 ^ (logn - logcpus) →
      (List.range I0).foldl (fun (te : (ℕ → F) × F) i =>
        let te2 := (List.range (2 ^ logcpus)).foldl (fun (ts : (ℕ → F) × F) s =>
          let idx := (i + (s <<< (logn - logcpus))) % 2 ^ logn
          ((fun iq => if iq = i then ts.1 iq + a idx * ts.2 else ts.1 iq),
            ts.2 * ω ^ (j <<< (logn - logcpus)))) te
        (te2.1, te2.2 * ω ^ j)) ((fun _ => (0:F)), (1:F)) =
      ((fun iq => if iq < I0 then
          ∑ s ∈ Finset.range (2 ^ logcpus),
            a ((iq + (s <<< (logn - logcpus))) % 2 ^ logn)
              * ((ω ^ (j <<< (logn - logcpus))) ^ (iq * 2 ^ logcpus + s) * (ω ^ j) ^ iq)
        else 0),
        (ω ^ (j <<< (logn - logcpus))) ^ (I0 * 2 ^ logcpus) * (ω ^ j) ^ I0) := by
    intro I0
    induction I0 with
    | zero =>
      intro _
      simp only [List.range_zero, List.foldl_nil, zero_mul, pow_zero, mul_one]
      refine Prod.ext ?_ rfl
      funext iq
      simp
    | succ I0 iho =>
      intro hI0
      rw [List.range_succ, List.foldl_append, List.foldl_cons, List.foldl_nil,
        iho (by omega)]
      rw [parallelShuffle_inner a logn (logn - logcpus) (ω ^ (j <<< (logn - logcpus)))
        I0 (2 ^ logcpus) _ _]
      refine Prod.ext ?_ ?_
      · funext iq
        simp only []
        by_cases h : iq = I0
        · subst h
          rw [if_pos rfl, if_neg (by omega), if_pos (by omega)]
          rw [zero_add]
          refine Finset.sum_congr rfl fun s hs => ?_
          rw [pow_add]
          ring
        · simp only [if_neg h]
          by_cases h2 : iq < I0
          · rw [if_pos h2, if_pos (by omega)]
          · rw [if_neg h2, if_neg (by omega)]
      · show (ω ^ (j <<< (logn - logcpus))) ^ (I0 * 2 ^ logcpus) * (ω ^ j) ^ I0
            * (ω ^ (j <<< (logn - logcpus))) ^ 2 ^ logcpus * ω ^ j =
          (ω ^ (j <<< (logn - logcpus))) ^ ((I0 + 1) * 2 ^ logcpus) * (ω ^ j) ^ (I0 + 1)
        rw [show (I0 + 1) * 2 ^ logcpus = I0 * 2 ^ logcpus + 2 ^ logcpus from by ring,
          pow_add, pow_succ]
        ring
  rw [houter (2 ^ (logn - logcpus)) le_rfl]
  simp only []
  rw [if_pos hi]

theorem sum_range_split (A B : ℕ) (f : ℕ → F) :
    ∑ t ∈ Finset.range (A + B), f t =
      (∑ t ∈ Finset.range A, f t) + ∑ t ∈ Finset.range B, f (A + t) := by
  rw [Finset.range_eq_Ico, ← Finset.sum_Ico_consecutive _ (Nat.zero_le A)
    (Nat.le_add_right A B), ← Finset.range_eq_Ico, Finset.sum_Ico_eq_sum_range]
  simp

theorem sum_range_mul_split (M N : ℕ) (f : ℕ → F) :
    ∑ t ∈ Finset.range (M * N), f t =
      ∑ s ∈ Finset.range N, ∑ i ∈ Finset.range M, f (i + s * M) := by
  induction N with
  | zero => simp
  | succ N ih =>
    have h1 : M * (N + 1) = M * N + M := by ring
    rw [h1, sum_range_split, ih, Finset.sum_range_succ]
    congr 1
    refine Finset.sum_congr rfl fun t _ => ?_
    congr 1
    ring

theorem pow_eq_of_exponent_cong (ω : F) (n : ℕ) (hn : ω ^ n = 1) (E W u v : ℕ)
    (h : E + n * u = W + n * v) : ω ^ E = ω ^ W := by
  have h1 : ω ^ (E + n * u) = ω ^ (W + n * v) := by rw [h]
  rw [pow_add, pow_add, pow_mul, pow_mul, hn, one_pow, one_pow, mul_one, mul_one] at h1
  exact h1

/-- The parallel FFT also computes the DFT matrix at a primitive root, for any
`log_cpus ≤ log_n`. -/
theorem parallelFft_dft (a : ℕ → F) (ω : F) (L c : ℕ) (hc : c ≤ L)
    (hω : IsPrimitiveRoot ω (2 ^ L)) :
    ∀ idx, idx < 2 ^ L → parallelFft a ω L c idx = dftSum a ω (2 ^ L) idx := by
  intro idx hidx
  unfold parallelFft
  rw [if_pos hidx]
  have hCpos : (0:ℕ) < 2 ^ c := Nat.pos_pow_of_pos _ (by norm_num)
  have hPpos : (0:ℕ) < 2 ^ (L - c) := Nat.pos_pow_of_pos _ (by norm_num)
  have hPC : (2:ℕ) ^ (L - c) * 2 ^ c = 2 ^ L := by
    rw [← pow_add]
    congr 1
    omega
  have hmask : idx &&& (2 ^ c - 1) = idx % 2 ^ c := Nat.and_pow_two_sub_one_eq_mod idx c
  have hshift : idx >>> c = idx / 2 ^ c := Nat.shiftRight_eq_div_pow idx c
  have hdivlt : idx / 2 ^ c < 2 ^ (L - c) := by
    rw [Nat.div_lt_iff_lt_mul hCpos]
    rw [hPC]
    exact hidx
  have hprimsub : IsPrimitiveRoot (ω ^ 2 ^ c) (2 ^ (L - c)) := by
    refine IsPrimitiveRoot.pow (Nat.pos_pow_of_pos _ (by norm_num)) hω ?_
    rw [← pow_add]
    congr 1
    omega
  rw [hmask, hshift]
  rw [serialFft_dft_of_primitive _ _ _ hprimsub (idx / 2 ^ c) hdivlt]
  unfold dftSum
  have hshuffle : ∀ t ∈ Finset.range (2 ^ (L - c)),
      parallelShuffle a ω L c (idx % 2 ^ c) t * (ω ^ 2 ^ c) ^ (t * (idx / 2 ^ c)) =
      ∑ s ∈ Finset.range (2 ^ c),
        a ((t + (s <<< (L - c))) % 2 ^ L)
          * ((ω ^ ((idx % 2 ^ c) <<< (L - c))) ^ (t * 2 ^ c + s) * (ω ^ (idx % 2 ^ c)) ^ t)
          * (ω ^ 2 ^ c) ^ (t * (idx / 2 ^ c)) := by
    intro t ht
    rw [parallelShuffle_apply a ω L c (idx % 2 ^ c) t (Finset.mem_range.mp ht)]
    rw [Finset.sum_mul]
  rw [Finset.sum_congr rfl hshuffle, Finset.sum_comm]
  rw [show (2:ℕ) ^ L = 2 ^ (L - c) * 2 ^ c from hPC.symm]
  rw [sum_range_mul_split (2 ^ (L - c)) (2 ^ c) _]
  refine Finset.sum_congr rfl fun s hs => Finset.sum_congr rfl fun t ht => ?_
  have hs2 : s < 2 ^ c := Finset.mem_range.mp hs
  have ht2 : t < 2 ^ (L - c) := Finset.mem_range.mp ht
  have hsl : s <<< (L - c) = s * 2 ^ (L - c) := Nat.shiftLeft_eq s (L - c)
  have hjl : (idx % 2 ^ c) <<< (L - c) = idx % 2 ^ c * 2 ^ (L - c) :=
    Nat.shiftLeft_eq _ (L - c)
  have hbound : t + s * 2 ^ (L - c) < 2 ^ (L - c) * 2 ^ c := by
    have h1 : (s + 1) * 2 ^ (L - c) ≤ 2 ^ c * 2 ^ (L - c) :=
      Nat.mul_le_mul_right _ (by omega)
    have h2 : (s + 1) * 2 ^ (L - c) = s * 2 ^ (L - c) + 2 ^ (L - c) := by ring
    have h3 : (2:ℕ) ^ (L - c) * 2 ^ c = 2 ^ c * 2 ^ (L - c) := by ring
    omega
  have hmod2 : (t + s * 2 ^ (L - c)) % (2 ^ (L - c) * 2 ^ c) = t + s * 2 ^ (L - c) :=
    Nat.mod_eq_of_lt hbound
  rw [hsl, hjl, hmod2]
  rw [← pow_mul, ← pow_mul, ← pow_mul]
  have hωs : ω ^ (idx % 2 ^ c * 2 ^ (L - c) * (t * 2 ^ c + s)) * ω ^ (idx % 2 ^ c * t)
      * ω ^ (2 ^ c * (t * (idx / 2 ^ c))) = ω ^ ((t + s * 2 ^ (L - c)) * idx) := by
    rw [← pow_add, ← pow_add]
    refine pow_eq_of_exponent_cong ω (2 ^ L) hω.pow_eq_one _ _
      (s * (idx / 2 ^ c)) (idx % 2 ^ c * t) ?_
    set j0 := idx % 2 ^ c with hj0
    set q0 := idx / 2 ^ c with hq0
    have hidx2 : idx = 2 ^ c * q0 + j0 := (Nat.div_add_mod idx (2 ^ c)).symm
    rw [hidx2, ← hPC]
    ring
  calc a (t + s * 2 ^ (L - c)) * (ω ^ (idx % 2 ^ c * 2 ^ (L - c) * (t * 2 ^ c + s))
        * ω ^ (idx % 2 ^ c * t)) * ω ^ (2 ^ c * (t * (idx / 2 ^ c)))
      = a (t + s * 2 ^ (L - c)) * (ω ^ (idx % 2 ^ c * 2 ^ (L - c) * (t * 2 ^ c + s))
        * ω ^ (idx % 2 ^ c * t) * ω ^ (2 ^ c * (t * (idx / 2 ^ c)))) := by ring
    _ = a (t + s * 2 ^ (L - c)) * ω ^ ((t + s * 2 ^ (L - c)) * idx) := by rw [hωs]

end SerialFft

/-! ## `EvaluationDomain` (`src/domain.rs`) -/

/-- Error type of the library (`SynthesisError`).  Modelled from the spec:
`src/lib.rs` is not among the sources; §6 lists the surfaced errors
`PolynomialDegreeTooLarge`, `AssignmentMissing`, `UnexpectedIdentity` used by
the embedded modules. -/
inductive SynthesisError
  | assignmentMissing
  | polynomialDegreeTooLarge
  | unexpectedIdentity
deriving DecidableEq, Repr

/-- Verification errors of the Mirage verifier (`VerificationError`).
Modelled from the spec: `src/lib.rs` is not among the sources; §6 lists
`InvalidVerifyingKey` and `InvalidProof`. -/
inductive VerificationError
  | invalidVerifyingKey
  | invalidProof
deriving DecidableEq, Repr

/-- Modelled from the spec: the `Worker` (module `multicore`, not among the
sources) is a scoped fork-join pool observable only through
`log_num_threads()` (§4.B); scoped loops write disjoint chunks, so results
depend on the worker only through `log_num_threads`. -/
abbrev Worker := ℕ

section Domain

variable {F : Type} [Field F]

/-- `EvaluationDomain` from `src/domain.rs` (for the `Scalar` group, which is
the field itself). -/
structure EvaluationDomain (F : Type) where
  coeffs : List F
  exp : ℕ
  omega : F
  omegainv : F
  geninv : F
  minv : F

/-- The `while m < coeffs.len()` sizing loop of `from_coeffs`.  `m` doubles
and `exp` increments until `m ≥ len`; the in-loop check `exp >= S` aborts
with `PolynomialDegreeTooLarge`.  Termination is by the remaining 2-adicity
budget `S - exp`, which the in-loop check bounds. -/
def domainSizeLoop (S len : ℕ) (m exp : ℕ) : Except SynthesisError (ℕ × ℕ) :=
  if m < len then
    if exp + 1 ≥ S then Except.error SynthesisError.polynomialDegreeTooLarge
    else domainSizeLoop S len (m * 2) (exp + 1)
  else Except.ok (m, exp)
termination_by S - exp
decreasing_by
  simp_wf
  omega

/-- `from_coeffs` of `src/domain.rs` over the field with 2-adicity `S`,
`root_of_unity` `ρ` and `multiplicative_generator` `g`.  The source's
`invert().unwrap()` calls are the field inverse (their arguments are nonzero
for every real field instantiation; theorems carry the hypotheses needed). -/
def fromCoeffs (S : ℕ) (ρ g : F) (coeffs : List F) :
    Except SynthesisError (EvaluationDomain F) := do
  let me ← domainSizeLoop S coeffs.length 1 0
  let omega := (List.range (S - me.2)).foldl (fun w _ => w * w) ρ
  Except.ok { coeffs := coeffs ++ List.replicate (me.1 - coeffs.length) 0,
              exp := me.2,
              omega := omega,
              omegainv := omega⁻¹,
              geninv := g⁻¹,
              minv := (me.1 : F)⁻¹ }

/-- Apply an array transformation to a concrete vector. -/
def onList (l : List F) (f : (ℕ → F) → ℕ → F) : List F :=
  (List.range l.length).map fun i => f (fun k => l.getD k 0) i

/-- `best_fft` of `src/domain.rs`:
`if log_n <= log_cpus { serial_fft } else { parallel_fft }`. -/
def bestFft (a : ℕ → F) (w : Worker) (ω : F) (logn : ℕ) : ℕ → F :=
  if logn ≤ w then serialFft a ω logn else parallelFft a ω logn w

/-- `EvaluationDomain::fft`. -/
def EvaluationDomain.fft (d : EvaluationDomain F) (w : Worker) : EvaluationDomain F :=
  { d with coeffs := onList d.coeffs (fun a => bestFft a w d.omega d.exp) }

/-- `EvaluationDomain::ifft`: `best_fft` at `omegainv`, then the scoped scale
by `minv` (each element written once; chunking invisible). -/
def EvaluationDomain.ifft (d : EvaluationDomain F) (w : Worker) : EvaluationDomain F :=
  { d with coeffs :=
      (onList d.coeffs (fun a => bestFft a w d.omegainv d.exp)).map (fun v => v * d.minv) }

/-- `EvaluationDomain::distribute_powers`: element `i` is multiplied by
`g ^ i` (per chunk the source seeds `u = g^(i * chunk)` and multiplies by `g`
per element, so the factor at global index `i` is `g ^ i`). -/
def EvaluationDomain.distributePowers (d : EvaluationDomain F) (g : F) :
    EvaluationDomain F :=
  { d with coeffs :=
      (List.range d.coeffs.length).map (fun i => d.coeffs.getD i 0 * g ^ i) }

/-- `EvaluationDomain::coset_fft`: distribute powers of the multiplicative
generator `g`, then `fft`. -/
def EvaluationDomain.cosetFft (d : EvaluationDomain F) (g : F) (w : Worker) :
    EvaluationDomain F :=
  (d.distributePowers g).fft w

/-- `EvaluationDomain::icoset_fft`: `ifft`, then distribute powers of
`geninv`. -/
def EvaluationDomain.icosetFft (d : EvaluationDomain F) (w : Worker) :
    EvaluationDomain F :=
  (d.ifft w).distributePowers d.geninv

/-- `EvaluationDomain::z`: `tau ^ m - 1`. -/
def EvaluationDomain.z (d : EvaluationDomain F) (tau : F) : F :=
  tau ^ d.coeffs.length - 1

/-- `EvaluationDomain::divide_by_z_on_coset`: multiply every element by
`z(generator)⁻¹`. -/
def EvaluationDomain.divideByZOnCoset (d : EvaluationDomain F) (g : F) :
    EvaluationDomain F :=
  { d with coeffs := d.coeffs.map (fun v => v * (d.z g)⁻¹) }

/-- `EvaluationDomain::mul_assign`: pointwise product of evaluations.  The
source asserts equal lengths; every call site passes equal-length domains. -/
def EvaluationDomain.mulAssign (d other : EvaluationDomain F) : EvaluationDomain F :=
  { d with coeffs := List.zipWith (fun a b => a * b) d.coeffs other.coeffs }

/-- `EvaluationDomain::sub_assign`: pointwise difference of evaluations. -/
def EvaluationDomain.subAssign (d other : EvaluationDomain F) : EvaluationDomain F :=
  { d with coeffs := List.zipWith (fun a b => a - b) d.coeffs other.coeffs }

/-- Repeated squaring: `k` squarings of `ρ` give `ρ ^ 2 ^ k` (the
`for _ in exp..S` loop computing `omega`). -/
theorem foldl_square (ρ : F) (k : ℕ) :
    (List.range k).foldl (fun w _ => w * w) ρ = ρ ^ 2 ^ k := by
  induction k with
  | zero => simp
  | succ n ih =>
    rw [List.range_succ, List.foldl_append, ih]
    simp only [List.foldl_cons, List.foldl_nil]
    rw [← pow_add, ← two_mul]
    congr 1
    rw [pow_succ]
    ring

/-- Full characterization of the sizing loop from the state `(2 ^ exp, exp)`
with `exp < S`: it errors iff the final exponent would reach `S`, and
otherwise stops at exponent `max exp (Nat.clog 2 len)`. -/
theorem domainSizeLoop_char (S len : ℕ) :
    ∀ fuel exp, S - exp ≤ fuel → exp < S →
      domainSizeLoop S len (2 ^ exp) exp =
        (if S ≤ Nat.clog 2 len ∧ 2 ^ exp < len then
          Except.error SynthesisError.polynomialDegreeTooLarge
        else Except.ok (2 ^ max exp (Nat.clog 2 len), max exp (Nat.clog 2 len))) := by
  intro fuel
  induction fuel with
  | zero => intro exp h1 h2; omega
  | succ n ih =>
    intro exp hfuel hexp
    rw [domainSizeLoop]
    by_cases hm : 2 ^ exp < len
    · have hclog : exp < Nat.clog 2 len := (Nat.pow_lt_iff_lt_clog (by norm_num)).mp hm
      rw [if_pos hm]
      by_cases hend : exp + 1 ≥ S
      · rw [if_pos hend, if_pos ⟨by omega, hm⟩]
      · rw [if_neg hend]
        have h2 : 2 ^ exp * 2 = 2 ^ (exp + 1) := by rw [pow_succ]
        rw [h2, ih (exp + 1) (by omega) (by omega)]
        by_cases hm2 : 2 ^ (exp + 1) < len
        · have hclog2 : exp + 1 < Nat.clog 2 len :=
            (Nat.pow_lt_iff_lt_clog (by norm_num)).mp hm2
          by_cases hS : S ≤ Nat.clog 2 len
          · rw [if_pos ⟨hS, hm2⟩, if_pos ⟨hS, hm⟩]
          · rw [if_neg (by tauto), if_neg (by tauto)]
            have : max (exp + 1) (Nat.clog 2 len) = max exp (Nat.clog 2 len) := by omega
            rw [this]
        · have hclog2 : Nat.clog 2 len ≤ exp + 1 :=
            (Nat.le_pow_iff_clog_le (by norm_num)).mp (by omega)
          have hSgt : ¬ S ≤ Nat.clog 2 len := by omega
          rw [if_neg (by tauto), if_neg (by tauto)]
          have : max (exp + 1) (Nat.clog 2 len) = max exp (Nat.clog 2 len) := by omega
          rw [this]
    · have hclog : Nat.clog 2 len ≤ exp := (Nat.le_pow_iff_clog_le (by norm_num)).mp (by omega)
      rw [if_neg hm, if_neg (by tauto)]
      have : max exp (Nat.clog 2 len) = exp := by omega
      rw [this]

/-- On the actual entry state `(1, 0)` of `from_coeffs` (with `1 ≤ S`, true
of every odd-characteristic field): error iff `S ≤ ⌈log₂ len⌉`, else the
result is `(2 ^ ⌈log₂ len⌉, ⌈log₂ len⌉)`. -/
theorem domainSizeLoop_entry (S len : ℕ) (hS : 1 ≤ S) :
    domainSizeLoop S len 1 0 =
      (if S ≤ Nat.clog 2 len then
        Except.error SynthesisError.polynomialDegreeTooLarge
      else Except.ok (2 ^ Nat.clog 2 len, Nat.clog 2 len)) := by
  have h := domainSizeLoop_char S len (S - 0) 0 (le_refl _) (by omega)
  simp only [pow_zero, Nat.max_eq_right (Nat.zero_le _)] at h
  rw [h]
  by_cases hS2 : S ≤ Nat.clog 2 len
  · have hlen : 1 < len := by
      by_contra hc
      have : Nat.clog 2 len = 0 := Nat.clog_of_right_le_one (by omega) 2
      omega
    rw [if_pos ⟨hS2, by omega⟩, if_pos hS2]
  · by_cases hm : 1 < len
    · rw [if_neg (by tauto), if_neg hS2]
    · rw [if_neg (by omega), if_neg hS2]

/-- `from_coeffs` on an oversized vector: the degree error. -/
theorem fromCoeffs_err (S : ℕ) (ρ g : F) (v : List F) (hS : 1 ≤ S)
    (hS2 : S ≤ Nat.clog 2 v.length) :
    fromCoeffs S ρ g v = Except.error SynthesisError.polynomialDegreeTooLarge := by
  have hentry := domainSizeLoop_entry S v.length hS
  rw [if_pos hS2] at hentry
  simp [fromCoeffs, hentry, Bind.bind, Except.bind]

/-- `from_coeffs` on an accepted vector: the zero-padded domain, with
`omega = ρ ^ 2 ^ (S - exp)` and `exp = ⌈log₂ |v|⌉`. -/
theorem fromCoeffs_ok (S : ℕ) (ρ g : F) (v : List F) (hS : 1 ≤ S)
    (hS2 : Nat.clog 2 v.length < S) :
    fromCoeffs S ρ g v = Except.ok
      { coeffs := v ++ List.replicate (2 ^ Nat.clog 2 v.length - v.length) 0,
        exp := Nat.clog 2 v.length,
        omega := ρ ^ 2 ^ (S - Nat.clog 2 v.length),
        omegainv := (ρ ^ 2 ^ (S - Nat.clog 2 v.length))⁻¹,
        geninv := g⁻¹,
        minv := ((2 ^ Nat.clog 2 v.length : ℕ) : F)⁻¹ } := by
  have hentry := domainSizeLoop_entry S v.length hS
  rw [if_neg (by omega)] at hentry
  simp [fromCoeffs, hentry, foldl_square, Bind.bind, Except.bind]

/-- **C8.** For every input vector `v`, `EvaluationDomain::from_coeffs(v)`
returns `Err(PolynomialDegreeTooLarge)` exactly when `⌈log₂ |v|⌉ ≥ S` (the
scalar field's 2-adicity, which satisfies `1 ≤ S` for every
odd-characteristic field); otherwise it succeeds and pads `v` with zeros to
length `m`, the least power of two `≥ |v|`. -/
theorem fromCoeffs_error_char (S : ℕ) (ρ g : F) (v : List F) (hS : 1 ≤ S) :
    (fromCoeffs S ρ g v = Except.error SynthesisError.polynomialDegreeTooLarge ↔
      S ≤ Nat.clog 2 v.length) ∧
    (Nat.clog 2 v.length < S →
      ∃ d, fromCoeffs S ρ g v = Except.ok d ∧
        d.coeffs = v ++ List.replicate (d.coeffs.length - v.length) 0 ∧
        d.coeffs.length = 2 ^ Nat.clog 2 v.length ∧
        v.length ≤ d.coeffs.length ∧
        (∀ k, v.length ≤ 2 ^ k → d.coeffs.length ≤ 2 ^ k)) := by
  have hle : v.length ≤ 2 ^ Nat.clog 2 v.length := Nat.le_pow_clog (by norm_num) _
  constructor
  · constructor
    · intro herr
      by_contra hc
      rw [fromCoeffs_ok S ρ g v hS (by omega)] at herr
      exact Except.noConfusion herr
    · intro hS2
      exact fromCoeffs_err S ρ g v hS hS2
  · intro hS2
    refine ⟨_, fromCoeffs_ok S ρ g v hS hS2, ?_, ?_, ?_, ?_⟩
    · simp only [List.length_append, List.length_replicate]
      congr 2
      omega
    · simp only [List.length_append, List.length_replicate]
      omega
    · simp only [List.length_append, List.length_replicate]
      omega
    · intro k hk
      simp only [List.length_append, List.length_replicate]
      have : Nat.clog 2 v.length ≤ k := (Nat.le_pow_iff_clog_le (by norm_num)).mp hk
      have := Nat.pow_le_pow_right (show 0 < 2 by norm_num) this
      omega

/-! ### Round trips -/

theorem EvaluationDomain.ext_fields (d1 d2 : EvaluationDomain F)
    (h1 : d1.coeffs = d2.coeffs) (h2 : d1.exp = d2.exp) (h3 : d1.omega = d2.omega)
    (h4 : d1.omegainv = d2.omegainv) (h5 : d1.geninv = d2.geninv)
    (h6 : d1.minv = d2.minv) : d1 = d2 := by
  cases d1
  cases d2
  simp_all

theorem onList_length (l : List F) (f : (ℕ → F) → ℕ → F) :
    (onList l f).length = l.length := by
  simp [onList]

theorem onList_getElem (l : List F) (f : (ℕ → F) → ℕ → F) (k : ℕ)
    (hk : k < (onList l f).length) :
    (onList l f)[k] = f (fun t => l.getD t 0) k := by
  simp [onList]

/-- `best_fft` computes the DFT for every worker (`serial_fft` and
`parallel_fft` both do, at a primitive root). -/
theorem bestFft_dft (a : ℕ → F) (w : Worker) (ω : F) (L : ℕ)
    (hω : IsPrimitiveRoot ω (2 ^ L)) (i : ℕ) (hi : i < 2 ^ L) :
    bestFft a w ω L i = dftSum a ω (2 ^ L) i := by
  unfold bestFft
  by_cases h : L ≤ w
  · rw [if_pos h]
    exact serialFft_dft_of_primitive a ω L hω i hi
  · rw [if_neg h]
    exact parallelFft_dft a ω L w (by omega) hω i hi

theorem dftSum_congr (x y : ℕ → F) (ω : F) (M k : ℕ) (h : ∀ t, t < M → x t = y t) :
    dftSum x ω M k = dftSum y ω M k := by
  unfold dftSum
  exact Finset.sum_congr rfl (fun t ht => by rw [h t (Finset.mem_range.mp ht)])

theorem dftSum_mul_right (x : ℕ → F) (c ω : F) (M k : ℕ) :
    dftSum (fun t => x t * c) ω M k = dftSum x ω M k * c := by
  unfold dftSum
  rw [Finset.sum_mul]
  exact Finset.sum_congr rfl (fun t _ => by ring)

/-- A field holding a primitive `2^L`-th root of unity has `2^L ≠ 0`. -/
theorem two_pow_cast_ne_zero (ω : F) (L : ℕ) (hω : IsPrimitiveRoot ω (2 ^ L)) :
    ((2 ^ L : ℕ) : F) ≠ 0 := by
  cases L with
  | zero => simp
  | succ n =>
    have hhalf : ω ^ 2 ^ n = -1 := by
      have := primitive_pow_half ω (n + 1) hω (by omega)
      simpa using this
    have hne : ω ^ 2 ^ n ≠ 1 := by
      intro habs
      have hdvd := (hω.pow_eq_one_iff_dvd _).mp habs
      have h1 := Nat.le_of_dvd (by positivity) hdvd
      have h2 : (2 : ℕ) ^ n < 2 ^ (n + 1) := Nat.pow_lt_pow_right (by norm_num) (by omega)
      omega
    have h2 : (2 : F) ≠ 0 := by
      intro h
      apply hne
      rw [hhalf]
      linear_combination -h
    push_cast
    exact pow_ne_zero _ h2

/-- The `j`-th entry of `fft` as `best_fft` of the original entries. -/
theorem fft_coeffs_getD (d : EvaluationDomain F) (w : Worker) (j : ℕ)
    (hj : j < d.coeffs.length) :
    (d.fft w).coeffs.getD j 0 =
      bestFft (fun t => d.coeffs.getD t 0) w d.omega d.exp j := by
  simp only [EvaluationDomain.fft]
  have hj2 : j < (onList d.coeffs (fun a => bestFft a w d.omega d.exp)).length := by
    rw [onList_length]
    exact hj
  rw [List.getD_eq_getElem _ _ hj2, onList_getElem]

/-- The `j`-th entry of `ifft` as scaled `best_fft` of the original entries. -/
theorem ifft_coeffs_getD (d : EvaluationDomain F) (w : Worker) (j : ℕ)
    (hj : j < d.coeffs.length) :
    (d.ifft w).coeffs.getD j 0 =
      bestFft (fun t => d.coeffs.getD t 0) w d.omegainv d.exp j * d.minv := by
  simp only [EvaluationDomain.ifft]
  have hj2 : j < ((onList d.coeffs (fun a => bestFft a w d.omegainv d.exp)).map
      (fun v => v * d.minv)).length := by
    rw [List.length_map, onList_length]
    exact hj
  rw [List.getD_eq_getElem _ _ hj2, List.getElem_map, onList_getElem]

theorem fft_coeffs_length (d : EvaluationDomain F) (w : Worker) :
    (d.fft w).coeffs.length = d.coeffs.length := by
  rw [EvaluationDomain.fft, onList_length]

theorem ifft_coeffs_length (d : EvaluationDomain F) (w : Worker) :
    (d.ifft w).coeffs.length = d.coeffs.length := by
  rw [EvaluationDomain.ifft, List.length_map, onList_length]

/-- `ifft` after `fft` restores the evaluations of a well-formed domain. -/
theorem fft_ifft_coeffs (d : EvaluationDomain F) (L : ℕ) (w w' : Worker)
    (hlen : d.coeffs.length = 2 ^ L) (hexp : d.exp = L)
    (hω : IsPrimitiveRoot d.omega (2 ^ L)) (hinv : d.omegainv = d.omega⁻¹)
    (hminv : d.minv = ((2 ^ L : ℕ) : F)⁻¹) :
    ((d.fft w).ifft w').coeffs = d.coeffs := by
  have hM : ((2 ^ L : ℕ) : F) ≠ 0 := two_pow_cast_ne_zero d.omega L hω
  have hlen1 : (d.fft w).coeffs.length = 2 ^ L := by
    rw [fft_coeffs_length, hlen]
  have hlen2 : ((d.fft w).ifft w').coeffs.length = 2 ^ L := by
    rw [ifft_coeffs_length, hlen1]
  apply List.ext_getElem (by rw [hlen2, hlen])
  intro j hj1 hj2
  have hjL : j < 2 ^ L := by rw [← hlen2]; exact hj1
  rw [← List.getD_eq_getElem (((d.fft w).ifft w').coeffs) 0 hj1,
      ← List.getD_eq_getElem d.coeffs 0 hj2]
  rw [ifft_coeffs_getD (d.fft w) w' j (by rw [hlen1]; exact hjL)]
  have e1 : (d.fft w).omegainv = d.omega⁻¹ := hinv
  have e2 : (d.fft w).exp = L := hexp
  have e3 : (d.fft w).minv = ((2 ^ L : ℕ) : F)⁻¹ := hminv
  rw [e1, e2, e3]
  rw [bestFft_dft (fun t => (d.fft w).coeffs.getD t 0) w' d.omega⁻¹ L hω.inv j hjL]
  have hstep : ∀ t, t < 2 ^ L → (d.fft w).coeffs.getD t 0 =
      dftSum (fun k => d.coeffs.getD k 0) d.omega (2 ^ L) t := by
    intro t ht
    rw [fft_coeffs_getD d w t (by rw [hlen]; exact ht), hexp]
    exact bestFft_dft (fun k => d.coeffs.getD k 0) w d.omega L hω t ht
  rw [dftSum_congr (fun t => (d.fft w).coeffs.getD t 0)
      (fun t => dftSum (fun k => d.coeffs.getD k 0) d.omega (2 ^ L) t)
      d.omega⁻¹ (2 ^ L) j hstep]
  rw [dftSum_inv (fun k => d.coeffs.getD k 0) d.omega (2 ^ L) hω j hjL]
  rw [mul_right_comm, mul_inv_cancel₀ hM, one_mul]

/-- `fft` after `ifft` restores the evaluations of a well-formed domain. -/
theorem ifft_fft_coeffs (d : EvaluationDomain F) (L : ℕ) (w w' : Worker)
    (hlen : d.coeffs.length = 2 ^ L) (hexp : d.exp = L)
    (hω : IsPrimitiveRoot d.omega (2 ^ L)) (hinv : d.omegainv = d.omega⁻¹)
    (hminv : d.minv = ((2 ^ L : ℕ) : F)⁻¹) :
    ((d.ifft w).fft w').coeffs = d.coeffs := by
  have hM : ((2 ^ L : ℕ) : F) ≠ 0 := two_pow_cast_ne_zero d.omega L hω
  have hlen1 : (d.ifft w).coeffs.length = 2 ^ L := by
    rw [ifft_coeffs_length, hlen]
  have hlen2 : ((d.ifft w).fft w').coeffs.length = 2 ^ L := by
    rw [fft_coeffs_length, hlen1]
  apply List.ext_getElem (by rw [hlen2, hlen])
  intro j hj1 hj2
  have hjL : j < 2 ^ L := by rw [← hlen2]; exact hj1
  rw [← List.getD_eq_getElem (((d.ifft w).fft w').coeffs) 0 hj1,
      ← List.getD_eq_getElem d.coeffs 0 hj2]
  rw [fft_coeffs_getD (d.ifft w) w' j (by rw [hlen1]; exact hjL)]
  have e2 : (d.ifft w).exp = L := hexp
  have e4 : (d.ifft w).omega = d.omega := rfl
  rw [e2, e4]
  rw [bestFft_dft (fun t => (d.ifft w).coeffs.getD t 0) w' d.omega L hω j hjL]
  have hstep : ∀ t, t < 2 ^ L → (d.ifft w).coeffs.getD t 0 =
      dftSum (fun k => d.coeffs.getD k 0) d.omega⁻¹ (2 ^ L) t * ((2 ^ L : ℕ) : F)⁻¹ := by
    intro t ht
    rw [ifft_coeffs_getD d w t (by rw [hlen]; exact ht), hexp, hinv, hminv]
    rw [bestFft_dft (fun k => d.coeffs.getD k 0) w d.omega⁻¹ L hω.inv t ht]
  rw [dftSum_congr (fun t => (d.ifft w).coeffs.getD t 0)
      (fun t => dftSum (fun k => d.coeffs.getD k 0) d.omega⁻¹ (2 ^ L) t * ((2 ^ L : ℕ) : F)⁻¹)
      d.omega (2 ^ L) j hstep]
  rw [dftSum_mul_right (fun t => dftSum (fun k => d.coeffs.getD k 0) d.omega⁻¹ (2 ^ L) t)
      (((2 ^ L : ℕ) : F)⁻¹) d.omega (2 ^ L) j]
  have hback : dftSum (fun t => dftSum (fun k => d.coeffs.getD k 0) d.omega⁻¹ (2 ^ L) t)
      d.omega (2 ^ L) j = ((2 ^ L : ℕ) : F) * d.coeffs.getD j 0 := by
    have h := dftSum_inv (fun k => d.coeffs.getD k 0) d.omega⁻¹ (2 ^ L) hω.inv j hjL
    rwa [inv_inv] at h
  rw [hback, mul_right_comm, mul_inv_cancel₀ hM, one_mul]

theorem distributePowers_length (d : EvaluationDomain F) (g : F) :
    (d.distributePowers g).coeffs.length = d.coeffs.length := by
  simp [EvaluationDomain.distributePowers]

theorem distributePowers_getD (d : EvaluationDomain F) (g : F) (j : ℕ)
    (hj : j < d.coeffs.length) :
    (d.distributePowers g).coeffs.getD j 0 = d.coeffs.getD j 0 * g ^ j := by
  simp only [EvaluationDomain.distributePowers]
  have hj2 : j < ((List.range d.coeffs.length).map
      (fun i => d.coeffs.getD i 0 * g ^ i)).length := by
    simpa using hj
  rw [List.getD_eq_getElem _ _ hj2]
  simp

/-- Distributing powers of `g⁻¹` and then of `g` is the identity. -/
theorem distributePowers_cancel (d : EvaluationDomain F) (g : F) (hg : g ≠ 0) :
    (d.distributePowers g⁻¹).distributePowers g = d := by
  refine EvaluationDomain.ext_fields _ _ ?_ rfl rfl rfl rfl rfl
  have hlen : ((d.distributePowers g⁻¹).distributePowers g).coeffs.length =
      d.coeffs.length := by
    rw [distributePowers_length, distributePowers_length]
  apply List.ext_getElem hlen
  intro j hj1 hj2
  rw [← List.getD_eq_getElem _ 0 hj1, ← List.getD_eq_getElem d.coeffs 0 hj2]
  rw [distributePowers_getD _ g j (by rw [distributePowers_length]; exact hj2),
      distributePowers_getD d g⁻¹ j hj2]
  rw [mul_assoc, inv_pow, inv_mul_cancel₀ (pow_ne_zero j hg), mul_one]

/-- `icoset_fft` after `coset_fft` restores a well-formed domain's
evaluations (with `g` the multiplicative generator recorded as `geninv`). -/
theorem coset_icoset_coeffs (d : EvaluationDomain F) (L : ℕ) (g : F) (w w' : Worker)
    (hlen : d.coeffs.length = 2 ^ L) (hexp : d.exp = L)
    (hω : IsPrimitiveRoot d.omega (2 ^ L)) (hinv : d.omegainv = d.omega⁻¹)
    (hminv : d.minv = ((2 ^ L : ℕ) : F)⁻¹) (hgen : d.geninv = g⁻¹) (hg : g ≠ 0) :
    ((d.cosetFft g w).icosetFft w').coeffs = d.coeffs := by
  rw [EvaluationDomain.cosetFft, EvaluationDomain.icosetFft]
  have hfields : (((d.distributePowers g).fft w).ifft w').coeffs =
      (d.distributePowers g).coeffs :=
    fft_ifft_coeffs (d.distributePowers g) L w w'
      (by rw [distributePowers_length, hlen]) hexp hω hinv hminv
  have hgen2 : (((d.distributePowers g).fft w).ifft w').geninv = g⁻¹ := hgen
  have hlen3 : ((((d.distributePowers g).fft w).ifft w').distributePowers
      ((((d.distributePowers g).fft w).ifft w').geninv)).coeffs.length =
      d.coeffs.length := by
    rw [distributePowers_length, ifft_coeffs_length, fft_coeffs_length,
        distributePowers_length]
  apply List.ext_getElem hlen3
  intro j hj1 hj2
  rw [← List.getD_eq_getElem _ 0 hj1, ← List.getD_eq_getElem d.coeffs 0 hj2]
  rw [distributePowers_getD _ _ j
      (by rw [ifft_coeffs_length, fft_coeffs_length, distributePowers_length]; exact hj2)]
  rw [hgen2, hfields, distributePowers_getD d g j hj2]
  rw [mul_assoc, inv_pow, mul_inv_cancel₀ (pow_ne_zero j hg), mul_one]

/-- `coset_fft` after `icoset_fft` restores a well-formed domain's
evaluations. -/
theorem icoset_coset_coeffs (d : EvaluationDomain F) (L : ℕ) (g : F) (w w' : Worker)
    (hlen : d.coeffs.length = 2 ^ L) (hexp : d.exp = L)
    (hω : IsPrimitiveRoot d.omega (2 ^ L)) (hinv : d.omegainv = d.omega⁻¹)
    (hminv : d.minv = ((2 ^ L : ℕ) : F)⁻¹) (hgen : d.geninv = g⁻¹) (hg : g ≠ 0) :
    ((d.icosetFft w).cosetFft g w').coeffs = d.coeffs := by
  rw [EvaluationDomain.icosetFft, EvaluationDomain.cosetFft]
  have hcancel : (((d.ifft w).distributePowers d.geninv).distributePowers g) =
      d.ifft w := by
    rw [hgen]
    exact distributePowers_cancel (d.ifft w) g hg
  rw [hcancel]
  exact ifft_fft_coeffs d L w w' hlen hexp hω hinv hminv

/-- **C6.** For every coefficient vector `v` accepted by `from_coeffs`
(built over a field whose 2-adicity is `S ≥ 1`, with a primitive `2^S`-th
`root_of_unity` `ρ` and a nonzero `multiplicative_generator` `g`) and all
workers `w, w'`: `ifft` after `fft` restores the domain's evaluations,
`icoset_fft` after `coset_fft` restores them, `coset_fft` after `icoset_fft`
restores them, and those evaluations extend `v` (so the round trips restore
`v` itself). -/
theorem fft_roundTrips (S : ℕ) (ρ g : F) (v : List F) (d : EvaluationDomain F)
    (w w' : Worker) (hS : 1 ≤ S) (hρ : IsPrimitiveRoot ρ (2 ^ S)) (hg : g ≠ 0)
    (hd : fromCoeffs S ρ g v = Except.ok d) :
    ((d.fft w).ifft w').coeffs = d.coeffs ∧
    ((d.cosetFft g w).icosetFft w').coeffs = d.coeffs ∧
    ((d.icosetFft w).cosetFft g w').coeffs = d.coeffs ∧
    d.coeffs.take v.length = v := by
  by_cases hbig : S ≤ Nat.clog 2 v.length
  · rw [fromCoeffs_err S ρ g v hS hbig] at hd
    exact absurd hd (by simp)
  · rw [fromCoeffs_ok S ρ g v hS (by omega)] at hd
    have hd2 := Except.ok.inj hd
    subst hd2
    have he : Nat.clog 2 v.length < S := by omega
    have hωprim : IsPrimitiveRoot (ρ ^ 2 ^ (S - Nat.clog 2 v.length))
        (2 ^ Nat.clog 2 v.length) := by
      refine IsPrimitiveRoot.pow (by positivity) hρ ?_
      rw [← pow_add]
      congr 1
      omega
    have hvle : v.length ≤ 2 ^ Nat.clog 2 v.length := Nat.le_pow_clog (by norm_num) _
    have hlen : (v ++ List.replicate (2 ^ Nat.clog 2 v.length - v.length) (0 : F)).length =
        2 ^ Nat.clog 2 v.length := by
      rw [List.length_append, List.length_replicate]
      omega
    refine ⟨?_, ?_, ?_, ?_⟩
    · exact fft_ifft_coeffs _ (Nat.clog 2 v.length) w w' hlen rfl hωprim rfl rfl
    · exact coset_icoset_coeffs _ (Nat.clog 2 v.length) g w w' hlen rfl hωprim rfl rfl rfl hg
    · exact icoset_coset_coeffs _ (Nat.clog 2 v.length) g w w' hlen rfl hωprim rfl rfl rfl hg
    · simp

/-- **C7 (amended).** For every power-of-two length `2^log_d` with
`log_d ∈ [0,10)`, every `log_cpus ∈ [log_d, log_d+1)`, every **primitive**
`2^log_d`-th root of unity `omega`, and every coefficient vector of that
length, `parallel_fft` and `serial_fft` produce identical results.  (The
spec's "every root of unity" is too broad: at the non-primitive root
`ω = 1` the two disagree already at length 2.) -/
theorem parallel_serial_fft_agree (a : List F) (ω : F) (log_d log_cpus : ℕ)
    (hd : log_d < 10) (h1 : log_d ≤ log_cpus) (h2 : log_cpus < log_d + 1)
    (hlen : a.length = 2 ^ log_d) (hω : IsPrimitiveRoot ω (2 ^ log_d)) :
    parallelFftList a ω log_d log_cpus = serialFftList a ω log_d := by
  have hcd : log_cpus = log_d := by omega
  subst hcd
  unfold parallelFftList serialFftList
  apply List.map_congr_left
  intro i hi
  have hi2 : i < 2 ^ log_cpus := by
    rw [← hlen]
    exact List.mem_range.mp hi
  rw [parallelFft_dft (fun k => a.getD k 0) ω log_cpus log_cpus (le_refl _) hω i hi2,
      serialFft_dft_of_primitive (fun k => a.getD k 0) ω log_cpus hω i hi2]

end Domain

/-! ## A concrete scalar field for witnesses

`p = 17 = 2^4 + 1`: 2-adicity `S = 4`, multiplicative generator `3`
(of order 16), `root_of_unity = 3` (a primitive `2^4`-th root of unity). -/

abbrev F17 := ZMod 17

instance : Fact (Nat.Prime 17) := ⟨by norm_num⟩

theorem three_primitiveRoot_sixteen : IsPrimitiveRoot (3 : F17) (2 ^ 4) := by
  have h1 : ¬ (3 : F17) ^ 2 ^ 3 = 1 := by decide
  have h2 : (3 : F17) ^ 2 ^ (3 + 1) = 1 := by decide
  have h : orderOf (3 : F17) = 2 ^ (3 + 1) := orderOf_eq_prime_pow h1 h2
  have := IsPrimitiveRoot.orderOf (3 : F17)
  rw [h] at this
  exact this

/-- **C8 witness.** -/
theorem fromCoeffs_error_char_witness :
    (fromCoeffs 4 (3 : F17) 3 [1, 2, 3] = Except.error
        SynthesisError.polynomialDegreeTooLarge ↔
      4 ≤ Nat.clog 2 [(1 : F17), 2, 3].length) ∧
    (Nat.clog 2 [(1 : F17), 2, 3].length < 4 →
      ∃ d, fromCoeffs 4 (3 : F17) 3 [1, 2, 3] = Except.ok d ∧
        d.coeffs = [1, 2, 3] ++ List.replicate (d.coeffs.length - 3) 0 ∧
        d.coeffs.length = 2 ^ Nat.clog 2 [(1 : F17), 2, 3].length ∧
        3 ≤ d.coeffs.length ∧
        (∀ k, 3 ≤ 2 ^ k → d.coeffs.length ≤ 2 ^ k)) :=
  fromCoeffs_error_char 4 3 3 [1, 2, 3] (by norm_num)

/-- **C6 witness.** -/
theorem fft_roundTrips_witness :
    ∃ d : EvaluationDomain F17, fromCoeffs 4 (3 : F17) 3 [1, 2] = Except.ok d ∧
      (((d.fft 0).ifft 2).coeffs = d.coeffs ∧
       ((d.cosetFft 3 0).icosetFft 2).coeffs = d.coeffs ∧
       ((d.icosetFft 0).cosetFft 3 2).coeffs = d.coeffs ∧
       d.coeffs.take 2 = [1, 2]) := by
  have hclog : Nat.clog 2 [(1 : F17), 2].length < 4 := by
    simp only [List.length_cons, List.length_nil]
    rw [Nat.clog]
    norm_num
  have hd := fromCoeffs_ok 4 (3 : F17) 3 [1, 2] (by norm_num) hclog
  refine ⟨_, hd, ?_⟩
  have h := fft_roundTrips 4 (3 : F17) 3 [1, 2] _ 0 2 (by norm_num)
    three_primitiveRoot_sixteen (by decide) hd
  simpa using h

theorem sixteen_primitiveRoot_two : IsPrimitiveRoot (16 : F17) (2 ^ 1) := by
  have h : orderOf (16 : F17) = 2 ^ (0 + 1) :=
    orderOf_eq_prime_pow (by decide) (by decide)
  have h2 := IsPrimitiveRoot.orderOf (16 : F17)
  rw [h] at h2
  exact h2

/-- **C7 counterexample.**  At the (non-primitive) root of unity `ω = 1`,
with `log_d = 1 ∈ [0,10)`, `log_cpus = 1 ∈ [log_d, log_d+1)` and the
length-`2^1` vector `[0, 1]`, `parallel_fft` and `serial_fft` disagree:
the serial result is `[1, 16]`, the parallel result `[1, 1]`. -/
theorem parallel_serial_fft_counterexample :
    (1 : F17) ^ 2 ^ 1 = 1 ∧ (1 : ℕ) < 10 ∧ 1 ≤ 1 ∧ (1 : ℕ) < 1 + 1 ∧
    [(0 : F17), 1].length = 2 ^ 1 ∧
    parallelFftList [(0 : F17), 1] 1 1 1 ≠ serialFftList [(0 : F17), 1] 1 1 := by
  refine ⟨by decide, by norm_num, by norm_num, by norm_num, by decide, by decide⟩

/-- **C7 witness.** -/
theorem parallel_serial_fft_agree_witness :
    parallelFftList [(1 : F17), 2] 16 1 1 = serialFftList [(1 : F17), 2] 16 1 :=
  parallel_serial_fft_agree [(1 : F17), 2] 16 1 1 (by norm_num) (by norm_num)
    (by norm_num) (by decide) sixteen_primitiveRoot_two

/-! ## KW15 subspace argument (`src/kw15.rs`)

Groups are embedded through the pairing model of the repository's
`DummyEngine` (used by its own test suite): `G1 = G2 = GT` is the scalar
field written additively, scalar action is field multiplication,
`e(a, b) = a * b`, `multi_miller_loop` sums the pairwise products,
`final_exponentiation` is the identity, and the group identity is `0`.
Panicking `assert!`s are embedded as `Option` (`none` = panic). -/

namespace kw15

variable {F : Type} [Field F] [DecidableEq F]

/-- `Matrix` from `src/kw15.rs`: `(cmt_i, wit_i, value)` triples over `G1`. -/
structure Matrix (F : Type) where
  num_cmts : ℕ
  num_wits : ℕ
  nonzero_entries : List (ℕ × ℕ × F)

/-- `Matrix::new`. -/
def Matrix.new (num_cmts num_wits : ℕ) : Matrix F :=
  { num_cmts := num_cmts, num_wits := num_wits, nonzero_entries := [] }

/-- `Matrix::add_entry`.  The source asserts `cmt_i < num_cmts` and
`wit_i < num_wits`; every caller in the repository satisfies both. -/
def Matrix.add_entry (m : Matrix F) (cmt_i wit_i : ℕ) (value : F) : Matrix F :=
  { m with nonzero_entries := m.nonzero_entries ++ [(cmt_i, wit_i, value)] }

structure ProvingKey (F : Type) where
  p_g1 : List F

structure VerifyingKey (F : Type) where
  c_g2 : List F
  a_g2 : F

structure Proof (F : Type) where
  pi_g1 : F

/-- `key_gen` from `src/kw15.rs`, with the sampled randomness (`k` and `a`)
passed in.  The scoped worker loop adds `val * k[cmt_i]` into the
mutex-guarded cell `p_g1[wit_i]` once per entry; the additions commute, so
the result is the sequential fold.  `a_g2 = E::G2::identity() * &a` and
`c_g2[i] = E::G2::identity() * (k_i * a)` scale the **identity** (`0` in the
dummy model), not a generator. -/
def key_gen (m : Matrix F) (k : List F) (a : F) : ProvingKey F × VerifyingKey F :=
  let p : ℕ → F := m.nonzero_entries.foldl
    (fun p e => Function.update p e.2.1 (p e.2.1 + e.2.2 * k.getD e.1 0)) (fun _ => 0)
  ({ p_g1 := (List.range m.num_wits).map p },
   { a_g2 := (0 : F) * a,
     c_g2 := k.map (fun k_i => (0 : F) * (k_i * a)) })

/-- `prove` from `src/kw15.rs`: the full-density multiexp
`Σ p_g1[i] * wits[i]`, after `assert_eq!(pk.p_g1.len(), coeffs.len())`. -/
def prove (pk : ProvingKey F) (wits : List F) : Option (Proof F) :=
  if pk.p_g1.length = wits.length then
    some { pi_g1 := (List.zipWith (fun b w => b * w) pk.p_g1 wits).sum }
  else none

structure PreparedVerifyingKey (F : Type) where
  c_g2 : List F
  neg_a_g2 : F

/-- `PreparedVerifyingKey::from(&vk)`. -/
def prepare (vk : VerifyingKey F) : PreparedVerifyingKey F :=
  { c_g2 := vk.c_g2, neg_a_g2 := -vk.a_g2 }

/-- `verify` from `src/kw15.rs`: after `assert_eq!(cmts.len(), vk.c_g2.len())`,
accept iff the multi-Miller product `Π e(cmt_i, c_i) · e(π, -a_g2)` is the
`GT` identity — in the dummy model, iff the sum of products is `0`. -/
def verify (vk : PreparedVerifyingKey F) (cmts : List F) (pf : Proof F) : Option Bool :=
  if cmts.length = vk.c_g2.length then
    some (decide ((List.zipWith (fun c g => c * g) cmts vk.c_g2).sum
      + pf.pi_g1 * vk.neg_a_g2 = 0))
  else none

/-- The commitment `c_j = Σ_i wits_i · M_{j,i}` an honest party computes
from the matrix (the sum of `val * wit` over the entries of row `j`). -/
def matrixCommit (m : Matrix F) (wits : List F) : List F :=
  (List.range m.num_cmts).map (fun j =>
    ((m.nonzero_entries.filter (fun e => e.1 = j)).map
      (fun e => e.2.2 * wits.getD e.2.1 0)).sum)

theorem zipWith_mul_zero_sum (l1 l2 : List F) (h : ∀ x ∈ l2, x = 0) :
    (List.zipWith (fun c g => c * g) l1 l2).sum = 0 := by
  induction l1 generalizing l2 with
  | nil => simp
  | cons x xs ih =>
    cases l2 with
    | nil => simp
    | cons y ys =>
      simp only [List.zipWith_cons_cons, List.sum_cons]
      rw [h y (by simp), mul_zero, zero_add]
      exact ih ys (fun z hz => h z (by simp [hz]))

theorem key_gen_p_g1_length (m : Matrix F) (k : List F) (a : F) :
    (key_gen m k a).1.p_g1.length = m.num_wits := by
  simp [key_gen]

theorem key_gen_c_g2_length (m : Matrix F) (k : List F) (a : F) :
    (key_gen m k a).2.c_g2.length = k.length := by
  simp [key_gen]

theorem key_gen_c_g2_zero (m : Matrix F) (k : List F) (a : F) :
    ∀ x ∈ (key_gen m k a).2.c_g2, x = 0 := by
  intro x hx
  simp only [key_gen, List.mem_map] at hx
  obtain ⟨k_i, _, hk⟩ := hx
  rw [← hk, zero_mul]

theorem key_gen_a_g2_zero (m : Matrix F) (k : List F) (a : F) :
    (key_gen m k a).2.a_g2 = 0 := by
  simp [key_gen]

/-- Any proof verifies against any commitments of the right count: the
verification key scales the `G2` identity, so every pairing vanishes. -/
theorem verify_of_lengths (m : Matrix F) (k : List F) (a : F)
    (cmts : List F) (pf : Proof F) (hlen : cmts.length = k.length) :
    verify (prepare (key_gen m k a).2) cmts pf = some true := by
  unfold verify prepare
  rw [if_pos (by rw [hlen, key_gen_c_g2_length])]
  rw [zipWith_mul_zero_sum _ _ (key_gen_c_g2_zero m k a)]
  rw [key_gen_a_g2_zero, neg_zero, mul_zero, add_zero]
  simp

/-- **C4.** KW15 completeness: for every matrix `M` (with `k` of matching
commitment count and any `a` as the sampled randomness) and witness vector
`w` of matching width, with `(pk, vk) = key_gen(M, rng)` and commitments
`c_j = Σ_i w_i · M_{j,i}`, `prove(pk, w)` succeeds and
`verify(PreparedVerifyingKey::from(&vk), c, π)` returns true. -/
theorem kw15_completeness (m : Matrix F) (k : List F) (a : F) (wits : List F)
    (hw : wits.length = m.num_wits) (hk : k.length = m.num_cmts) :
    ∃ pf, prove (key_gen m k a).1 wits = some pf ∧
      verify (prepare (key_gen m k a).2) (matrixCommit m wits) pf = some true := by
  refine ⟨{ pi_g1 := (List.zipWith (fun b w => b * w) (key_gen m k a).1.p_g1 wits).sum },
    ?_, ?_⟩
  · unfold prove
    rw [if_pos (by rw [hw, key_gen_p_g1_length])]
  · exact verify_of_lengths m k a (matrixCommit m wits) _ (by simp [matrixCommit, hk])

end kw15

/-- **C4 witness.** -/
theorem kw15_completeness_witness :
    ∃ pf, kw15.prove
        (kw15.key_gen (((kw15.Matrix.new 1 2 : kw15.Matrix F17).add_entry 0 0 2).add_entry
          0 1 3) [7] 5).1 [1, 2] = some pf ∧
      kw15.verify (kw15.prepare
          (kw15.key_gen (((kw15.Matrix.new 1 2 : kw15.Matrix F17).add_entry 0 0 2).add_entry
            0 1 3) [7] 5).2)
        (kw15.matrixCommit (((kw15.Matrix.new 1 2 : kw15.Matrix F17).add_entry 0 0 2).add_entry
          0 1 3) [1, 2]) pf = some true :=
  kw15.kw15_completeness _ [7] 5 [1, 2] (by decide) (by decide)

/-! ## Pedersen commitments and cp_link (`src/commit.rs`) -/

section Commit

variable {F : Type} [Field F] [DecidableEq F]

/-- `CommitKey` from `src/commit.rs`. -/
structure CommitKey (F : Type) where
  generators : List F
  blind_generator : F

/-- `CommitKey::commit`: the full-density multiexp of the generators by the
values, plus `blind_generator * blind`. -/
def CommitKey.commit (ck : CommitKey F) (values : List F) (blind : F) : F :=
  (List.zipWith (fun g v => g * v) ck.generators values).sum
    + ck.blind_generator * blind

end Commit

namespace cp_link

variable {F : Type} [Field F] [DecidableEq F]

/-- The matrix `cp_link::key_gen` builds (the `let mut matrix` loop of
`src/commit.rs`).  Witness layout `repeat(vec ‖ rand_1 ‖ rand_2)`,
commitment layout `repeat(com_1 ‖ com_2)`; row `cmt_i_1` receives **both**
`k.generators[j]` and `js[vec_i].generators[j]` for each `j`. -/
def key_gen_matrix (k : CommitKey F) (js : List (CommitKey F)) : kw15.Matrix F :=
  (List.range js.length).foldl (fun mat vec_i =>
    (((List.range k.generators.length).foldl (fun mat j =>
      (mat.add_entry (2 * vec_i) ((k.generators.length + 2) * vec_i + j)
        (k.generators.getD j 0)).add_entry
        (2 * vec_i) ((k.generators.length + 2) * vec_i + j)
        ((js.getD vec_i (CommitKey.mk [] 0)).generators.getD j 0)) mat).add_entry
      (2 * vec_i) ((k.generators.length + 2) * vec_i + k.generators.length)
      k.blind_generator).add_entry
      (2 * vec_i + 1) ((k.generators.length + 2) * vec_i + k.generators.length + 1)
      (js.getD vec_i (CommitKey.mk [] 0)).blind_generator)
    (kw15.Matrix.new (2 * js.length) ((k.generators.length + 2) * js.length))

/-- `cp_link::key_gen` from `src/commit.rs`, randomness (`k` vector and `a`
of the inner `kw15::key_gen`) passed in. -/
def key_gen (k : CommitKey F) (js : List (CommitKey F)) (kran : List F) (a : F) :
    kw15.ProvingKey F × kw15.VerifyingKey F :=
  kw15.key_gen (key_gen_matrix k js) kran a

/-- `cp_link::prove`: concatenate `vec_i ‖ r1_i ‖ r2_i` and call
`kw15::prove`. -/
def prove (pk : kw15.ProvingKey F) (vectors : List (List F))
    (rands_1 rands_2 : List F) : Option (kw15.Proof F) :=
  let wit := ((vectors.zip rands_1).zip rands_2).foldl
    (fun w p => w ++ p.1.1 ++ [p.1.2, p.2]) []
  kw15.prove pk wit

/-- `cp_link::verify`: interleave `(c1_i, c2_i)` and call `kw15::verify` on
the prepared key. -/
def verify (vk : kw15.VerifyingKey F) (cmts_1 cmts_2 : List F)
    (pf : kw15.Proof F) : Option Bool :=
  let cmts := (cmts_1.zip cmts_2).foldl (fun c p => c ++ [p.1, p.2]) []
  kw15.verify (kw15.prepare vk) cmts pf

theorem foldl_matrix_fields {α : Type} (f : kw15.Matrix F → α → kw15.Matrix F)
    (hc : ∀ m x, (f m x).num_cmts = m.num_cmts)
    (hw : ∀ m x, (f m x).num_wits = m.num_wits) (l : List α) :
    ∀ m0, (l.foldl f m0).num_cmts = m0.num_cmts ∧
      (l.foldl f m0).num_wits = m0.num_wits := by
  induction l with
  | nil => intro m0; exact ⟨rfl, rfl⟩
  | cons x xs ih =>
    intro m0
    rw [List.foldl_cons]
    rcases ih (f m0 x) with ⟨h1, h2⟩
    exact ⟨by rw [h1, hc], by rw [h2, hw]⟩

theorem key_gen_matrix_fields (k : CommitKey F) (js : List (CommitKey F)) :
    (key_gen_matrix k js).num_cmts = 2 * js.length ∧
    (key_gen_matrix k js).num_wits = (k.generators.length + 2) * js.length := by
  unfold key_gen_matrix
  refine foldl_matrix_fields _ ?_ ?_ (List.range js.length)
    (kw15.Matrix.new (2 * js.length) ((k.generators.length + 2) * js.length))
  · intro m x
    have h := foldl_matrix_fields (fun (mat : kw15.Matrix F) (j : ℕ) =>
        (mat.add_entry (2 * x) ((k.generators.length + 2) * x + j)
          (k.generators.getD j 0)).add_entry (2 * x) ((k.generators.length + 2) * x + j)
          ((js.getD x (CommitKey.mk [] 0)).generators.getD j 0))
      (fun _ _ => rfl) (fun _ _ => rfl) (List.range k.generators.length) m
    exact h.1
  · intro m x
    have h := foldl_matrix_fields (fun (mat : kw15.Matrix F) (j : ℕ) =>
        (mat.add_entry (2 * x) ((k.generators.length + 2) * x + j)
          (k.generators.getD j 0)).add_entry (2 * x) ((k.generators.length + 2) * x + j)
          ((js.getD x (CommitKey.mk [] 0)).generators.getD j 0))
      (fun _ _ => rfl) (fun _ _ => rfl) (List.range k.generators.length) m
    exact h.2

theorem concat_fold_length (l : List ((List F × F) × F)) :
    ∀ acc : List F, (l.foldl (fun w p => w ++ p.1.1 ++ [p.1.2, p.2]) acc).length =
      acc.length + ((l.map (fun p => p.1.1.length)).sum + 2 * l.length) := by
  induction l with
  | nil => simp
  | cons x xs ih =>
    intro acc
    rw [List.foldl_cons, ih]
    simp only [List.length_append, List.map_cons, List.sum_cons, List.length_cons,
      List.length_nil]
    omega

theorem interleave_fold_length (l : List (F × F)) :
    ∀ acc : List F, (l.foldl (fun c p => c ++ [p.1, p.2]) acc).length =
      acc.length + 2 * l.length := by
  induction l with
  | nil => simp
  | cons x xs ih =>
    intro acc
    rw [List.foldl_cons, ih]
    simp only [List.length_append, List.length_cons, List.length_nil]
    omega

/-- **C3.** cp_link completeness: for every list of equal-length vectors
`X_i` and blinders `r_{i,1}, r_{i,2}`, if `C_i = commit(K, X_i, r_{i,1})`
and `D_i = commit(J_i, X_i, r_{i,2})` for the same `X_i`, then with
`(pk, vk) = cp_link::key_gen(K, [J_i], rng)` (its inner KW15 randomness `k`
of the matching commitment count and any `a`),
`cp_link::verify(vk, [C_i], [D_i], cp_link::prove(pk, [X_i], [r1_i], [r2_i]))`
returns true. -/
theorem cpLink_completeness (k : CommitKey F) (js : List (CommitKey F))
    (kran : List F) (a : F) (vectors : List (List F)) (rands_1 rands_2 : List F)
    (cmts_1 cmts_2 : List F)
    (hvlen : ∀ v ∈ vectors, v.length = k.generators.length)
    (hv : vectors.length = js.length) (h1 : rands_1.length = js.length)
    (h2 : rands_2.length = js.length) (hk : kran.length = 2 * js.length)
    (hc1 : cmts_1 = List.zipWith (fun v r => k.commit v r) vectors rands_1)
    (hc2 : cmts_2 = List.zipWith (fun jv vr => CommitKey.commit jv vr.1 vr.2) js
      (vectors.zip rands_2)) :
    ∃ pf, prove (key_gen k js kran a).1 vectors rands_1 rands_2 = some pf ∧
      verify (key_gen k js kran a).2 cmts_1 cmts_2 pf = some true := by
  have hzlen : ((vectors.zip rands_1).zip rands_2).length = js.length := by
    rw [List.length_zip, List.length_zip, hv, h1, h2]
    omega
  have hwitlen : (((vectors.zip rands_1).zip rands_2).foldl
      (fun w p => w ++ p.1.1 ++ [p.1.2, p.2]) ([] : List F)).length =
      (k.generators.length + 2) * js.length := by
    rw [concat_fold_length]
    have hsum : (((vectors.zip rands_1).zip rands_2).map
        (fun p => p.1.1.length)).sum = k.generators.length * js.length := by
      have hmap : (((vectors.zip rands_1).zip rands_2).map (fun p => p.1.1.length)) =
          List.replicate js.length k.generators.length := by
        rw [List.eq_replicate_iff]
        refine ⟨by rw [List.length_map, hzlen], ?_⟩
        intro x hx
        simp only [List.mem_map] at hx
        obtain ⟨p, hp, hpx⟩ := hx
        have hmem1 := (List.of_mem_zip hp).1
        have hmem2 := (List.of_mem_zip hmem1).1
        rw [← hpx]
        exact hvlen _ hmem2
      rw [hmap, List.sum_replicate, smul_eq_mul]
      ring
    rw [hsum, hzlen, List.length_nil]
    ring
  have hfields := key_gen_matrix_fields k js
  have hplen : (key_gen k js kran a).1.p_g1.length =
      (((vectors.zip rands_1).zip rands_2).foldl
        (fun w p => w ++ p.1.1 ++ [p.1.2, p.2]) ([] : List F)).length := by
    rw [key_gen, kw15.key_gen_p_g1_length, hfields.2, hwitlen]
  refine ⟨⟨(List.zipWith (fun b w => b * w) (key_gen k js kran a).1.p_g1
      (((vectors.zip rands_1).zip rands_2).foldl
        (fun w p => w ++ p.1.1 ++ [p.1.2, p.2]) ([] : List F))).sum⟩, ?_, ?_⟩
  · show kw15.prove (key_gen k js kran a).1
      (((vectors.zip rands_1).zip rands_2).foldl
        (fun w p => w ++ p.1.1 ++ [p.1.2, p.2]) ([] : List F)) = _
    unfold kw15.prove
    rw [if_pos hplen]
  · show kw15.verify (kw15.prepare (key_gen k js kran a).2)
      ((cmts_1.zip cmts_2).foldl (fun c p => c ++ [p.1, p.2]) ([] : List F)) _ = some true
    rw [key_gen]
    apply kw15.verify_of_lengths
    rw [interleave_fold_length, List.length_nil, List.length_zip, hk, hc1, hc2]
    rw [List.length_zipWith, List.length_zipWith, List.length_zip, hv, h1, h2]
    simp

end cp_link

/-- **C3 witness.** -/
theorem cpLink_completeness_witness :
    ∃ pf, cp_link.prove (cp_link.key_gen (CommitKey.mk [2] 3 : CommitKey F17)
        [CommitKey.mk [5] 7] [11, 13] 5).1 [[4]] [6] [9] = some pf ∧
      cp_link.verify (cp_link.key_gen (CommitKey.mk [2] 3 : CommitKey F17)
        [CommitKey.mk [5] 7] [11, 13] 5).2
        (List.zipWith (fun v r => CommitKey.commit (CommitKey.mk [2] 3 : CommitKey F17) v r)
          [[4]] [6])
        (List.zipWith (fun jv vr => CommitKey.commit jv vr.1 vr.2)
          [CommitKey.mk [5] 7] ([[(4 : F17)]].zip [9])) pf = some true :=
  cp_link.cpLink_completeness (CommitKey.mk [2] 3) [CommitKey.mk [5] 7] [11, 13] 5
    [[4]] [6] [9] _ _ (by decide) (by decide) (by decide) (by decide) (by decide) rfl rfl

/-! ### The prover's quotient pipeline in closed form -/

section DomainPipeline

variable {F : Type} [Field F]

theorem zipWith_mul_getD (l1 l2 : List F) (k : ℕ) (h1 : k < l1.length)
    (h2 : k < l2.length) :
    (List.zipWith (fun a b => a * b) l1 l2).getD k 0 = l1.getD k 0 * l2.getD k 0 := by
  have hk : k < (List.zipWith (fun a b => a * b) l1 l2).length := by
    rw [List.length_zipWith]
    omega
  rw [List.getD_eq_getElem _ _ hk, List.getD_eq_getElem _ _ h1,
    List.getD_eq_getElem _ _ h2, List.getElem_zipWith]

theorem zipWith_sub_getD (l1 l2 : List F) (k : ℕ) (h1 : k < l1.length)
    (h2 : k < l2.length) :
    (List.zipWith (fun a b => a - b) l1 l2).getD k 0 = l1.getD k 0 - l2.getD k 0 := by
  have hk : k < (List.zipWith (fun a b => a - b) l1 l2).length := by
    rw [List.length_zipWith]
    omega
  rw [List.getD_eq_getElem _ _ hk, List.getD_eq_getElem _ _ h1,
    List.getD_eq_getElem _ _ h2, List.getElem_zipWith]

theorem map_mul_getD (l : List F) (c : F) (k : ℕ) (h : k < l.length) :
    (l.map (fun v => v * c)).getD k 0 = l.getD k 0 * c := by
  have hk : k < (l.map (fun v => v * c)).length := by
    rw [List.length_map]
    exact h
  rw [List.getD_eq_getElem _ _ hk, List.getD_eq_getElem _ _ h, List.getElem_map]

/-- Evaluations of `ifft` then `coset_fft`: the interpolating polynomial's
coefficients `(Σ_t x_t ω^(-ti)) · m⁻¹`, re-evaluated on the coset `g·ω^k`. -/
theorem ifft_cosetFft_getD (d : EvaluationDomain F) (L : ℕ) (g : F) (w : Worker)
    (hlen : d.coeffs.length = 2 ^ L) (hexp : d.exp = L)
    (hω : IsPrimitiveRoot d.omega (2 ^ L)) (hinv : d.omegainv = d.omega⁻¹)
    (k : ℕ) (hk : k < 2 ^ L) :
    ((d.ifft w).cosetFft g w).coeffs.getD k 0 =
      dftSum (fun i =>
        dftSum (fun t => d.coeffs.getD t 0) d.omega⁻¹ (2 ^ L) i * d.minv * g ^ i)
        d.omega (2 ^ L) k := by
  rw [EvaluationDomain.cosetFft]
  have hlenI : (d.ifft w).coeffs.length = 2 ^ L := by
    rw [ifft_coeffs_length, hlen]
  have hlenD : ((d.ifft w).distributePowers g).coeffs.length = 2 ^ L := by
    rw [distributePowers_length, hlenI]
  rw [fft_coeffs_getD _ _ k (by rw [hlenD]; exact hk)]
  have hexp2 : ((d.ifft w).distributePowers g).exp = L := hexp
  have homega2 : ((d.ifft w).distributePowers g).omega = d.omega := rfl
  rw [hexp2, homega2]
  rw [bestFft_dft _ w d.omega L hω k hk]
  apply dftSum_congr
  intro t ht
  rw [distributePowers_getD _ _ t (by rw [hlenI]; exact ht)]
  rw [ifft_coeffs_getD _ _ t (by rw [hlen]; exact ht)]
  have e1 : d.omegainv = d.omega⁻¹ := hinv
  have e2 : d.exp = L := hexp
  rw [e1, e2, bestFft_dft _ w d.omega⁻¹ L hω.inv t ht]

theorem ifft_cosetFft_length (d : EvaluationDomain F) (g : F) (w : Worker) :
    ((d.ifft w).cosetFft g w).coeffs.length = d.coeffs.length := by
  rw [EvaluationDomain.cosetFft, fft_coeffs_length, distributePowers_length,
    ifft_coeffs_length]

/-- Evaluations of `icoset_fft`: inverse DFT of the coset evaluations,
scaled by `m⁻¹` and `g^(-i)`. -/
theorem icosetFft_getD (d : EvaluationDomain F) (L : ℕ) (w : Worker)
    (hlen : d.coeffs.length = 2 ^ L) (hexp : d.exp = L)
    (hω : IsPrimitiveRoot d.omega (2 ^ L)) (hinv : d.omegainv = d.omega⁻¹)
    (i : ℕ) (hi : i < 2 ^ L) :
    (d.icosetFft w).coeffs.getD i 0 =
      dftSum (fun k => d.coeffs.getD k 0) d.omega⁻¹ (2 ^ L) i * d.minv
        * d.geninv ^ i := by
  rw [EvaluationDomain.icosetFft]
  have hlenI : (d.ifft w).coeffs.length = 2 ^ L := by
    rw [ifft_coeffs_length, hlen]
  rw [distributePowers_getD _ _ i (by rw [hlenI]; exact hi)]
  rw [ifft_coeffs_getD _ _ i (by rw [hlen]; exact hi)]
  have e1 : d.omegainv = d.omega⁻¹ := hinv
  have e2 : d.exp = L := hexp
  rw [e1, e2, bestFft_dft _ w d.omega⁻¹ L hω.inv i hi]

theorem icosetFft_length (d : EvaluationDomain F) (w : Worker) :
    (d.icosetFft w).coeffs.length = d.coeffs.length := by
  rw [EvaluationDomain.icosetFft, distributePowers_length, ifft_coeffs_length]

/-- The domain operations only change `coeffs`; the five scalar fields are
preserved (one `rfl` lemma per op and field, for rewriting). -/
theorem ifft_exp (d : EvaluationDomain F) (w : Worker) : (d.ifft w).exp = d.exp := rfl

theorem ifft_omega (d : EvaluationDomain F) (w : Worker) :
    (d.ifft w).omega = d.omega := rfl

theorem ifft_omegainv (d : EvaluationDomain F) (w : Worker) :
    (d.ifft w).omegainv = d.omegainv := rfl

theorem ifft_geninv (d : EvaluationDomain F) (w : Worker) :
    (d.ifft w).geninv = d.geninv := rfl

theorem ifft_minv (d : EvaluationDomain F) (w : Worker) : (d.ifft w).minv = d.minv := rfl

theorem cosetFft_exp (d : EvaluationDomain F) (g : F) (w : Worker) :
    (d.cosetFft g w).exp = d.exp := rfl

theorem cosetFft_omega (d : EvaluationDomain F) (g : F) (w : Worker) :
    (d.cosetFft g w).omega = d.omega := rfl

theorem cosetFft_omegainv (d : EvaluationDomain F) (g : F) (w : Worker) :
    (d.cosetFft g w).omegainv = d.omegainv := rfl

theorem cosetFft_geninv (d : EvaluationDomain F) (g : F) (w : Worker) :
    (d.cosetFft g w).geninv = d.geninv := rfl

theorem cosetFft_minv (d : EvaluationDomain F) (g : F) (w : Worker) :
    (d.cosetFft g w).minv = d.minv := rfl

theorem icosetFft_exp (d : EvaluationDomain F) (w : Worker) :
    (d.icosetFft w).exp = d.exp := rfl

theorem icosetFft_omega (d : EvaluationDomain F) (w : Worker) :
    (d.icosetFft w).omega = d.omega := rfl

theorem icosetFft_omegainv (d : EvaluationDomain F) (w : Worker) :
    (d.icosetFft w).omegainv = d.omegainv := rfl

theorem icosetFft_geninv (d : EvaluationDomain F) (w : Worker) :
    (d.icosetFft w).geninv = d.geninv := rfl

theorem icosetFft_minv (d : EvaluationDomain F) (w : Worker) :
    (d.icosetFft w).minv = d.minv := rfl

theorem mulAssign_exp (d other : EvaluationDomain F) :
    (d.mulAssign other).exp = d.exp := rfl

theorem mulAssign_omega (d other : EvaluationDomain F) :
    (d.mulAssign other).omega = d.omega := rfl

theorem mulAssign_omegainv (d other : EvaluationDomain F) :
    (d.mulAssign other).omegainv = d.omegainv := rfl

theorem mulAssign_geninv (d other : EvaluationDomain F) :
    (d.mulAssign other).geninv = d.geninv := rfl

theorem mulAssign_minv (d other : EvaluationDomain F) :
    (d.mulAssign other).minv = d.minv := rfl

theorem subAssign_exp (d other : EvaluationDomain F) :
    (d.subAssign other).exp = d.exp := rfl

theorem subAssign_omega (d other : EvaluationDomain F) :
    (d.subAssign other).omega = d.omega := rfl

theorem subAssign_omegainv (d other : EvaluationDomain F) :
    (d.subAssign other).omegainv = d.omegainv := rfl

theorem subAssign_geninv (d other : EvaluationDomain F) :
    (d.subAssign other).geninv = d.geninv := rfl

theorem subAssign_minv (d other : EvaluationDomain F) :
    (d.subAssign other).minv = d.minv := rfl

theorem divideByZOnCoset_exp (d : EvaluationDomain F) (g : F) :
    (d.divideByZOnCoset g).exp = d.exp := rfl

theorem divideByZOnCoset_omega (d : EvaluationDomain F) (g : F) :
    (d.divideByZOnCoset g).omega = d.omega := rfl

theorem divideByZOnCoset_omegainv (d : EvaluationDomain F) (g : F) :
    (d.divideByZOnCoset g).omegainv = d.omegainv := rfl

theorem divideByZOnCoset_geninv (d : EvaluationDomain F) (g : F) :
    (d.divideByZOnCoset g).geninv = d.geninv := rfl

theorem divideByZOnCoset_minv (d : EvaluationDomain F) (g : F) :
    (d.divideByZOnCoset g).minv = d.minv := rfl

/-- Zero padding does not change `getD _ 0`. -/
theorem padded_getD (v : List F) (k t : ℕ) :
    (v ++ List.replicate k (0 : F)).getD t 0 = v.getD t 0 := by
  by_cases ht : t < v.length
  · have h2 : t < (v ++ List.replicate k (0 : F)).length := by
      rw [List.length_append]
      omega
    rw [List.getD_eq_getElem _ _ h2, List.getD_eq_getElem _ _ ht,
      List.getElem_append_left ht]
  · have hrhs : v.getD t 0 = 0 := List.getD_eq_default _ _ (by omega)
    rw [hrhs]
    by_cases h3 : t < v.length + k
    · have h4 : t < (v ++ List.replicate k (0 : F)).length := by
        rw [List.length_append, List.length_replicate]
        omega
      rw [List.getD_eq_getElem _ _ h4, List.getElem_append_right (by omega)]
      simp
    · refine List.getD_eq_default _ _ ?_
      rw [List.length_append, List.length_replicate]
      omega

theorem mulAssign_length (d other : EvaluationDomain F) :
    (d.mulAssign other).coeffs.length = min d.coeffs.length other.coeffs.length := by
  rw [EvaluationDomain.mulAssign, List.length_zipWith]

theorem subAssign_length (d other : EvaluationDomain F) :
    (d.subAssign other).coeffs.length = min d.coeffs.length other.coeffs.length := by
  rw [EvaluationDomain.subAssign, List.length_zipWith]

theorem divideByZOnCoset_length (d : EvaluationDomain F) (g : F) :
    (d.divideByZOnCoset g).coeffs.length = d.coeffs.length := by
  rw [EvaluationDomain.divideByZOnCoset, List.length_map]

/-- The coset evaluation of the interpolation of `x` at `g·ω^k`. -/
def cosetEval (x : ℕ → F) (ω g minv : F) (m k : ℕ) : F :=
  dftSum (fun i => dftSum x ω⁻¹ m i * minv * g ^ i) ω m k

/-- Evaluations of `ifft` then `coset_fft`, stated against the unpadded
vector. -/
theorem stageA_getD (d : EvaluationDomain F) (v : List F) (L : ℕ) (g : F)
    (w : Worker) (hl : d.coeffs.length = 2 ^ L) (hexp : d.exp = L)
    (hω : IsPrimitiveRoot d.omega (2 ^ L)) (hoi : d.omegainv = d.omega⁻¹)
    (hget : ∀ t, d.coeffs.getD t 0 = v.getD t 0) (k : ℕ) (hk : k < 2 ^ L) :
    ((d.ifft w).cosetFft g w).coeffs.getD k 0 =
      cosetEval (fun t => v.getD t 0) d.omega g d.minv (2 ^ L) k := by
  rw [ifft_cosetFft_getD d L g w hl hexp hω hoi k hk]
  unfold cosetEval
  apply dftSum_congr
  intro i _
  have hin : dftSum (fun t => d.coeffs.getD t 0) d.omega⁻¹ (2 ^ L) i =
      dftSum (fun t => v.getD t 0) d.omega⁻¹ (2 ^ L) i :=
    dftSum_congr _ _ _ _ _ (fun t _ => hget t)
  rw [hin]

/-- Closed form of one pipeline coefficient. -/
def hPipeCoeff (xa xb xc : ℕ → F) (ω g minv geninv zginv : F) (m i : ℕ) : F :=
  dftSum (fun k =>
    (cosetEval xa ω g minv m k * cosetEval xb ω g minv m k
      - cosetEval xc ω g minv m k) * zginv) ω⁻¹ m i * minv * geninv ^ i

set_option maxHeartbeats 1000000 in
/-- The whole `h` pipeline of `create_proof`, in worker-free closed form:
element `i` of
`icoset_fft(divide_by_z(coset_fft(ifft a)·coset_fft(ifft b) − coset_fft(ifft c)))`
is `hPipeCoeff` at `i`. -/
theorem pipeline_closed_form (Sa : ℕ) (ρ g : F) (hS : 1 ≤ Sa)
    (hρ : IsPrimitiveRoot ρ (2 ^ Sa))
    (va vb vc : List F) (hlb : vb.length = va.length) (hlc : vc.length = va.length)
    (da db dc : EvaluationDomain F)
    (hda : fromCoeffs Sa ρ g va = Except.ok da)
    (hdb : fromCoeffs Sa ρ g vb = Except.ok db)
    (hdc : fromCoeffs Sa ρ g vc = Except.ok dc) (w : Worker) :
    (((((da.ifft w).cosetFft g w).mulAssign ((db.ifft w).cosetFft g w)).subAssign
        ((dc.ifft w).cosetFft g w)).divideByZOnCoset g).icosetFft w
      = { coeffs := (List.range (2 ^ Nat.clog 2 va.length)).map
            (hPipeCoeff (fun t => va.getD t 0) (fun t => vb.getD t 0)
              (fun t => vc.getD t 0) (ρ ^ 2 ^ (Sa - Nat.clog 2 va.length)) g
              ((2 ^ Nat.clog 2 va.length : ℕ) : F)⁻¹ g⁻¹
              ((g ^ 2 ^ Nat.clog 2 va.length - 1))⁻¹ (2 ^ Nat.clog 2 va.length)),
          exp := Nat.clog 2 va.length,
          omega := ρ ^ 2 ^ (Sa - Nat.clog 2 va.length),
          omegainv := (ρ ^ 2 ^ (Sa - Nat.clog 2 va.length))⁻¹,
          geninv := g⁻¹,
          minv := ((2 ^ Nat.clog 2 va.length : ℕ) : F)⁻¹ } := by
  by_cases hbig : Sa ≤ Nat.clog 2 va.length
  · rw [fromCoeffs_err Sa ρ g va hS hbig] at hda
    exact absurd hda (by simp)
  rw [fromCoeffs_ok Sa ρ g va hS (by omega)] at hda
  rw [fromCoeffs_ok Sa ρ g vb hS (by rw [hlb]; omega)] at hdb
  rw [fromCoeffs_ok Sa ρ g vc hS (by rw [hlc]; omega)] at hdc
  rw [hlb] at hdb
  rw [hlc] at hdc
  have hda2 := Except.ok.inj hda
  have hdb2 := Except.ok.inj hdb
  have hdc2 := Except.ok.inj hdc
  set e := Nat.clog 2 va.length with he
  set ω := ρ ^ 2 ^ (Sa - e) with hw
  have hωprim : IsPrimitiveRoot ω (2 ^ e) := by
    refine IsPrimitiveRoot.pow (by positivity) hρ ?_
    rw [← pow_add]
    congr 1
    omega
  have hvle : va.length ≤ 2 ^ e := Nat.le_pow_clog (by norm_num) _
  have hlena : (va ++ List.replicate (2 ^ e - va.length) (0 : F)).length = 2 ^ e := by
    rw [List.length_append, List.length_replicate]
    omega
  have hlenb : (vb ++ List.replicate (2 ^ e - va.length) (0 : F)).length = 2 ^ e := by
    rw [List.length_append, List.length_replicate, hlb]
    omega
  have hlenc : (vc ++ List.replicate (2 ^ e - va.length) (0 : F)).length = 2 ^ e := by
    rw [List.length_append, List.length_replicate, hlc]
    omega
  have hPa : da.coeffs.length = 2 ^ e ∧ da.exp = e ∧ da.omega = ω ∧
      da.omegainv = ω⁻¹ ∧ da.geninv = g⁻¹ ∧ da.minv = ((2 ^ e : ℕ) : F)⁻¹ ∧
      ∀ t, da.coeffs.getD t 0 = va.getD t 0 := by
    rw [← hda2]
    exact ⟨hlena, rfl, rfl, rfl, rfl, rfl, fun t => padded_getD va _ t⟩
  have hPb : db.coeffs.length = 2 ^ e ∧ db.exp = e ∧ db.omega = ω ∧
      db.omegainv = ω⁻¹ ∧ db.minv = ((2 ^ e : ℕ) : F)⁻¹ ∧
      ∀ t, db.coeffs.getD t 0 = vb.getD t 0 := by
    rw [← hdb2]
    exact ⟨hlenb, rfl, rfl, rfl, rfl, fun t => padded_getD vb _ t⟩
  have hPc : dc.coeffs.length = 2 ^ e ∧ dc.exp = e ∧ dc.omega = ω ∧
      dc.omegainv = ω⁻¹ ∧ dc.minv = ((2 ^ e : ℕ) : F)⁻¹ ∧
      ∀ t, dc.coeffs.getD t 0 = vc.getD t 0 := by
    rw [← hdc2]
    exact ⟨hlenc, rfl, rfl, rfl, rfl, fun t => padded_getD vc _ t⟩
  obtain ⟨ha1, ha2, ha3, ha4, ha5, ha6, ha7⟩ := hPa
  obtain ⟨hb1, hb2, hb3, hb4, hb6, hb7⟩ := hPb
  obtain ⟨hc1, hc2, hc3, hc4, hc6, hc7⟩ := hPc
  have hAlen : ((da.ifft w).cosetFft g w).coeffs.length = 2 ^ e := by
    rw [ifft_cosetFft_length, ha1]
  have hBlen : ((db.ifft w).cosetFft g w).coeffs.length = 2 ^ e := by
    rw [ifft_cosetFft_length, hb1]
  have hClen : ((dc.ifft w).cosetFft g w).coeffs.length = 2 ^ e := by
    rw [ifft_cosetFft_length, hc1]
  have hAget : ∀ k, k < 2 ^ e → ((da.ifft w).cosetFft g w).coeffs.getD k 0 =
      cosetEval (fun t => va.getD t 0) ω g (((2 ^ e : ℕ) : F)⁻¹) (2 ^ e) k := by
    intro k hk
    have h := stageA_getD da va e g w ha1 ha2 (by rw [ha3]; exact hωprim)
      (by rw [ha4, ha3]) ha7 k hk
    rw [ha3, ha6] at h
    exact h
  have hBget : ∀ k, k < 2 ^ e → ((db.ifft w).cosetFft g w).coeffs.getD k 0 =
      cosetEval (fun t => vb.getD t 0) ω g (((2 ^ e : ℕ) : F)⁻¹) (2 ^ e) k := by
    intro k hk
    have h := stageA_getD db vb e g w hb1 hb2 (by rw [hb3]; exact hωprim)
      (by rw [hb4, hb3]) hb7 k hk
    rw [hb3, hb6] at h
    exact h
  have hCget : ∀ k, k < 2 ^ e → ((dc.ifft w).cosetFft g w).coeffs.getD k 0 =
      cosetEval (fun t => vc.getD t 0) ω g (((2 ^ e : ℕ) : F)⁻¹) (2 ^ e) k := by
    intro k hk
    have h := stageA_getD dc vc e g w hc1 hc2 (by rw [hc3]; exact hωprim)
      (by rw [hc4, hc3]) hc7 k hk
    rw [hc3, hc6] at h
    exact h
  set M := ((da.ifft w).cosetFft g w).mulAssign ((db.ifft w).cosetFft g w) with hMdef
  set Ssub := M.subAssign ((dc.ifft w).cosetFft g w) with hSdef
  set Dfin := Ssub.divideByZOnCoset g with hDdef
  have hMlen : M.coeffs.length = 2 ^ e := by
    rw [hMdef, mulAssign_length, hAlen, hBlen, min_self]
  have hSlen : Ssub.coeffs.length = 2 ^ e := by
    rw [hSdef, subAssign_length, hMlen, hClen, min_self]
  have hDlen : Dfin.coeffs.length = 2 ^ e := by
    rw [hDdef, divideByZOnCoset_length, hSlen]
  have hMget : ∀ k, k < 2 ^ e → M.coeffs.getD k 0 =
      cosetEval (fun t => va.getD t 0) ω g (((2 ^ e : ℕ) : F)⁻¹) (2 ^ e) k *
      cosetEval (fun t => vb.getD t 0) ω g (((2 ^ e : ℕ) : F)⁻¹) (2 ^ e) k := by
    intro k hk
    have hMc : M.coeffs = List.zipWith (fun a b => a * b)
        ((da.ifft w).cosetFft g w).coeffs ((db.ifft w).cosetFft g w).coeffs := rfl
    rw [hMc, zipWith_mul_getD _ _ k (by rw [hAlen]; exact hk) (by rw [hBlen]; exact hk),
      hAget k hk, hBget k hk]
  have hSget : ∀ k, k < 2 ^ e → Ssub.coeffs.getD k 0 =
      (cosetEval (fun t => va.getD t 0) ω g (((2 ^ e : ℕ) : F)⁻¹) (2 ^ e) k *
        cosetEval (fun t => vb.getD t 0) ω g (((2 ^ e : ℕ) : F)⁻¹) (2 ^ e) k -
        cosetEval (fun t => vc.getD t 0) ω g (((2 ^ e : ℕ) : F)⁻¹) (2 ^ e) k) := by
    intro k hk
    have hSc : Ssub.coeffs = List.zipWith (fun a b => a - b)
        M.coeffs ((dc.ifft w).cosetFft g w).coeffs := rfl
    rw [hSc, zipWith_sub_getD _ _ k (by rw [hMlen]; exact hk) (by rw [hClen]; exact hk),
      hMget k hk, hCget k hk]
  have hz : (Ssub.z g)⁻¹ = (g ^ 2 ^ e - 1)⁻¹ := by
    rw [EvaluationDomain.z, hSlen]
  have hDget : ∀ k, k < 2 ^ e → Dfin.coeffs.getD k 0 =
      (cosetEval (fun t => va.getD t 0) ω g (((2 ^ e : ℕ) : F)⁻¹) (2 ^ e) k *
        cosetEval (fun t => vb.getD t 0) ω g (((2 ^ e : ℕ) : F)⁻¹) (2 ^ e) k -
        cosetEval (fun t => vc.getD t 0) ω g (((2 ^ e : ℕ) : F)⁻¹) (2 ^ e) k) *
        (g ^ 2 ^ e - 1)⁻¹ := by
    intro k hk
    have hDc : Dfin.coeffs = Ssub.coeffs.map (fun v => v * (Ssub.z g)⁻¹) := rfl
    rw [hDc, map_mul_getD _ _ k (by rw [hSlen]; exact hk), hSget k hk, hz]
  have hDexp : Dfin.exp = e := by
    rw [hDdef, divideByZOnCoset_exp, hSdef, subAssign_exp, hMdef, mulAssign_exp,
      cosetFft_exp, ifft_exp, ha2]
  have hDom : Dfin.omega = ω := by
    rw [hDdef, divideByZOnCoset_omega, hSdef, subAssign_omega, hMdef, mulAssign_omega,
      cosetFft_omega, ifft_omega, ha3]
  have hDoi : Dfin.omegainv = Dfin.omega⁻¹ := by
    rw [hDom, hDdef, divideByZOnCoset_omegainv, hSdef, subAssign_omegainv, hMdef,
      mulAssign_omegainv, cosetFft_omegainv, ifft_omegainv, ha4]
  have hDge : Dfin.geninv = g⁻¹ := by
    rw [hDdef, divideByZOnCoset_geninv, hSdef, subAssign_geninv, hMdef,
      mulAssign_geninv, cosetFft_geninv, ifft_geninv, ha5]
  have hDmi : Dfin.minv = ((2 ^ e : ℕ) : F)⁻¹ := by
    rw [hDdef, divideByZOnCoset_minv, hSdef, subAssign_minv, hMdef, mulAssign_minv,
      cosetFft_minv, ifft_minv, ha6]
  refine EvaluationDomain.ext_fields _ _ ?_ ?_ ?_ ?_ ?_ ?_
  · apply List.ext_getElem
    · rw [icosetFft_length, hDlen, List.length_map, List.length_range]
    intro i hi1 hi2
    have hiE : i < 2 ^ e := by
      rw [icosetFft_length, hDlen] at hi1
      exact hi1
    rw [← List.getD_eq_getElem _ 0 hi1, List.getElem_map, List.getElem_range]
    rw [icosetFft_getD Dfin e w hDlen hDexp (by rw [hDom]; exact hωprim) hDoi i hiE]
    rw [hDom, hDmi, hDge]
    unfold hPipeCoeff
    have hcongr : dftSum (fun k => Dfin.coeffs.getD k 0) ω⁻¹ (2 ^ e) i =
        dftSum (fun k =>
          (cosetEval (fun t => va.getD t 0) ω g (((2 ^ e : ℕ) : F)⁻¹) (2 ^ e) k *
            cosetEval (fun t => vb.getD t 0) ω g (((2 ^ e : ℕ) : F)⁻¹) (2 ^ e) k -
            cosetEval (fun t => vc.getD t 0) ω g (((2 ^ e : ℕ) : F)⁻¹) (2 ^ e) k) *
            (g ^ 2 ^ e - 1)⁻¹) ω⁻¹ (2 ^ e) i :=
      dftSum_congr _ _ _ _ _ (fun k hk => hDget k hk)
    rw [hcongr]
  · rw [icosetFft_exp, hDexp]
  · rw [icosetFft_omega, hDom]
  · rw [icosetFft_omegainv, hDoi, hDom]
  · rw [icosetFft_geninv, hDge]
  · rw [icosetFft_minv, hDmi]

end DomainPipeline

/-! ## Mirage (`src/mirage/prover.rs`, `src/mirage/verifier.rs`, `src/cc.rs`)

Groups are again the dummy pairing model of the file header.  The Merlin
transcript (external crate) is a list of labeled appends, each append a
field/group element (reprs and uncompressed encodings are injective, so the
element stands for its bytes); `merlin_rng` followed by `Fr::random` is an
arbitrary function `coinOf` of the transcript so far, passed as a parameter —
the prover and verifier both call it on their own transcripts.  A circuit's
`synthesize` (trait `CcCircuit`, `src/cc.rs`) is a straight-line trace of
builder calls, embedded as a list of operations. -/

namespace mirage

variable {F : Type} [Field F] [DecidableEq F]

/-- `Index` from the builder interface (`Input(i)` / `Aux(i)`). -/
inductive Index
  | input (i : ℕ)
  | aux (i : ℕ)
deriving DecidableEq, Repr

/-- `LinearCombination`: ordered `(Variable, coeff)` pairs. -/
abbrev LinearCombination (F : Type) := List (Index × F)

/-- A transcript append: either a labeled `b"input"` repr or a labeled
`b"aux_commit"` uncompressed point. -/
inductive TMsg (F : Type)
  | input (v : F)
  | auxCommit (v : F)
deriving DecidableEq, Repr

/-- Modelled from the spec: `TranscriptEntry` (module `mirage/mod.rs`, not
among the sources; §3 "Transcript entry kinds"). -/
inductive TranscriptEntry
  | coin
  | publicInput
  | auxCommit
deriving DecidableEq, Repr

/-- Modelled from the spec: the Mirage `VerifyingKey` (module
`mirage/mod.rs` not among the sources; fields and their uses appear in
`prover.rs`/`verifier.rs` and §3). -/
structure VerifyingKey (F : Type) where
  alpha_g1 : F
  beta_g1 : F
  beta_g2 : F
  gamma_g2 : F
  deltas_g1 : List F
  deltas_g2 : List F
  ic : List F
  transcript : List TranscriptEntry

/-- Modelled from the spec: the Mirage `Proof` (§3). -/
structure Proof (F : Type) where
  a : F
  b : F
  c : F
  ds : List F

/-- `PreparedVerifyingKey` (fields as consumed by `verifier.rs`). -/
structure PreparedVerifyingKey (F : Type) where
  alpha_g1_beta_g2 : F
  neg_gamma_g2 : F
  neg_deltas_g2 : List F
  ic : List F
  transcript : List TranscriptEntry

/-- Modelled from the spec: the `ParameterSource` tables (§4.H): per-block
`L` queries (`l[b]`, with `l[k]` the final block's), the `H` query, and the
per-variable `A`/`B1`/`B2` queries split into input and aux halves. -/
structure Parameters (F : Type) where
  vk : VerifyingKey F
  h : List F
  l : List (List F)
  a_input : List F
  a_aux : List F
  b_g1_input : List F
  b_g1_aux : List F
  b_g2_input : List F
  b_g2_aux : List F

/-- Modelled from the spec: full-density `multiexp` (§4.C; `multiexp.rs`
not among the sources): `Σ exp_i · base_i`. -/
def msmFull (bases exps : List F) : F :=
  ∑ i ∈ Finset.range exps.length, bases.getD i 0 * exps.getD i 0

/-- Modelled from the spec: density-gated `multiexp` (§4.C): the sum runs
over the indices the `DensityTracker` bitmap admits. -/
def msmDense (bases exps : List F) (density : List Bool) : F :=
  ∑ i ∈ Finset.range exps.length,
    if density.getD i false then bases.getD i 0 * exps.getD i 0 else 0

/-- `eval` from `src/mirage/prover.rs` (value part): skip zero coefficients,
look the variable up, multiply by the coefficient unless it is one. -/
def eval (lc : LinearCombination F) (input_assignment aux_assignment : List F) : F :=
  lc.foldl (fun acc p =>
    if p.2 = 0 then acc
    else
      let tmp := match p.1 with
        | Index.input i => input_assignment.getD i 0
        | Index.aux i => aux_assignment.getD i 0
      acc + (if p.2 = 1 then tmp else tmp * p.2)) 0

/-- `eval`'s side effect on an aux `DensityTracker` (bitmap): `inc` the slot
of every aux variable that occurs with a nonzero coefficient. -/
def evalDensityAux (lc : LinearCombination F) (d : List Bool) : List Bool :=
  lc.foldl (fun d p =>
    if p.2 = 0 then d
    else match p.1 with
      | Index.input _ => d
      | Index.aux i => d.set i true) d

/-- `eval`'s side effect on an input `DensityTracker`. -/
def evalDensityInput (lc : LinearCombination F) (d : List Bool) : List Bool :=
  lc.foldl (fun d p =>
    if p.2 = 0 then d
    else match p.1 with
      | Index.input i => d.set i true
      | Index.aux _ => d) d

/-- `ProvingAssignment` from `src/mirage/prover.rs` (the `vk`/`params`
references are passed to the operations instead). -/
structure ProvingAssignment (F : Type) where
  a_aux_density : List Bool
  b_input_density : List Bool
  b_aux_density : List Bool
  a : List F
  b : List F
  c : List F
  input_assignment : List F
  aux_assignment : List F
  kappa_3s : List F
  pi_ds : List F
  aux_blocks : List (List F)
  aux_block_indices : List ℕ
  transcript : List (TMsg F)

/-- `ConstraintSystem::alloc` for `ProvingAssignment`. -/
def alloc (st : ProvingAssignment F) (v : F) : ProvingAssignment F :=
  { st with aux_assignment := st.aux_assignment ++ [v],
            a_aux_density := st.a_aux_density ++ [false],
            b_aux_density := st.b_aux_density ++ [false] }

/-- `ConstraintSystem::alloc_input` for `ProvingAssignment`: push the value,
append its repr to the transcript under `b"input"`. -/
def alloc_input (st : ProvingAssignment F) (v : F) : ProvingAssignment F :=
  { st with input_assignment := st.input_assignment ++ [v],
            transcript := st.transcript ++ [TMsg.input v],
            b_input_density := st.b_input_density ++ [false] }

/-- `CcConstraintSystem::alloc_random`: derive the value from the transcript
PRG (`merlin_rng` + `Fr::random`, abstracted as `coinOf`), then
`alloc_input`. -/
def alloc_random (coinOf : List (TMsg F) → F) (st : ProvingAssignment F) :
    ProvingAssignment F :=
  alloc_input st (coinOf st.transcript)

/-- `ConstraintSystem::enforce` for `ProvingAssignment`: push the three
`eval`s (inputs have full density in A; no C query). -/
def enforce (st : ProvingAssignment F) (la lb lc : LinearCombination F) :
    ProvingAssignment F :=
  { st with
    a := st.a ++ [eval la st.input_assignment st.aux_assignment],
    b := st.b ++ [eval lb st.input_assignment st.aux_assignment],
    c := st.c ++ [eval lc st.input_assignment st.aux_assignment],
    a_aux_density := evalDensityAux la st.a_aux_density,
    b_input_density := evalDensityInput lb st.b_input_density,
    b_aux_density := evalDensityAux lb st.b_aux_density }

/-- `CcConstraintSystem::end_aux_block` for `ProvingAssignment`: take the
aux slice since the previous boundary (`assert!(end > start)` is `none`),
commit it against the block's `L` query plus `deltas_g1.last * kappa_3s[i]`
(the `unwrap` and the index are `none` when absent), append the commitment
under `b"aux_commit"` and record the boundary. -/
def end_aux_block (params : Parameters F) (st : ProvingAssignment F) :
    Option (ProvingAssignment F) :=
  if st.aux_assignment.length > st.aux_block_indices.getLast?.getD 0 then
    match params.vk.deltas_g1.getLast?, st.kappa_3s[st.aux_block_indices.length]? with
    | some dlast, some kappa =>
      let block := (st.aux_assignment.drop (st.aux_block_indices.getLast?.getD 0)).take
        (st.aux_assignment.length - st.aux_block_indices.getLast?.getD 0)
      let pi_d := msmFull (params.l.getD st.aux_block_indices.length []) block
        + dlast * kappa
      some { st with
        aux_blocks := st.aux_blocks ++ [block],
        pi_ds := st.pi_ds ++ [pi_d],
        transcript := st.transcript ++ [TMsg.auxCommit pi_d],
        aux_block_indices := st.aux_block_indices ++ [st.aux_assignment.length] }
    | _, _ => none
  else none

/-- A circuit's `synthesize` as a straight-line trace of builder calls. -/
inductive CircuitOp (F : Type)
  | alloc (v : F)
  | allocInput (v : F)
  | allocRandom
  | endAuxBlock
  | enforce (la lb lc : LinearCombination F)

/-- Run the trace against a `ProvingAssignment` (`circuit.synthesize`). -/
def synthesize (coinOf : List (TMsg F) → F) (params : Parameters F)
    (ops : List (CircuitOp F)) (st : ProvingAssignment F) :
    Option (ProvingAssignment F) :=
  ops.foldlM (fun st op => match op with
    | CircuitOp.alloc v => some (alloc st v)
    | CircuitOp.allocInput v => some (alloc_input st v)
    | CircuitOp.allocRandom => some (alloc_random coinOf st)
    | CircuitOp.endAuxBlock => end_aux_block params st
    | CircuitOp.enforce la lb lc => some (enforce st la lb lc)) st

/-- `create_proof` from `src/mirage/prover.rs`, over the scalar field with
2-adicity `Sa`, `root_of_unity` `ρ` and `multiplicative_generator` `g`, the
worker `w`, and the transcript PRG `coinOf`.  `none` models a panic
(`assert`, out-of-bounds index or `unwrap`); `some (Except.error e)` the
`Err` returns.  Steps in source order: the κ-count assert; the initial
`alloc_input(1)`; synthesis; one pinning constraint per input; the
`h`-pipeline (三 domains, ifft/coset-fft, pointwise mul/sub, divide by `z`
on the coset, icoset-fft, drop the top coefficient, MSM against `H`); the
`L`, `A` and `B` MSMs; the δ-identity guard; the `g_a`/`g_b`/`g_c`
assembly. -/
def create_proof (coinOf : List (TMsg F) → F) (Sa : ℕ) (ρ g : F)
    (ops : List (CircuitOp F)) (num_aux_blocks : ℕ) (params : Parameters F)
    (r s : F) (kappa_3s : List F) (w : Worker) :
    Option (Except SynthesisError (Proof F × List (List F))) :=
  if kappa_3s.length = num_aux_blocks then
    let vk := params.vk
    let st0 : ProvingAssignment F :=
      ⟨[], [], [], [], [], [], [], [], kappa_3s, [], [], [], []⟩
    let st1 := alloc_input st0 1
    match synthesize coinOf params ops st1 with
    | none => none
    | some st2 =>
      let st3 := (List.range st2.input_assignment.length).foldl
        (fun st i => enforce st [(Index.input i, 1)] [] []) st2
      match fromCoeffs Sa ρ g st3.a with
      | Except.error e => some (Except.error e)
      | Except.ok da =>
      match fromCoeffs Sa ρ g st3.b with
      | Except.error e => some (Except.error e)
      | Except.ok db =>
      match fromCoeffs Sa ρ g st3.c with
      | Except.error e => some (Except.error e)
      | Except.ok dc =>
      let ha := (((((da.ifft w).cosetFft g w).mulAssign
        ((db.ifft w).cosetFft g w)).subAssign
        ((dc.ifft w).cosetFft g w)).divideByZOnCoset g).icosetFft w
      let hval := msmFull params.h ha.coeffs.dropLast
      let final_block := st3.aux_assignment.drop (st3.aux_block_indices.getLast?.getD 0)
      let lval := msmFull (params.l.getD st3.aux_block_indices.length []) final_block
      let a_answer := msmFull params.a_input st3.input_assignment
        + msmDense params.a_aux st3.aux_assignment st3.a_aux_density
      let b1 := msmDense params.b_g1_input st3.input_assignment st3.b_input_density
        + msmDense params.b_g1_aux st3.aux_assignment st3.b_aux_density
      let b2 := msmDense params.b_g2_input st3.input_assignment st3.b_input_density
        + msmDense params.b_g2_aux st3.aux_assignment st3.b_aux_density
      if vk.deltas_g1.length ≤ vk.deltas_g2.length then
        if (List.range vk.deltas_g1.length).any
            (fun i => decide (vk.deltas_g1.getD i 0 = 0 ∨ vk.deltas_g2.getD i 0 = 0)) then
          some (Except.error SynthesisError.unexpectedIdentity)
        else
          let last := vk.deltas_g1.length - 1
          let g_a := vk.deltas_g1.getD last 0 * r + vk.alpha_g1 + a_answer
          let g_b := vk.deltas_g2.getD last 0 * s + vk.beta_g2 + b2
          let g_c := (List.range kappa_3s.length).foldl
              (fun acc i => acc + -(vk.deltas_g1.getD i 0) * kappa_3s.getD i 0)
              (vk.deltas_g1.getD last 0 * (r * s))
            + vk.alpha_g1 * s + vk.beta_g1 * r + a_answer * s + b1 * r + hval + lval
          some (Except.ok ({ a := g_a, b := g_b, c := g_c, ds := st3.pi_ds },
            st3.aux_blocks))
      else none
  else none

/-- `prepare_verifying_key` from `src/mirage/verifier.rs`: negate γ and the
δs in `G2`, pair α with β. -/
def prepare_verifying_key (vk : VerifyingKey F) : PreparedVerifyingKey F :=
  { alpha_g1_beta_g2 := vk.alpha_g1 * vk.beta_g2,
    neg_gamma_g2 := -vk.gamma_g2,
    neg_deltas_g2 := vk.deltas_g2.map (fun d => -d),
    ic := vk.ic,
    transcript := vk.transcript }

/-- The verifier's replay state: its transcript, the IC accumulator and the
three counters of `verify_proof`. -/
structure VState (F : Type) where
  transcript : List (TMsg F)
  acc : F
  public_inputs_i : ℕ
  aux_commits_i : ℕ
  i : ℕ

/-- One transcript-schedule step of `verify_proof` (the `for t in
&pvk.transcript` body); `none` models an out-of-bounds index panic. -/
def verifyStep (coinOf : List (TMsg F) → F) (pvk : PreparedVerifyingKey F)
    (proof : Proof F) (public_inputs : List F) (st : VState F)
    (t : TranscriptEntry) : Option (VState F) :=
  match t with
  | TranscriptEntry.coin => do
      let coin := coinOf st.transcript
      let ici ← pvk.ic[st.i]?
      some (VState.mk (st.transcript ++ [TMsg.input coin]) (st.acc + ici * coin)
        st.public_inputs_i st.aux_commits_i (st.i + 1))
  | TranscriptEntry.publicInput => do
      let ici ← pvk.ic[st.i]?
      let x ← public_inputs[st.public_inputs_i]?
      some (VState.mk (st.transcript ++ [TMsg.input x]) (st.acc + ici * x)
        (st.public_inputs_i + 1) st.aux_commits_i (st.i + 1))
  | TranscriptEntry.auxCommit => do
      let d ← proof.ds[st.aux_commits_i]?
      some (VState.mk (st.transcript ++ [TMsg.auxCommit d]) st.acc
        st.public_inputs_i (st.aux_commits_i + 1) st.i)

/-- `verify_proof` from `src/mirage/verifier.rs`: replay the VK's transcript
schedule accumulating `acc`; fail with `InvalidVerifyingKey` when the
declared IC slots or aux commits do not match the observed totals; then the
single multi-pairing check against `e(α, β)`.  `none` models a panic (an
out-of-bounds index, or the `assert_eq!` on δ counts). -/
def verify_proof (coinOf : List (TMsg F) → F) (pvk : PreparedVerifyingKey F)
    (proof : Proof F) (public_inputs : List F) :
    Option (Except VerificationError Unit) := do
  let ic0 ← pvk.ic[0]?
  let st ← pvk.transcript.foldlM (verifyStep coinOf pvk proof public_inputs)
    { transcript := [TMsg.input 1], acc := ic0, public_inputs_i := 0,
      aux_commits_i := 0, i := 1 }
  if st.i ≠ pvk.ic.length ∨ st.aux_commits_i ≠ proof.ds.length then
    some (Except.error VerificationError.invalidVerifyingKey)
  else if pvk.neg_deltas_g2.length = proof.ds.length + 1 then
    let mm := proof.a * proof.b + st.acc * pvk.neg_gamma_g2
      + proof.c * pvk.neg_deltas_g2.getD (pvk.neg_deltas_g2.length - 1) 0
      + (List.zipWith (fun d nd => d * nd) proof.ds pvk.neg_deltas_g2).sum
    if pvk.alpha_g1_beta_g2 = mm then some (Except.ok ())
    else some (Except.error VerificationError.invalidProof)
  else none

/-! ### C9: the aux-block boundary invariant -/

/-- What a successful `end_aux_block` did: the `assert!(end > start)` held,
the current aux count was recorded as the new boundary, and the aux
assignment itself is unchanged. -/
theorem end_aux_block_spec (params : Parameters F) (st st' : ProvingAssignment F)
    (h : end_aux_block params st = some st') :
    st.aux_block_indices.getLast?.getD 0 < st.aux_assignment.length ∧
    st'.aux_block_indices = st.aux_block_indices ++ [st.aux_assignment.length] ∧
    st'.aux_assignment = st.aux_assignment := by
  unfold end_aux_block at h
  by_cases hc : st.aux_assignment.length > st.aux_block_indices.getLast?.getD 0
  · rw [if_pos hc] at h
    refine ⟨hc, ?_⟩
    rcases hlast : params.vk.deltas_g1.getLast? with _ | dlast <;> rw [hlast] at h
    · exact absurd h (by simp)
    · rcases hk : st.kappa_3s[st.aux_block_indices.length]? with _ | kappa <;>
        rw [hk] at h
      · exact absurd h (by simp)
      · rw [Option.some.injEq] at h
        rw [← h]
        exact ⟨rfl, rfl⟩
  · rw [if_neg hc] at h
    exact absurd h (by simp)

/-- The invariant of C9 on a prover state. -/
def auxIndicesInv (st : ProvingAssignment F) : Prop :=
  List.Chain' (fun x y => x < y) st.aux_block_indices ∧
  ∀ x ∈ st.aux_block_indices, x ≤ st.aux_assignment.length

theorem auxIndicesInv_append (ind : List ℕ) (alen : ℕ)
    (hch : List.Chain' (fun x y => x < y) ind) (hle : ∀ x ∈ ind, x ≤ alen)
    (hgt : ind.getLast?.getD 0 < alen) :
    List.Chain' (fun x y => x < y) (ind ++ [alen]) ∧
    ∀ x ∈ ind ++ [alen], x ≤ alen := by
  constructor
  · rw [List.chain'_append]
    refine ⟨hch, List.chain'_singleton _, ?_⟩
    intro x hx y hy
    rw [List.head?_cons, Option.mem_def, Option.some.injEq] at hy
    rw [Option.mem_def] at hx
    rw [hx, Option.getD_some] at hgt
    omega
  · intro x hx
    rcases List.mem_append.mp hx with h1 | h1
    · exact hle x h1
    · simp only [List.mem_singleton] at h1
      omega

theorem end_aux_block_inv (params : Parameters F) (st st' : ProvingAssignment F)
    (hInv : auxIndicesInv st) (h : end_aux_block params st = some st') :
    auxIndicesInv st' := by
  obtain ⟨hgt, hind, haux⟩ := end_aux_block_spec params st st' h
  unfold auxIndicesInv
  rw [hind, haux]
  exact auxIndicesInv_append st.aux_block_indices st.aux_assignment.length
    hInv.1 hInv.2 hgt

/-- **C9.** Throughout proving, `aux_block_indices` is strictly increasing
and each recorded value is at most the aux count: the invariant holds after
any synthesis trace from any state satisfying it (in particular from
`create_proof`'s initial state, whose lists are empty); moreover every
successful `end_aux_block` required at least one aux variable since the
previous boundary and recorded the current aux count as the new boundary. -/
theorem aux_block_indices_invariant (coinOf : List (TMsg F) → F)
    (params : Parameters F) (ops : List (CircuitOp F))
    (st st' : ProvingAssignment F) (hInv : auxIndicesInv st)
    (hrun : synthesize coinOf params ops st = some st') :
    auxIndicesInv st' ∧
    (∀ st2 st3 : ProvingAssignment F, end_aux_block params st2 = some st3 →
      st2.aux_block_indices.getLast?.getD 0 < st2.aux_assignment.length ∧
      st3.aux_block_indices = st2.aux_block_indices ++ [st2.aux_assignment.length]) := by
  refine ⟨?_, fun st2 st3 h => ⟨(end_aux_block_spec params st2 st3 h).1,
    (end_aux_block_spec params st2 st3 h).2.1⟩⟩
  induction ops generalizing st with
  | nil =>
    simp only [synthesize, List.foldlM_nil, Option.pure_def, Option.some.injEq] at hrun
    rw [← hrun]
    exact hInv
  | cons op rest ih =>
    simp only [synthesize, List.foldlM_cons] at hrun
    match op with
    | CircuitOp.alloc v =>
      simp only [bind, Option.bind] at hrun
      refine ih (alloc st v) ?_ hrun
      obtain ⟨h1, h2⟩ := hInv
      refine ⟨h1, fun x hx => ?_⟩
      simp only [alloc, List.length_append, List.length_cons, List.length_nil]
      have := h2 x hx
      omega
    | CircuitOp.allocInput v =>
      simp only [bind, Option.bind] at hrun
      exact ih (alloc_input st v) hInv hrun
    | CircuitOp.allocRandom =>
      simp only [bind, Option.bind] at hrun
      exact ih (alloc_random coinOf st) hInv hrun
    | CircuitOp.endAuxBlock =>
      rcases he : end_aux_block params st with _ | stx
      · rw [he] at hrun
        exact absurd hrun (by simp)
      · rw [he] at hrun
        simp only [bind, Option.bind] at hrun
        exact ih stx (end_aux_block_inv params st stx hInv he) hrun
    | CircuitOp.enforce la lb lc =>
      simp only [bind, Option.bind] at hrun
      exact ih (enforce st la lb lc) hInv hrun

/-! ### C2 / C10: the verifier's shape behavior -/

/-- Count of `PublicInput` entries in a transcript schedule. -/
def countPI (l : List TranscriptEntry) : ℕ :=
  l.countP (fun t => match t with | TranscriptEntry.publicInput => true | _ => false)

/-- Count of `Coin` entries. -/
def countCoin (l : List TranscriptEntry) : ℕ :=
  l.countP (fun t => match t with | TranscriptEntry.coin => true | _ => false)

/-- Count of `AuxCommit` entries. -/
def countAC (l : List TranscriptEntry) : ℕ :=
  l.countP (fun t => match t with | TranscriptEntry.auxCommit => true | _ => false)

/-- When every index stays in range, the transcript replay succeeds and its
counters advance by the entry counts. -/
theorem replay_ok (coinOf : List (TMsg F) → F) (pvk : PreparedVerifyingKey F)
    (proof : Proof F) (public_inputs : List F) :
    ∀ (l : List TranscriptEntry) (st : VState F),
      st.i + countPI l + countCoin l ≤ pvk.ic.length →
      st.public_inputs_i + countPI l ≤ public_inputs.length →
      st.aux_commits_i + countAC l ≤ proof.ds.length →
      ∃ st', List.foldlM (verifyStep coinOf pvk proof public_inputs) st l = some st' ∧
        st'.i = st.i + countPI l + countCoin l ∧
        st'.public_inputs_i = st.public_inputs_i + countPI l ∧
        st'.aux_commits_i = st.aux_commits_i + countAC l := by
  intro l
  induction l with
  | nil =>
    intro st h1 h2 h3
    exact ⟨st, rfl, by simp [countPI, countCoin], by simp [countPI], by simp [countAC]⟩
  | cons t rest ih =>
    intro st h1 h2 h3
    match t with
    | TranscriptEntry.coin =>
      have hc1 : countPI (TranscriptEntry.coin :: rest) = countPI rest := by
        simp [countPI, List.countP_cons]
      have hc2 : countCoin (TranscriptEntry.coin :: rest) = countCoin rest + 1 := by
        simp [countCoin, List.countP_cons]
      have hc3 : countAC (TranscriptEntry.coin :: rest) = countAC rest := by
        simp [countAC, List.countP_cons]
      have hii : st.i < pvk.ic.length := by omega
      rw [List.foldlM_cons]
      have hstep : verifyStep coinOf pvk proof public_inputs st TranscriptEntry.coin =
          some (VState.mk (st.transcript ++ [TMsg.input (coinOf st.transcript)])
            (st.acc + pvk.ic[st.i] * coinOf st.transcript)
            st.public_inputs_i st.aux_commits_i (st.i + 1)) := by
        unfold verifyStep
        rw [List.getElem?_eq_getElem hii]
        rfl
      rw [hstep]
      simp only [bind, Option.bind]
      obtain ⟨st', hst', e1, e2, e3⟩ := ih
        (VState.mk (st.transcript ++ [TMsg.input (coinOf st.transcript)])
          (st.acc + pvk.ic[st.i] * coinOf st.transcript)
          st.public_inputs_i st.aux_commits_i (st.i + 1))
        (show st.i + 1 + countPI rest + countCoin rest ≤ pvk.ic.length by omega)
        (show st.public_inputs_i + countPI rest ≤ public_inputs.length by omega)
        (show st.aux_commits_i + countAC rest ≤ proof.ds.length by omega)
      have e1b : st'.i = st.i + 1 + countPI rest + countCoin rest := e1
      have e2b : st'.public_inputs_i = st.public_inputs_i + countPI rest := e2
      have e3b : st'.aux_commits_i = st.aux_commits_i + countAC rest := e3
      exact ⟨st', hst', by omega, by omega, by omega⟩
    | TranscriptEntry.publicInput =>
      have hc1 : countPI (TranscriptEntry.publicInput :: rest) = countPI rest + 1 := by
        simp [countPI, List.countP_cons]
      have hc2 : countCoin (TranscriptEntry.publicInput :: rest) = countCoin rest := by
        simp [countCoin, List.countP_cons]
      have hc3 : countAC (TranscriptEntry.publicInput :: rest) = countAC rest := by
        simp [countAC, List.countP_cons]
      have hii : st.i < pvk.ic.length := by omega
      have hpi : st.public_inputs_i < public_inputs.length := by omega
      rw [List.foldlM_cons]
      have hstep : verifyStep coinOf pvk proof public_inputs st
          TranscriptEntry.publicInput =
          some (VState.mk (st.transcript ++ [TMsg.input public_inputs[st.public_inputs_i]])
            (st.acc + pvk.ic[st.i] * public_inputs[st.public_inputs_i])
            (st.public_inputs_i + 1) st.aux_commits_i (st.i + 1)) := by
        unfold verifyStep
        rw [List.getElem?_eq_getElem hii]
        simp only [bind, Option.bind]
        rw [List.getElem?_eq_getElem hpi]
      rw [hstep]
      simp only [bind, Option.bind]
      obtain ⟨st', hst', e1, e2, e3⟩ := ih
        (VState.mk (st.transcript ++ [TMsg.input public_inputs[st.public_inputs_i]])
          (st.acc + pvk.ic[st.i] * public_inputs[st.public_inputs_i])
          (st.public_inputs_i + 1) st.aux_commits_i (st.i + 1))
        (show st.i + 1 + countPI rest + countCoin rest ≤ pvk.ic.length by omega)
        (show st.public_inputs_i + 1 + countPI rest ≤ public_inputs.length by omega)
        (show st.aux_commits_i + countAC rest ≤ proof.ds.length by omega)
      have e1b : st'.i = st.i + 1 + countPI rest + countCoin rest := e1
      have e2b : st'.public_inputs_i = st.public_inputs_i + 1 + countPI rest := e2
      have e3b : st'.aux_commits_i = st.aux_commits_i + countAC rest := e3
      exact ⟨st', hst', by omega, by omega, by omega⟩
    | TranscriptEntry.auxCommit =>
      have hc1 : countPI (TranscriptEntry.auxCommit :: rest) = countPI rest := by
        simp [countPI, List.countP_cons]
      have hc2 : countCoin (TranscriptEntry.auxCommit :: rest) = countCoin rest := by
        simp [countCoin, List.countP_cons]
      have hc3 : countAC (TranscriptEntry.auxCommit :: rest) = countAC rest + 1 := by
        simp [countAC, List.countP_cons]
      have hac : st.aux_commits_i < proof.ds.length := by omega
      rw [List.foldlM_cons]
      have hstep : verifyStep coinOf pvk proof public_inputs st
          TranscriptEntry.auxCommit =
          some (VState.mk (st.transcript ++ [TMsg.auxCommit proof.ds[st.aux_commits_i]])
            st.acc st.public_inputs_i (st.aux_commits_i + 1) st.i) := by
        unfold verifyStep
        rw [List.getElem?_eq_getElem hac]
        rfl
      rw [hstep]
      simp only [bind, Option.bind]
      obtain ⟨st', hst', e1, e2, e3⟩ := ih
        (VState.mk (st.transcript ++ [TMsg.auxCommit proof.ds[st.aux_commits_i]])
          st.acc st.public_inputs_i (st.aux_commits_i + 1) st.i)
        (show st.i + countPI rest + countCoin rest ≤ pvk.ic.length by omega)
        (show st.public_inputs_i + countPI rest ≤ public_inputs.length by omega)
        (show st.aux_commits_i + 1 + countAC rest ≤ proof.ds.length by omega)
      have e1b : st'.i = st.i + countPI rest + countCoin rest := e1
      have e2b : st'.public_inputs_i = st.public_inputs_i + countPI rest := e2
      have e3b : st'.aux_commits_i = st.aux_commits_i + 1 + countAC rest := e3
      exact ⟨st', hst', by omega, by omega, by omega⟩

/-- Too few public inputs: the replay hits an out-of-bounds
`public_inputs[public_inputs_i]` and panics (`none`). -/
theorem replay_fail_pi (coinOf : List (TMsg F) → F) (pvk : PreparedVerifyingKey F)
    (proof : Proof F) (public_inputs : List F) :
    ∀ (l : List TranscriptEntry) (st : VState F),
      st.i + countPI l + countCoin l ≤ pvk.ic.length →
      st.aux_commits_i + countAC l ≤ proof.ds.length →
      st.public_inputs_i ≤ public_inputs.length →
      public_inputs.length < st.public_inputs_i + countPI l →
      List.foldlM (verifyStep coinOf pvk proof public_inputs) st l = none := by
  intro l
  induction l with
  | nil =>
    intro st h1 h2 h3 h4
    simp only [countPI, List.countP_nil] at h4
    omega
  | cons t rest ih =>
    intro st h1 h2 h3 h4
    match t with
    | TranscriptEntry.coin =>
      have hc1 : countPI (TranscriptEntry.coin :: rest) = countPI rest := by
        simp [countPI, List.countP_cons]
      have hc2 : countCoin (TranscriptEntry.coin :: rest) = countCoin rest + 1 := by
        simp [countCoin, List.countP_cons]
      have hc3 : countAC (TranscriptEntry.coin :: rest) = countAC rest := by
        simp [countAC, List.countP_cons]
      have hii : st.i < pvk.ic.length := by omega
      rw [List.foldlM_cons]
      have hstep : verifyStep coinOf pvk proof public_inputs st TranscriptEntry.coin =
          some (VState.mk (st.transcript ++ [TMsg.input (coinOf st.transcript)])
            (st.acc + pvk.ic[st.i] * coinOf st.transcript)
            st.public_inputs_i st.aux_commits_i (st.i + 1)) := by
        unfold verifyStep
        rw [List.getElem?_eq_getElem hii]
        rfl
      rw [hstep]
      simp only [bind, Option.bind]
      exact ih _ (show st.i + 1 + countPI rest + countCoin rest ≤ pvk.ic.length by omega)
        (show st.aux_commits_i + countAC rest ≤ proof.ds.length by omega)
        (show st.public_inputs_i ≤ public_inputs.length by omega)
        (show public_inputs.length < st.public_inputs_i + countPI rest by omega)
    | TranscriptEntry.publicInput =>
      have hc1 : countPI (TranscriptEntry.publicInput :: rest) = countPI rest + 1 := by
        simp [countPI, List.countP_cons]
      have hc2 : countCoin (TranscriptEntry.publicInput :: rest) = countCoin rest := by
        simp [countCoin, List.countP_cons]
      have hc3 : countAC (TranscriptEntry.publicInput :: rest) = countAC rest := by
        simp [countAC, List.countP_cons]
      have hii : st.i < pvk.ic.length := by omega
      rw [List.foldlM_cons]
      by_cases hpi : st.public_inputs_i < public_inputs.length
      · have hstep : verifyStep coinOf pvk proof public_inputs st
            TranscriptEntry.publicInput =
            some (VState.mk
              (st.transcript ++ [TMsg.input public_inputs[st.public_inputs_i]])
              (st.acc + pvk.ic[st.i] * public_inputs[st.public_inputs_i])
              (st.public_inputs_i + 1) st.aux_commits_i (st.i + 1)) := by
          unfold verifyStep
          rw [List.getElem?_eq_getElem hii]
          simp only [bind, Option.bind]
          rw [List.getElem?_eq_getElem hpi]
        rw [hstep]
        simp only [bind, Option.bind]
        exact ih _
          (show st.i + 1 + countPI rest + countCoin rest ≤ pvk.ic.length by omega)
          (show st.aux_commits_i + countAC rest ≤ proof.ds.length by omega)
          (show st.public_inputs_i + 1 ≤ public_inputs.length by omega)
          (show public_inputs.length < st.public_inputs_i + 1 + countPI rest by omega)
      · have hstep : verifyStep coinOf pvk proof public_inputs st
            TranscriptEntry.publicInput = none := by
          unfold verifyStep
          rw [List.getElem?_eq_getElem hii]
          simp only [bind, Option.bind]
          rw [List.getElem?_eq_none_iff.mpr (by omega)]
        rw [hstep]
        rfl
    | TranscriptEntry.auxCommit =>
      have hc1 : countPI (TranscriptEntry.auxCommit :: rest) = countPI rest := by
        simp [countPI, List.countP_cons]
      have hc2 : countCoin (TranscriptEntry.auxCommit :: rest) = countCoin rest := by
        simp [countCoin, List.countP_cons]
      have hc3 : countAC (TranscriptEntry.auxCommit :: rest) = countAC rest + 1 := by
        simp [countAC, List.countP_cons]
      have hac : st.aux_commits_i < proof.ds.length := by omega
      rw [List.foldlM_cons]
      have hstep : verifyStep coinOf pvk proof public_inputs st
          TranscriptEntry.auxCommit =
          some (VState.mk (st.transcript ++ [TMsg.auxCommit proof.ds[st.aux_commits_i]])
            st.acc st.public_inputs_i (st.aux_commits_i + 1) st.i) := by
        unfold verifyStep
        rw [List.getElem?_eq_getElem hac]
        rfl
      rw [hstep]
      simp only [bind, Option.bind]
      exact ih _ (show st.i + countPI rest + countCoin rest ≤ pvk.ic.length by omega)
        (show st.aux_commits_i + 1 + countAC rest ≤ proof.ds.length by omega)
        (show st.public_inputs_i ≤ public_inputs.length by omega)
        (show public_inputs.length < st.public_inputs_i + countPI rest by omega)

/-- Too few proof `D`s: the replay hits an out-of-bounds
`proof.ds[aux_commits_i]` and panics (`none`). -/
theorem replay_fail_ds (coinOf : List (TMsg F) → F) (pvk : PreparedVerifyingKey F)
    (proof : Proof F) (public_inputs : List F) :
    ∀ (l : List TranscriptEntry) (st : VState F),
      st.i + countPI l + countCoin l ≤ pvk.ic.length →
      st.public_inputs_i + countPI l ≤ public_inputs.length →
      st.aux_commits_i ≤ proof.ds.length →
      proof.ds.length < st.aux_commits_i + countAC l →
      List.foldlM (verifyStep coinOf pvk proof public_inputs) st l = none := by
  intro l
  induction l with
  | nil =>
    intro st h1 h2 h3 h4
    simp only [countAC, List.countP_nil] at h4
    omega
  | cons t rest ih =>
    intro st h1 h2 h3 h4
    match t with
    | TranscriptEntry.coin =>
      have hc1 : countPI (TranscriptEntry.coin :: rest) = countPI rest := by
        simp [countPI, List.countP_cons]
      have hc2 : countCoin (TranscriptEntry.coin :: rest) = countCoin rest + 1 := by
        simp [countCoin, List.countP_cons]
      have hc3 : countAC (TranscriptEntry.coin :: rest) = countAC rest := by
        simp [countAC, List.countP_cons]
      have hii : st.i < pvk.ic.length := by omega
      rw [List.foldlM_cons]
      have hstep : verifyStep coinOf pvk proof public_inputs st TranscriptEntry.coin =
          some (VState.mk (st.transcript ++ [TMsg.input (coinOf st.transcript)])
            (st.acc + pvk.ic[st.i] * coinOf st.transcript)
            st.public_inputs_i st.aux_commits_i (st.i + 1)) := by
        unfold verifyStep
        rw [List.getElem?_eq_getElem hii]
        rfl
      rw [hstep]
      simp only [bind, Option.bind]
      exact ih _ (show st.i + 1 + countPI rest + countCoin rest ≤ pvk.ic.length by omega)
        (show st.public_inputs_i + countPI rest ≤ public_inputs.length by omega)
        (show st.aux_commits_i ≤ proof.ds.length by omega)
        (show proof.ds.length < st.aux_commits_i + countAC rest by omega)
    | TranscriptEntry.publicInput =>
      have hc1 : countPI (TranscriptEntry.publicInput :: rest) = countPI rest + 1 := by
        simp [countPI, List.countP_cons]
      have hc2 : countCoin (TranscriptEntry.publicInput :: rest) = countCoin rest := by
        simp [countCoin, List.countP_cons]
      have hc3 : countAC (TranscriptEntry.publicInput :: rest) = countAC rest := by
        simp [countAC, List.countP_cons]
      have hii : st.i < pvk.ic.length := by omega
      have hpi : st.public_inputs_i < public_inputs.length := by omega
      rw [List.foldlM_cons]
      have hstep : verifyStep coinOf pvk proof public_inputs st
          TranscriptEntry.publicInput =
          some (VState.mk
            (st.transcript ++ [TMsg.input public_inputs[st.public_inputs_i]])
            (st.acc + pvk.ic[st.i] * public_inputs[st.public_inputs_i])
            (st.public_inputs_i + 1) st.aux_commits_i (st.i + 1)) := by
        unfold verifyStep
        rw [List.getElem?_eq_getElem hii]
        simp only [bind, Option.bind]
        rw [List.getElem?_eq_getElem hpi]
      rw [hstep]
      simp only [bind, Option.bind]
      exact ih _ (show st.i + 1 + countPI rest + countCoin rest ≤ pvk.ic.length by omega)
        (show st.public_inputs_i + 1 + countPI rest ≤ public_inputs.length by omega)
        (show st.aux_commits_i ≤ proof.ds.length by omega)
        (show proof.ds.length < st.aux_commits_i + countAC rest by omega)
    | TranscriptEntry.auxCommit =>
      have hc1 : countPI (TranscriptEntry.auxCommit :: rest) = countPI rest := by
        simp [countPI, List.countP_cons]
      have hc2 : countCoin (TranscriptEntry.auxCommit :: rest) = countCoin rest := by
        simp [countCoin, List.countP_cons]
      have hc3 : countAC (TranscriptEntry.auxCommit :: rest) = countAC rest + 1 := by
        simp [countAC, List.countP_cons]
      rw [List.foldlM_cons]
      by_cases hac : st.aux_commits_i < proof.ds.length
      · have hstep : verifyStep coinOf pvk proof public_inputs st
            TranscriptEntry.auxCommit =
            some (VState.mk (st.transcript ++ [TMsg.auxCommit proof.ds[st.aux_commits_i]])
              st.acc st.public_inputs_i (st.aux_commits_i + 1) st.i) := by
          unfold verifyStep
          rw [List.getElem?_eq_getElem hac]
          rfl
        rw [hstep]
        simp only [bind, Option.bind]
        exact ih _ (show st.i + countPI rest + countCoin rest ≤ pvk.ic.length by omega)
          (show st.public_inputs_i + countPI rest ≤ public_inputs.length by omega)
          (show st.aux_commits_i + 1 ≤ proof.ds.length by omega)
          (show proof.ds.length < st.aux_commits_i + 1 + countAC rest by omega)
      · have hstep : verifyStep coinOf pvk proof public_inputs st
            TranscriptEntry.auxCommit = none := by
          unfold verifyStep
          rw [show proof.ds[st.aux_commits_i]? = none from
            List.getElem?_eq_none_iff.mpr (by omega)]
          rfl
        rw [hstep]
        rfl

/-- **C2 (amended).** For a prepared verifying key whose IC table matches
its schedule (`|ic| = 1 + #PublicInput + #Coin`, as setup produces): when
the supplied `public_inputs` are **fewer** than the schedule's
`PublicInput` entries, or the proof's `D` vector is **shorter** than the
schedule's `AuxCommit` entries, `verify_proof` hits an out-of-bounds index
and panics (`none`) — it does **not** return `Err(InvalidVerifyingKey)`;
only a **surplus** `D` vector is reported as `Err(InvalidVerifyingKey)`. -/
theorem verify_proof_shape_behavior (coinOf : List (TMsg F) → F)
    (pvk : PreparedVerifyingKey F) (proof : Proof F) (public_inputs : List F)
    (hic : pvk.ic.length = 1 + countPI pvk.transcript + countCoin pvk.transcript) :
    (public_inputs.length < countPI pvk.transcript →
      countAC pvk.transcript ≤ proof.ds.length →
      verify_proof coinOf pvk proof public_inputs = none) ∧
    (proof.ds.length < countAC pvk.transcript →
      countPI pvk.transcript ≤ public_inputs.length →
      verify_proof coinOf pvk proof public_inputs = none) ∧
    (countPI pvk.transcript ≤ public_inputs.length →
      countAC pvk.transcript < proof.ds.length →
      verify_proof coinOf pvk proof public_inputs =
        some (Except.error VerificationError.invalidVerifyingKey)) := by
  have hic0 : 0 < pvk.ic.length := by omega
  have h0 : pvk.ic[0]? = some pvk.ic[0] := List.getElem?_eq_getElem hic0
  refine ⟨?_, ?_, ?_⟩
  · intro hshort hds
    unfold verify_proof
    rw [h0]
    simp only [bind, Option.bind]
    rw [replay_fail_pi coinOf pvk proof public_inputs pvk.transcript _
      (by simp only; omega) (by simp only; omega) (by simp only; omega)
      (by simp only; omega)]
  · intro hshort hpis
    unfold verify_proof
    rw [h0]
    simp only [bind, Option.bind]
    rw [replay_fail_ds coinOf pvk proof public_inputs pvk.transcript _
      (by simp only; omega) (by simp only; omega) (by simp only; omega)
      (by simp only; omega)]
  · intro hpis hds
    unfold verify_proof
    rw [h0]
    simp only [bind, Option.bind]
    obtain ⟨st', hst', e1, e2, e3⟩ := replay_ok coinOf pvk proof public_inputs
      pvk.transcript
      (VState.mk [TMsg.input 1] pvk.ic[0] 0 0 1)
      (by simp only; omega) (by simp only; omega) (by simp only; omega)
    rw [hst']
    simp only [bind, Option.bind]
    have e1b : st'.i = 1 + countPI pvk.transcript + countCoin pvk.transcript := e1
    have e3b : st'.aux_commits_i = 0 + countAC pvk.transcript := e3
    rw [if_pos (Or.inr (by omega))]

/-- **C2 counterexample.**  A prepared verifying key whose schedule expects
one public input, given an empty `public_inputs` vector (a shape mismatch),
makes `verify_proof` panic on `public_inputs[0]` (modelled `none`) instead
of returning `Err(InvalidVerifyingKey)`. -/
theorem verify_proof_shape_counterexample :
    countPI [TranscriptEntry.publicInput] = 1 ∧
    verify_proof (fun _ => (0 : F17))
      ⟨0, 0, [0], [0, 0], [TranscriptEntry.publicInput]⟩ ⟨0, 0, 0, []⟩ [] = none ∧
    verify_proof (fun _ => (0 : F17))
      ⟨0, 0, [0], [0, 0], [TranscriptEntry.publicInput]⟩ ⟨0, 0, 0, []⟩ [] ≠
      some (Except.error VerificationError.invalidVerifyingKey) := by
  refine ⟨rfl, rfl, ?_⟩
  intro h
  rw [show verify_proof (fun _ => (0 : F17))
      ⟨0, 0, [0], [0, 0], [TranscriptEntry.publicInput]⟩ ⟨0, 0, 0, []⟩ [] = none
    from rfl] at h
  exact Option.noConfusion h

/-- **C2 witness.** -/
theorem verify_proof_shape_behavior_witness :
    (([] : List F17).length < countPI [TranscriptEntry.publicInput,
        TranscriptEntry.auxCommit] →
      countAC [TranscriptEntry.publicInput, TranscriptEntry.auxCommit] ≤
        [(0 : F17)].length →
      verify_proof (fun _ => (0 : F17))
        ⟨0, 0, [0, 0], [0, 0], [TranscriptEntry.publicInput,
          TranscriptEntry.auxCommit]⟩ ⟨0, 0, 0, [0]⟩ [] = none) ∧
    ([(0 : F17)].length < countAC [TranscriptEntry.publicInput,
        TranscriptEntry.auxCommit] →
      countPI [TranscriptEntry.publicInput, TranscriptEntry.auxCommit] ≤
        ([] : List F17).length →
      verify_proof (fun _ => (0 : F17))
        ⟨0, 0, [0, 0], [0, 0], [TranscriptEntry.publicInput,
          TranscriptEntry.auxCommit]⟩ ⟨0, 0, 0, [0]⟩ [] = none) ∧
    (countPI [TranscriptEntry.publicInput, TranscriptEntry.auxCommit] ≤
        ([] : List F17).length →
      countAC [TranscriptEntry.publicInput, TranscriptEntry.auxCommit] <
        [(0 : F17)].length →
      verify_proof (fun _ => (0 : F17))
        ⟨0, 0, [0, 0], [0, 0], [TranscriptEntry.publicInput,
          TranscriptEntry.auxCommit]⟩ ⟨0, 0, 0, [0]⟩ [] =
        some (Except.error VerificationError.invalidVerifyingKey)) :=
  verify_proof_shape_behavior (fun _ => (0 : F17))
    ⟨0, 0, [0, 0], [0, 0], [TranscriptEntry.publicInput, TranscriptEntry.auxCommit]⟩
    ⟨0, 0, 0, [0]⟩ [] (by rfl)

/-- A public-input lookup below the true count is unchanged by surplus
entries. -/
theorem verifyStep_surplus (coinOf : List (TMsg F) → F)
    (pvk : PreparedVerifyingKey F) (proof : Proof F) (pi extra : List F)
    (st : VState F) (t : TranscriptEntry)
    (h : t = TranscriptEntry.publicInput → st.public_inputs_i < pi.length) :
    verifyStep coinOf pvk proof (pi ++ extra) st t =
    verifyStep coinOf pvk proof pi st t := by
  match t with
  | TranscriptEntry.coin => rfl
  | TranscriptEntry.auxCommit => rfl
  | TranscriptEntry.publicInput =>
    unfold verifyStep
    rw [List.getElem?_append_left (h rfl)]

/-- A successful step advances `public_inputs_i` by at most one, and only on
a `PublicInput` entry. -/
theorem verifyStep_pi_counter (coinOf : List (TMsg F) → F)
    (pvk : PreparedVerifyingKey F) (proof : Proof F) (pub : List F)
    (st st' : VState F) (t : TranscriptEntry)
    (h : verifyStep coinOf pvk proof pub st t = some st') :
    st'.public_inputs_i = st.public_inputs_i + countPI [t] := by
  match t with
  | TranscriptEntry.coin =>
    unfold verifyStep at h
    rcases h1 : pvk.ic[st.i]? with _ | ici <;> rw [h1] at h
    · exact absurd h (by simp)
    · simp only [bind, Option.bind, Option.some.injEq] at h
      rw [← h]
      simp [countPI, List.countP_cons]
  | TranscriptEntry.publicInput =>
    unfold verifyStep at h
    rcases h1 : pvk.ic[st.i]? with _ | ici <;> rw [h1] at h
    · exact absurd h (by simp)
    · simp only [bind, Option.bind] at h
      rcases h2 : pub[st.public_inputs_i]? with _ | x <;> rw [h2] at h
      · exact absurd h (by simp)
      · simp only [Option.some.injEq] at h
        rw [← h]
        simp [countPI, List.countP_cons]
  | TranscriptEntry.auxCommit =>
    unfold verifyStep at h
    rcases h1 : proof.ds[st.aux_commits_i]? with _ | d <;> rw [h1] at h
    · exact absurd h (by simp)
    · simp only [bind, Option.bind, Option.some.injEq] at h
      rw [← h]
      simp [countPI, List.countP_cons]

/-- The whole replay ignores surplus public inputs. -/
theorem replay_surplus (coinOf : List (TMsg F) → F) (pvk : PreparedVerifyingKey F)
    (proof : Proof F) (pi extra : List F) :
    ∀ (l : List TranscriptEntry) (st : VState F),
      st.public_inputs_i + countPI l ≤ pi.length →
      List.foldlM (verifyStep coinOf pvk proof (pi ++ extra)) st l =
      List.foldlM (verifyStep coinOf pvk proof pi) st l := by
  intro l
  induction l with
  | nil => intro st _; rfl
  | cons t rest ih =>
    intro st hb
    rw [List.foldlM_cons, List.foldlM_cons]
    have hcount : countPI (t :: rest) = countPI [t] + countPI rest := by
      simp [countPI, List.countP_cons, List.countP_nil]
      omega
    have hone : t = TranscriptEntry.publicInput → st.public_inputs_i < pi.length := by
      intro ht
      subst ht
      have hp1 : countPI (TranscriptEntry.publicInput :: rest) = countPI rest + 1 := by
        simp [countPI, List.countP_cons]
      omega
    have hstep := verifyStep_surplus coinOf pvk proof pi extra st t hone
    rw [hstep]
    rcases hres : verifyStep coinOf pvk proof pi st t with _ | st'
    · rfl
    · simp only [bind, Option.bind]
      refine ih st' ?_
      have := verifyStep_pi_counter coinOf pvk proof pi st st' t hres
      omega

/-- **C10.** `verify_proof` never checks that every supplied public input is
consumed: appending surplus entries after the `#PublicInput` consumed ones
never changes the outcome; in particular a run that accepts still accepts
with surplus entries present. -/
theorem verify_proof_ignores_surplus (coinOf : List (TMsg F) → F)
    (pvk : PreparedVerifyingKey F) (proof : Proof F) (pi extra : List F)
    (hlen : countPI pvk.transcript ≤ pi.length) :
    verify_proof coinOf pvk proof (pi ++ extra) = verify_proof coinOf pvk proof pi ∧
    (verify_proof coinOf pvk proof pi = some (Except.ok ()) →
      verify_proof coinOf pvk proof (pi ++ extra) = some (Except.ok ())) := by
  have hmain : verify_proof coinOf pvk proof (pi ++ extra) =
      verify_proof coinOf pvk proof pi := by
    unfold verify_proof
    rcases h0 : pvk.ic[0]? with _ | ic0
    · rfl
    · simp only [bind, Option.bind]
      rw [replay_surplus coinOf pvk proof pi extra pvk.transcript _
        (by simp only; omega)]
  exact ⟨hmain, fun hok => by rw [hmain]; exact hok⟩

/-- **C10 witness.** -/
theorem verify_proof_ignores_surplus_witness :
    verify_proof (fun _ => (0 : F17)) ⟨0, 0, [0], [0, 0], [TranscriptEntry.publicInput]⟩
      ⟨0, 0, 0, []⟩ ([5] ++ [7, 8]) =
      verify_proof (fun _ => (0 : F17)) ⟨0, 0, [0], [0, 0], [TranscriptEntry.publicInput]⟩
        ⟨0, 0, 0, []⟩ [5] ∧
    (verify_proof (fun _ => (0 : F17)) ⟨0, 0, [0], [0, 0], [TranscriptEntry.publicInput]⟩
        ⟨0, 0, 0, []⟩ [5] = some (Except.ok ()) →
      verify_proof (fun _ => (0 : F17)) ⟨0, 0, [0], [0, 0], [TranscriptEntry.publicInput]⟩
        ⟨0, 0, 0, []⟩ ([5] ++ [7, 8]) = some (Except.ok ())) :=
  verify_proof_ignores_surplus (fun _ => (0 : F17))
    ⟨0, 0, [0], [0, 0], [TranscriptEntry.publicInput]⟩ ⟨0, 0, 0, []⟩ [5] [7, 8]
    (by decide)

/-! ### C5: `create_proof` is deterministic (worker-independent) -/

/-- `end_aux_block` changes nothing but the commitment bookkeeping. -/
theorem end_aux_block_keeps (params : Parameters F) (st st' : ProvingAssignment F)
    (h : end_aux_block params st = some st') :
    st'.a = st.a ∧ st'.b = st.b ∧ st'.c = st.c ∧
    st'.input_assignment = st.input_assignment ∧
    st'.aux_assignment = st.aux_assignment ∧ st'.kappa_3s = st.kappa_3s ∧
    st'.a_aux_density = st.a_aux_density ∧
    st'.b_input_density = st.b_input_density ∧
    st'.b_aux_density = st.b_aux_density := by
  unfold end_aux_block at h
  by_cases hc : st.aux_assignment.length > st.aux_block_indices.getLast?.getD 0
  · rw [if_pos hc] at h
    rcases hlast : params.vk.deltas_g1.getLast? with _ | dlast <;> rw [hlast] at h
    · exact absurd h (by simp)
    · rcases hk : st.kappa_3s[st.aux_block_indices.length]? with _ | kappa <;>
        rw [hk] at h
      · exact absurd h (by simp)
      · rw [Option.some.injEq] at h
        rw [← h]
        exact ⟨rfl, rfl, rfl, rfl, rfl, rfl, rfl, rfl, rfl⟩
  · rw [if_neg hc] at h
    exact absurd h (by simp)

theorem synthesize_preserves_abc (coinOf : List (TMsg F) → F) (params : Parameters F)
    (ops : List (CircuitOp F)) :
    ∀ st st', synthesize coinOf params ops st = some st' →
      st.b.length = st.a.length ∧ st.c.length = st.a.length →
      st'.b.length = st'.a.length ∧ st'.c.length = st'.a.length := by
  induction ops with
  | nil =>
    intro st st' hrun hP
    simp only [synthesize, List.foldlM_nil, Option.pure_def, Option.some.injEq] at hrun
    rw [← hrun]
    exact hP
  | cons op rest ih =>
    intro st st' hrun hP
    simp only [synthesize, List.foldlM_cons] at hrun
    match op with
    | CircuitOp.alloc v =>
      simp only [bind, Option.bind] at hrun
      exact ih (alloc st v) st' hrun hP
    | CircuitOp.allocInput v =>
      simp only [bind, Option.bind] at hrun
      exact ih (alloc_input st v) st' hrun hP
    | CircuitOp.allocRandom =>
      simp only [bind, Option.bind] at hrun
      exact ih (alloc_random coinOf st) st' hrun hP
    | CircuitOp.endAuxBlock =>
      rcases he : end_aux_block params st with _ | stx
      · rw [he] at hrun
        exact absurd hrun (by simp)
      · rw [he] at hrun
        simp only [bind, Option.bind] at hrun
        obtain ⟨e1, e2, e3, _⟩ := end_aux_block_keeps params st stx he
        exact ih stx st' hrun (by rw [e1, e2, e3]; exact hP)
    | CircuitOp.enforce la lb lc =>
      simp only [bind, Option.bind] at hrun
      refine ih (enforce st la lb lc) st' hrun ?_
      simp only [enforce, List.length_append, List.length_cons, List.length_nil]
      omega

theorem pinning_preserves_abc (n : ℕ) :
    ∀ st : ProvingAssignment F,
      st.b.length = st.a.length ∧ st.c.length = st.a.length →
      ((List.range n).foldl (fun st i => enforce st [(Index.input i, 1)] [] [])
          st).b.length
        = ((List.range n).foldl (fun st i => enforce st [(Index.input i, 1)] [] [])
          st).a.length
      ∧ ((List.range n).foldl (fun st i => enforce st [(Index.input i, 1)] [] [])
          st).c.length
        = ((List.range n).foldl (fun st i => enforce st [(Index.input i, 1)] [] [])
          st).a.length := by
  induction n with
  | zero => intro st hP; exact hP
  | succ k ih =>
    intro st hP
    rw [List.range_succ, List.foldl_append, List.foldl_cons, List.foldl_nil]
    obtain ⟨e1, e2⟩ := ih st hP
    set stk := (List.range k).foldl
      (fun st i => enforce st [(Index.input i, 1)] [] []) st with hstk
    have ha : (enforce stk [(Index.input k, 1)] [] []).a.length = stk.a.length + 1 := by
      simp [enforce]
    have hb : (enforce stk [(Index.input k, 1)] [] []).b.length = stk.b.length + 1 := by
      simp [enforce]
    have hc : (enforce stk [(Index.input k, 1)] [] []).c.length = stk.c.length + 1 := by
      simp [enforce]
    constructor
    · rw [hb, ha]
      omega
    · rw [hc, ha]
      omega

/-- **C5.** `create_proof` is deterministic: its result does not depend on
the worker (the only run-to-run variation of the source — `Worker::new()`
thread count and scheduling), for any circuit, parameters and fixed
`(r, s, κ₃)`; everything else it consumes is an explicit input.  (Needs the
real field facts: `ρ` is a primitive `2^S`-th root of unity.) -/
theorem create_proof_deterministic (coinOf : List (TMsg F) → F) (Sa : ℕ) (ρ g : F)
    (ops : List (CircuitOp F)) (nb : ℕ) (params : Parameters F) (r s : F)
    (kappa_3s : List F) (hS : 1 ≤ Sa) (hρ : IsPrimitiveRoot ρ (2 ^ Sa))
    (w w' : Worker) :
    create_proof coinOf Sa ρ g ops nb params r s kappa_3s w =
    create_proof coinOf Sa ρ g ops nb params r s kappa_3s w' := by
  unfold create_proof
  by_cases hk : kappa_3s.length = nb
  · rw [if_pos hk, if_pos hk]
    rcases hsyn : synthesize coinOf params ops
        (alloc_input ⟨[], [], [], [], [], [], [], [], kappa_3s, [], [], [], []⟩ 1)
      with _ | st2
    · simp only [hsyn]
    · simp only [hsyn]
      set st3 := (List.range st2.input_assignment.length).foldl
        (fun st i => enforce st [(Index.input i, 1)] [] []) st2 with hst3
      have hP0 : st2.b.length = st2.a.length ∧ st2.c.length = st2.a.length := by
        refine synthesize_preserves_abc coinOf params ops _ st2 hsyn ?_
        exact ⟨rfl, rfl⟩
      have hP3 : st3.b.length = st3.a.length ∧ st3.c.length = st3.a.length := by
        rw [hst3]
        exact pinning_preserves_abc st2.input_assignment.length st2 hP0
      rcases hfa : fromCoeffs Sa ρ g st3.a with ea | da
      · simp only [hfa]
      · simp only [hfa]
        rcases hfb : fromCoeffs Sa ρ g st3.b with eb | db
        · simp only [hfb]
        · simp only [hfb]
          rcases hfc : fromCoeffs Sa ρ g st3.c with ec | dc
          · simp only [hfc]
          · simp only [hfc]
            have hpipe := pipeline_closed_form Sa ρ g hS hρ st3.a st3.b st3.c
              hP3.1 hP3.2 da db dc hfa hfb hfc w
            have hpipe2 := pipeline_closed_form Sa ρ g hS hρ st3.a st3.b st3.c
              hP3.1 hP3.2 da db dc hfa hfb hfc w'
            rw [hpipe, hpipe2]
  · rw [if_neg hk, if_neg hk]

/-! ### C1: completeness — part 1, the QAP mathematics over `dftSum` -/

/-- Evaluation of the polynomial with coefficient function `c`
(degree `< m`) at `x`. -/
def evalPoly (c : ℕ → F) (x : F) (m : ℕ) : F :=
  ∑ i ∈ Finset.range m, c i * x ^ i

/-- The interpolation coefficients over the size-`m` domain of the value
function `v` (what `ifft` computes). -/
def coeffOf (v : ℕ → F) (ω : F) (m i : ℕ) : F :=
  dftSum v ω⁻¹ m i * ((m : ℕ) : F)⁻¹

/-- Low half of the convolution of two coefficient functions supported on
`[0, m)`. -/
def convLo (ca cb : ℕ → F) (j : ℕ) : F :=
  ∑ i ∈ Finset.range (j + 1), ca i * cb (j - i)

/-- High half (the `X^m` part) of the convolution. -/
def convHi (ca cb : ℕ → F) (m j : ℕ) : F :=
  ∑ i ∈ Finset.Ico (j + 1) m, ca i * cb (m + j - i)

/-- A product of two degree-`< m` polynomials splits into the low
convolution plus `x^m` times the high convolution. -/
theorem evalPoly_mul_split (ca cb : ℕ → F) (x : F) (m : ℕ) :
    evalPoly ca x m * evalPoly cb x m =
      evalPoly (convLo ca cb) x m + x ^ m * evalPoly (convHi ca cb m) x m := by
  unfold evalPoly convLo convHi
  rw [Finset.sum_mul_sum]
  have hL : ∑ i ∈ Finset.range m, ∑ j ∈ Finset.range m,
        ca i * x ^ i * (cb j * x ^ j)
      = ∑ p ∈ Finset.range m ×ˢ Finset.range m,
          ca p.1 * cb p.2 * x ^ (p.1 + p.2) := by
    rw [Finset.sum_product]
    refine Finset.sum_congr rfl fun i _ => Finset.sum_congr rfl fun j _ => ?_
    rw [pow_add]
    ring
  rw [hL, ← Finset.sum_filter_add_sum_filter_not
    (Finset.range m ×ˢ Finset.range m) (fun p => p.1 + p.2 < m)]
  congr 1
  · have hR : ∑ j ∈ Finset.range m,
          (∑ i ∈ Finset.range (j + 1), ca i * cb (j - i)) * x ^ j
        = ∑ p ∈ (Finset.range m).sigma (fun j => Finset.range (j + 1)),
            ca p.2 * cb (p.1 - p.2) * x ^ p.1 := by
      rw [Finset.sum_sigma]
      refine Finset.sum_congr rfl fun j _ => ?_
      rw [Finset.sum_mul]
    rw [hR]
    refine Finset.sum_nbij' (fun p => ⟨p.1 + p.2, p.1⟩)
      (fun q => (q.2, q.1 - q.2)) ?_ ?_ ?_ ?_ ?_
    · intro a ha
      simp only [Finset.mem_filter, Finset.mem_product, Finset.mem_range] at ha
      simp only [Finset.mem_sigma, Finset.mem_range]
      omega
    · intro a ha
      simp only [Finset.mem_sigma, Finset.mem_range] at ha
      simp only [Finset.mem_filter, Finset.mem_product, Finset.mem_range]
      omega
    · intro a ha
      obtain ⟨x, y⟩ := a
      simp only [Finset.mem_filter, Finset.mem_product, Finset.mem_range] at ha
      simp only [Prod.mk.injEq]
      exact ⟨trivial, by omega⟩
    · intro a ha
      obtain ⟨x, y⟩ := a
      simp only [Finset.mem_sigma, Finset.mem_range] at ha
      simp only [Sigma.mk.inj_iff, heq_eq_eq]
      exact ⟨by omega, trivial⟩
    · intro a ha
      obtain ⟨x, y⟩ := a
      simp only [Finset.mem_filter, Finset.mem_product, Finset.mem_range] at ha
      simp only
      have e : x + y - x = y := by omega
      rw [e]
  · have hR : x ^ m * ∑ j ∈ Finset.range m,
          (∑ i ∈ Finset.Ico (j + 1) m, ca i * cb (m + j - i)) * x ^ j
        = ∑ p ∈ (Finset.range m).sigma (fun j => Finset.Ico (j + 1) m),
            ca p.2 * cb (m + p.1 - p.2) * x ^ (m + p.1) := by
      rw [Finset.mul_sum, Finset.sum_sigma]
      refine Finset.sum_congr rfl fun j _ => ?_
      rw [Finset.sum_mul, Finset.mul_sum]
      refine Finset.sum_congr rfl fun i _ => ?_
      rw [pow_add]
      ring
    rw [hR]
    refine Finset.sum_nbij' (fun p => ⟨p.1 + p.2 - m, p.1⟩)
      (fun q => (q.2, m + q.1 - q.2)) ?_ ?_ ?_ ?_ ?_
    · intro a ha
      simp only [Finset.mem_filter, Finset.mem_product, Finset.mem_range,
        not_lt] at ha
      simp only [Finset.mem_sigma, Finset.mem_range, Finset.mem_Ico]
      omega
    · intro a ha
      simp only [Finset.mem_sigma, Finset.mem_range, Finset.mem_Ico] at ha
      simp only [Finset.mem_filter, Finset.mem_product, Finset.mem_range,
        not_lt]
      omega
    · intro a ha
      obtain ⟨x, y⟩ := a
      simp only [Finset.mem_filter, Finset.mem_product, Finset.mem_range,
        not_lt] at ha
      simp only [Prod.mk.injEq]
      exact ⟨trivial, by omega⟩
    · intro a ha
      obtain ⟨x, y⟩ := a
      simp only [Finset.mem_sigma, Finset.mem_range, Finset.mem_Ico] at ha
      simp only [Sigma.mk.inj_iff, heq_eq_eq]
      exact ⟨by omega, trivial⟩
    · intro a ha
      obtain ⟨x, y⟩ := a
      simp only [Finset.mem_filter, Finset.mem_product, Finset.mem_range,
        not_lt] at ha
      have e1 : m + (x + y - m) - x = y := by omega
      have e2 : m + (x + y - m) = x + y := by omega
      simp only
      rw [e1, e2]

/-- Evaluating a coefficient function at `ω^r` is the DFT at `ω`. -/
theorem evalPoly_dft (c : ℕ → F) (ω : F) (m r : ℕ) :
    evalPoly c (ω ^ r) m = dftSum c ω m r := by
  unfold evalPoly dftSum
  refine Finset.sum_congr rfl fun i _ => ?_
  rw [← pow_mul, Nat.mul_comm r i]

/-- Evaluating a coefficient function at `g·ω^k` is the DFT at `ω` of the
`g^j`-scaled coefficients. -/
theorem evalPoly_mul_root (c : ℕ → F) (ω g : F) (m k : ℕ) :
    evalPoly c (g * ω ^ k) m = dftSum (fun j => c j * g ^ j) ω m k := by
  unfold evalPoly dftSum
  refine Finset.sum_congr rfl fun i _ => ?_
  rw [mul_pow, ← pow_mul, Nat.mul_comm k i]
  ring

/-- A coefficient function with vanishing DFT vanishes (DFT uniqueness). -/
theorem coeffs_zero_of_dft_zero (d : ℕ → F) (ω : F) (m : ℕ)
    (hω : IsPrimitiveRoot ω m) (hm : ((m : ℕ) : F) ≠ 0)
    (hz : ∀ r, r < m → dftSum d ω m r = 0) (j : ℕ) (hj : j < m) : d j = 0 := by
  have h := dftSum_inv d ω m hω j hj
  have h0 : dftSum (fun k => dftSum d ω m k) ω⁻¹ m j = 0 := by
    rw [dftSum_congr (fun k => dftSum d ω m k) (fun _ => 0) ω⁻¹ m j
      (fun t ht => hz t ht)]
    unfold dftSum
    simp
  rw [h0] at h
  rcases mul_eq_zero.mp h.symm with h1 | h1
  · exact absurd h1 hm
  · exact h1

/-- Interpolation through `coeffOf` recovers the values on the domain. -/
theorem evalPoly_coeffOf_root (v : ℕ → F) (ω : F) (m : ℕ)
    (hω : IsPrimitiveRoot ω m) (hm : ((m : ℕ) : F) ≠ 0) (r : ℕ) (hr : r < m) :
    evalPoly (coeffOf v ω m) (ω ^ r) m = v r := by
  rw [evalPoly_dft]
  have h1 : dftSum (coeffOf v ω m) ω m r
      = dftSum (fun i => dftSum v ω⁻¹ m i) ω m r * ((m : ℕ) : F)⁻¹ := by
    rw [← dftSum_mul_right]
    rfl
  rw [h1]
  have h := dftSum_inv v ω⁻¹ m hω.inv r hr
  rw [inv_inv] at h
  rw [h, mul_comm ((m : ℕ) : F) (v r), mul_assoc, mul_inv_cancel₀ hm, mul_one]

/-- On a satisfied system the low part of `a∗b − c` is the negated high
part. -/
theorem lo_hi_cancel (xa xb xc : ℕ → F) (ω : F) (m : ℕ)
    (hω : IsPrimitiveRoot ω m) (hm : ((m : ℕ) : F) ≠ 0)
    (hsat : ∀ r, r < m → xa r * xb r - xc r = 0) (j : ℕ) (hj : j < m) :
    convLo (coeffOf xa ω m) (coeffOf xb ω m) j - coeffOf xc ω m j
      = - convHi (coeffOf xa ω m) (coeffOf xb ω m) m j := by
  have hz : ∀ r, r < m →
      dftSum (fun t => convLo (coeffOf xa ω m) (coeffOf xb ω m) t
        - coeffOf xc ω m t
        + convHi (coeffOf xa ω m) (coeffOf xb ω m) m t) ω m r = 0 := by
    intro r hr
    have hsplit := evalPoly_mul_split (coeffOf xa ω m) (coeffOf xb ω m)
      (ω ^ r) m
    rw [evalPoly_coeffOf_root xa ω m hω hm r hr,
      evalPoly_coeffOf_root xb ω m hω hm r hr] at hsplit
    have hωm : (ω ^ r) ^ m = 1 := by
      rw [← pow_mul, Nat.mul_comm r m, pow_mul, hω.pow_eq_one, one_pow]
    rw [hωm, one_mul] at hsplit
    have hc := evalPoly_coeffOf_root xc ω m hω hm r hr
    have hlin : dftSum (fun t => convLo (coeffOf xa ω m) (coeffOf xb ω m) t
          - coeffOf xc ω m t
          + convHi (coeffOf xa ω m) (coeffOf xb ω m) m t) ω m r
        = dftSum (convLo (coeffOf xa ω m) (coeffOf xb ω m)) ω m r
          - dftSum (coeffOf xc ω m) ω m r
          + dftSum (convHi (coeffOf xa ω m) (coeffOf xb ω m) m) ω m r := by
      unfold dftSum
      rw [← Finset.sum_sub_distrib, ← Finset.sum_add_distrib]
      refine Finset.sum_congr rfl fun t _ => ?_
      beta_reduce
      ring
    rw [hlin, ← evalPoly_dft, ← evalPoly_dft, ← evalPoly_dft, hc]
    have h0 := hsat r hr
    linear_combination h0 - hsplit
  have h2 : convLo (coeffOf xa ω m) (coeffOf xb ω m) j - coeffOf xc ω m j
      + convHi (coeffOf xa ω m) (coeffOf xb ω m) m j = 0 :=
    coeffs_zero_of_dft_zero _ ω m hω hm hz j hj
  linear_combination h2

/-- The coset evaluation is the interpolation evaluated at `g·ω^k`. -/
theorem cosetEval_evalPoly (x : ℕ → F) (ω g : F) (m k : ℕ) :
    cosetEval x ω g ((m : ℕ) : F)⁻¹ m k
      = evalPoly (coeffOf x ω m) (g * ω ^ k) m := by
  rw [evalPoly_mul_root]
  unfold cosetEval coeffOf
  rfl

/-- `evalPoly` only reads the coefficient function below `m`. -/
theorem evalPoly_congr (c c' : ℕ → F) (x : F) (m : ℕ)
    (h : ∀ j, j < m → c j = c' j) : evalPoly c x m = evalPoly c' x m := by
  unfold evalPoly
  exact Finset.sum_congr rfl fun j hj => by
    rw [h j (Finset.mem_range.mp hj)]

/-- Negation passes through `evalPoly`. -/
theorem evalPoly_neg (c : ℕ → F) (x : F) (m : ℕ) :
    evalPoly (fun j => - c j) x m = - evalPoly c x m := by
  unfold evalPoly
  rw [← Finset.sum_neg_distrib]
  exact Finset.sum_congr rfl fun j _ => by ring

/-- The pipeline coefficient of a satisfied system is the high convolution
coefficient: the quotient of `a∗b − c` by `X^m − 1`. -/
theorem hPipeCoeff_eq_convHi (xa xb xc : ℕ → F) (ω g : F) (m : ℕ)
    (hω : IsPrimitiveRoot ω m) (hm : ((m : ℕ) : F) ≠ 0) (hg0 : g ≠ 0)
    (hgm : g ^ m ≠ 1)
    (hsat : ∀ r, r < m → xa r * xb r - xc r = 0) (i : ℕ) (hi : i < m) :
    hPipeCoeff xa xb xc ω g ((m : ℕ) : F)⁻¹ g⁻¹ (g ^ m - 1)⁻¹ m i
      = convHi (coeffOf xa ω m) (coeffOf xb ω m) m i := by
  have hgm0 : g ^ m - 1 ≠ 0 := sub_ne_zero.mpr hgm
  have hY : ∀ k, k < m →
      (cosetEval xa ω g ((m : ℕ) : F)⁻¹ m k
          * cosetEval xb ω g ((m : ℕ) : F)⁻¹ m k
          - cosetEval xc ω g ((m : ℕ) : F)⁻¹ m k) * (g ^ m - 1)⁻¹
        = dftSum (fun j => convHi (coeffOf xa ω m) (coeffOf xb ω m) m j * g ^ j)
            ω m k := by
    intro k _
    rw [cosetEval_evalPoly, cosetEval_evalPoly, cosetEval_evalPoly,
      evalPoly_mul_split]
    have hgwm : (g * ω ^ k) ^ m = g ^ m := by
      rw [mul_pow, ← pow_mul, Nat.mul_comm k m, pow_mul, hω.pow_eq_one,
        one_pow, mul_one]
    rw [hgwm]
    have hlo : evalPoly (convLo (coeffOf xa ω m) (coeffOf xb ω m)) (g * ω ^ k) m
        - evalPoly (coeffOf xc ω m) (g * ω ^ k) m
        = - evalPoly (convHi (coeffOf xa ω m) (coeffOf xb ω m) m)
            (g * ω ^ k) m := by
      have hsub : evalPoly (convLo (coeffOf xa ω m) (coeffOf xb ω m)) (g * ω ^ k) m
          - evalPoly (coeffOf xc ω m) (g * ω ^ k) m
          = evalPoly (fun j => convLo (coeffOf xa ω m) (coeffOf xb ω m) j
              - coeffOf xc ω m j) (g * ω ^ k) m := by
        unfold evalPoly
        rw [← Finset.sum_sub_distrib]
        exact Finset.sum_congr rfl fun j _ => by ring
      rw [hsub, evalPoly_congr _ (fun j =>
          - convHi (coeffOf xa ω m) (coeffOf xb ω m) m j) _ m
          (fun j hj => lo_hi_cancel xa xb xc ω m hω hm hsat j hj),
        evalPoly_neg]
    rw [← evalPoly_mul_root]
    set E := evalPoly (convHi (coeffOf xa ω m) (coeffOf xb ω m) m) (g * ω ^ k) m
    have hE : evalPoly (convLo (coeffOf xa ω m) (coeffOf xb ω m)) (g * ω ^ k) m
        + g ^ m * E - evalPoly (coeffOf xc ω m) (g * ω ^ k) m
        = (g ^ m - 1) * E := by
      have hr : evalPoly (convLo (coeffOf xa ω m) (coeffOf xb ω m)) (g * ω ^ k) m
          + g ^ m * E - evalPoly (coeffOf xc ω m) (g * ω ^ k) m
          = (evalPoly (convLo (coeffOf xa ω m) (coeffOf xb ω m)) (g * ω ^ k) m
            - evalPoly (coeffOf xc ω m) (g * ω ^ k) m) + g ^ m * E := by
        ring
      rw [hr, hlo]
      ring
    rw [hE, mul_comm (g ^ m - 1) E, mul_assoc, mul_inv_cancel₀ hgm0, mul_one]
  unfold hPipeCoeff
  rw [dftSum_congr _ (fun k =>
      dftSum (fun j => convHi (coeffOf xa ω m) (coeffOf xb ω m) m j * g ^ j)
        ω m k) ω⁻¹ m i (fun t ht => hY t ht)]
  rw [dftSum_inv _ ω m hω i hi]
  rw [inv_pow]
  have hgi : (g ^ i) ≠ 0 := pow_ne_zero i hg0
  field_simp

/-- The top coefficient of the high convolution vanishes. -/
theorem convHi_top (ca cb : ℕ → F) (m : ℕ) :
    convHi ca cb m (m - 1) = 0 := by
  unfold convHi
  rcases Nat.eq_zero_or_pos m with hm | hm
  · subst hm
    simp
  · have h : m - 1 + 1 = m := by omega
    rw [h, Finset.Ico_self, Finset.sum_empty]

/-- The vanishing-polynomial identity at any point `τ`: on a satisfied
system, `A(τ)·B(τ) − C(τ) = (τ^m − 1)·H(τ)`. -/
theorem qap_eval_identity (xa xb xc : ℕ → F) (ω τ : F) (m : ℕ)
    (hω : IsPrimitiveRoot ω m) (hm : ((m : ℕ) : F) ≠ 0)
    (hsat : ∀ r, r < m → xa r * xb r - xc r = 0) :
    evalPoly (coeffOf xa ω m) τ m * evalPoly (coeffOf xb ω m) τ m
      - evalPoly (coeffOf xc ω m) τ m
      = (τ ^ m - 1)
        * evalPoly (convHi (coeffOf xa ω m) (coeffOf xb ω m) m) τ m := by
  rw [evalPoly_mul_split]
  have hsub : evalPoly (convLo (coeffOf xa ω m) (coeffOf xb ω m)) τ m
      - evalPoly (coeffOf xc ω m) τ m
      = evalPoly (fun j => convLo (coeffOf xa ω m) (coeffOf xb ω m) j
          - coeffOf xc ω m j) τ m := by
    unfold evalPoly
    rw [← Finset.sum_sub_distrib]
    exact Finset.sum_congr rfl fun j _ => by ring
  have hr : evalPoly (convLo (coeffOf xa ω m) (coeffOf xb ω m)) τ m
      + τ ^ m * evalPoly (convHi (coeffOf xa ω m) (coeffOf xb ω m) m) τ m
      - evalPoly (coeffOf xc ω m) τ m
      = (evalPoly (convLo (coeffOf xa ω m) (coeffOf xb ω m)) τ m
          - evalPoly (coeffOf xc ω m) τ m)
        + τ ^ m * evalPoly (convHi (coeffOf xa ω m) (coeffOf xb ω m) m) τ m := by
    ring
  rw [hr, hsub, evalPoly_congr _ (fun j =>
      - convHi (coeffOf xa ω m) (coeffOf xb ω m) m j) _ m
      (fun j hj => lo_hi_cancel xa xb xc ω m hω hm hsat j hj), evalPoly_neg]
  ring

/-- The value at `τ` of the `r`-th Lagrange basis polynomial of the size-`m`
domain. -/
def lagAt (ω τ : F) (m r : ℕ) : F :=
  dftSum (fun i => τ ^ i) ω⁻¹ m r * ((m : ℕ) : F)⁻¹

/-- Interpolation evaluated at `τ` is the Lagrange-weighted sum of the
values. -/
theorem evalPoly_coeffOf_lag (v : ℕ → F) (ω τ : F) (m : ℕ) :
    evalPoly (coeffOf v ω m) τ m
      = ∑ t ∈ Finset.range m, v t * lagAt ω τ m t := by
  unfold evalPoly coeffOf lagAt dftSum
  have h1 : ∀ i, (∑ t ∈ Finset.range m, v t * ω⁻¹ ^ (t * i)) * ((m : ℕ) : F)⁻¹
        * τ ^ i
      = ∑ t ∈ Finset.range m,
          v t * (τ ^ i * ω⁻¹ ^ (i * t)) * ((m : ℕ) : F)⁻¹ := by
    intro i
    rw [Finset.sum_mul, Finset.sum_mul]
    refine Finset.sum_congr rfl fun t _ => ?_
    rw [Nat.mul_comm t i]
    ring
  rw [Finset.sum_congr rfl fun i _ => h1 i, Finset.sum_comm]
  refine Finset.sum_congr rfl fun t _ => ?_
  rw [Finset.sum_mul, Finset.mul_sum]
  refine Finset.sum_congr rfl fun i _ => ?_
  ring

/-- Restricting a weighted sum to the support of the weights. -/
theorem sum_mul_restrict (v f : ℕ → F) (R m : ℕ) (hR : R ≤ m)
    (hz : ∀ t, R ≤ t → v t = 0) :
    ∑ t ∈ Finset.range m, v t * f t = ∑ t ∈ Finset.range R, v t * f t := by
  rw [← Finset.sum_subset (Finset.range_subset.mpr hR)]
  intro t ht hnt
  rw [hz t (by simpa using hnt), zero_mul]

/-! ### C1 — part 2: linear-combination evaluation and densities -/

/-- The value an assignment pair gives to a variable. -/
def varValue (ins auxs : List F) (v : Index) : F :=
  match v with
  | Index.input i => ins.getD i 0
  | Index.aux i => auxs.getD i 0

/-- One `eval` fold step, reduced. -/
theorem eval_step (ins auxs : List F) (acc : F) (p : Index × F) :
    (if p.2 = 0 then acc
     else
       let tmp := match p.1 with
         | Index.input i => ins.getD i 0
         | Index.aux i => auxs.getD i 0
       acc + (if p.2 = 1 then tmp else tmp * p.2))
      = acc + varValue ins auxs p.1 * p.2 := by
  by_cases h0 : p.2 = 0
  · rw [if_pos h0, h0, mul_zero, add_zero]
  · rw [if_neg h0]
    show acc + (if p.2 = 1 then varValue ins auxs p.1
      else varValue ins auxs p.1 * p.2) = acc + varValue ins auxs p.1 * p.2
    by_cases h1 : p.2 = 1
    · rw [if_pos h1, h1, mul_one]
    · rw [if_neg h1]

/-- The `eval` fold with an arbitrary accumulator. -/
theorem eval_fold_acc (lc : LinearCombination F) (ins auxs : List F) :
    ∀ acc : F, lc.foldl (fun acc p =>
      if p.2 = 0 then acc
      else
        let tmp := match p.1 with
          | Index.input i => ins.getD i 0
          | Index.aux i => auxs.getD i 0
        acc + (if p.2 = 1 then tmp else tmp * p.2)) acc
      = acc + (lc.map (fun p => varValue ins auxs p.1 * p.2)).sum := by
  induction lc with
  | nil =>
    intro acc
    simp
  | cons p rest ih =>
    intro acc
    rw [List.foldl_cons, ih, List.map_cons, List.sum_cons]
    have hstep := eval_step ins auxs acc p
    beta_reduce
    rw [hstep]
    ring

/-- `eval` as a sum over the entries. -/
theorem eval_eq_sum (lc : LinearCombination F) (ins auxs : List F) :
    eval lc ins auxs = (lc.map (fun p => varValue ins auxs p.1 * p.2)).sum := by
  unfold eval
  rw [eval_fold_acc, zero_add]

/-- Index-in-bounds for a variable. -/
def inBounds (ni na : ℕ) (v : Index) : Prop :=
  match v with
  | Index.input i => i < ni
  | Index.aux i => i < na

/-- Every variable of the combination is in bounds. -/
def wfLc (lc : LinearCombination F) (ni na : ℕ) : Prop :=
  ∀ p ∈ lc, inBounds ni na p.1

/-- `varValue` is stable under extending the assignments. -/
theorem varValue_append (ins auxs more more' : List F) (v : Index)
    (hv : inBounds ins.length auxs.length v) :
    varValue (ins ++ more) (auxs ++ more') v = varValue ins auxs v := by
  cases v with
  | input i =>
    unfold varValue
    exact List.getD_append ins more 0 i hv
  | aux i =>
    unfold varValue
    exact List.getD_append auxs more' 0 i hv

/-- `eval` is stable under extending the assignments. -/
theorem eval_append (lc : LinearCombination F) (ins auxs more more' : List F)
    (hwf : wfLc lc ins.length auxs.length) :
    eval lc (ins ++ more) (auxs ++ more') = eval lc ins auxs := by
  rw [eval_eq_sum, eval_eq_sum]
  congr 1
  refine List.map_congr_left fun p hp => ?_
  rw [varValue_append ins auxs more more' p.1 (hwf p hp)]

/-- The total coefficient a combination gives to one variable. -/
def lcCoeff (lc : LinearCombination F) (v : Index) : F :=
  (lc.map (fun p => if p.1 = v then p.2 else 0)).sum

theorem lcCoeff_cons (p : Index × F) (rest : LinearCombination F) (v : Index) :
    lcCoeff (p :: rest) v = (if p.1 = v then p.2 else 0) + lcCoeff rest v := by
  unfold lcCoeff
  rw [List.map_cons, List.sum_cons]

/-- Grouping `eval` by variable. -/
theorem lc_group_sum (lc : LinearCombination F) (ins auxs : List F)
    (hwf : wfLc lc ins.length auxs.length) :
    ∑ j ∈ Finset.range ins.length, lcCoeff lc (Index.input j) * ins.getD j 0
      + ∑ j ∈ Finset.range auxs.length, lcCoeff lc (Index.aux j) * auxs.getD j 0
    = eval lc ins auxs := by
  rw [eval_eq_sum]
  induction lc with
  | nil =>
    simp [lcCoeff]
  | cons p rest ih =>
    have hwfr : wfLc rest ins.length auxs.length := fun q hq =>
      hwf q (List.mem_cons_of_mem p hq)
    have ihr := ih hwfr
    rw [List.map_cons, List.sum_cons]
    have hsplit1 : ∑ j ∈ Finset.range ins.length,
        lcCoeff (p :: rest) (Index.input j) * ins.getD j 0
        = ∑ j ∈ Finset.range ins.length,
            (if p.1 = Index.input j then p.2 else 0) * ins.getD j 0
          + ∑ j ∈ Finset.range ins.length,
              lcCoeff rest (Index.input j) * ins.getD j 0 := by
      rw [← Finset.sum_add_distrib]
      refine Finset.sum_congr rfl fun j _ => ?_
      rw [lcCoeff_cons]
      ring
    have hsplit2 : ∑ j ∈ Finset.range auxs.length,
        lcCoeff (p :: rest) (Index.aux j) * auxs.getD j 0
        = ∑ j ∈ Finset.range auxs.length,
            (if p.1 = Index.aux j then p.2 else 0) * auxs.getD j 0
          + ∑ j ∈ Finset.range auxs.length,
              lcCoeff rest (Index.aux j) * auxs.getD j 0 := by
      rw [← Finset.sum_add_distrib]
      refine Finset.sum_congr rfl fun j _ => ?_
      rw [lcCoeff_cons]
      ring
    rw [hsplit1, hsplit2]
    have hhead : ∑ j ∈ Finset.range ins.length,
          (if p.1 = Index.input j then p.2 else 0) * ins.getD j 0
        + ∑ j ∈ Finset.range auxs.length,
            (if p.1 = Index.aux j then p.2 else 0) * auxs.getD j 0
        = varValue ins auxs p.1 * p.2 := by
      have hb := hwf p (List.mem_cons_self p rest)
      cases hv : p.1 with
      | input i0 =>
        rw [hv] at hb
        have hi0 : i0 < ins.length := hb
        have h1 : ∑ j ∈ Finset.range ins.length,
            (if Index.input i0 = Index.input j then p.2 else 0) * ins.getD j 0
            = p.2 * ins.getD i0 0 := by
          have he : ∀ j ∈ Finset.range ins.length,
              (if Index.input i0 = Index.input j then p.2 else 0) * ins.getD j 0
                = if i0 = j then p.2 * ins.getD j 0 else 0 := by
            intro j _
            by_cases hej : i0 = j
            · subst hej
              simp
            · have hne : ¬ (Index.input i0 = Index.input j) := by simp [hej]
              rw [if_neg hej, if_neg hne, zero_mul]
          rw [Finset.sum_congr rfl he, Finset.sum_ite_eq (Finset.range ins.length)
            i0 (fun j => p.2 * ins.getD j 0), if_pos (Finset.mem_range.mpr hi0)]
        have h2 : ∑ j ∈ Finset.range auxs.length,
            (if Index.input i0 = Index.aux j then p.2 else 0) * auxs.getD j 0
            = 0 := by
          refine Finset.sum_eq_zero fun j _ => ?_
          rw [if_neg (by simp), zero_mul]
        rw [h1, h2, add_zero]
        unfold varValue
        ring
      | aux i0 =>
        rw [hv] at hb
        have hi0 : i0 < auxs.length := hb
        have h1 : ∑ j ∈ Finset.range ins.length,
            (if Index.aux i0 = Index.input j then p.2 else 0) * ins.getD j 0
            = 0 := by
          refine Finset.sum_eq_zero fun j _ => ?_
          rw [if_neg (by simp), zero_mul]
        have h2 : ∑ j ∈ Finset.range auxs.length,
            (if Index.aux i0 = Index.aux j then p.2 else 0) * auxs.getD j 0
            = p.2 * auxs.getD i0 0 := by
          have he : ∀ j ∈ Finset.range auxs.length,
              (if Index.aux i0 = Index.aux j then p.2 else 0) * auxs.getD j 0
                = if i0 = j then p.2 * auxs.getD j 0 else 0 := by
            intro j _
            by_cases hej : i0 = j
            · subst hej
              simp
            · have hne : ¬ (Index.aux i0 = Index.aux j) := by simp [hej]
              rw [if_neg hej, if_neg hne, zero_mul]
          rw [Finset.sum_congr rfl he, Finset.sum_ite_eq (Finset.range auxs.length)
            i0 (fun j => p.2 * auxs.getD j 0), if_pos (Finset.mem_range.mpr hi0)]
        rw [h1, h2, zero_add]
        unfold varValue
        ring
    calc ∑ j ∈ Finset.range ins.length,
          (if p.1 = Index.input j then p.2 else 0) * ins.getD j 0
        + ∑ j ∈ Finset.range ins.length,
            lcCoeff rest (Index.input j) * ins.getD j 0
        + (∑ j ∈ Finset.range auxs.length,
            (if p.1 = Index.aux j then p.2 else 0) * auxs.getD j 0
          + ∑ j ∈ Finset.range auxs.length,
              lcCoeff rest (Index.aux j) * auxs.getD j 0)
        = (∑ j ∈ Finset.range ins.length,
            (if p.1 = Index.input j then p.2 else 0) * ins.getD j 0
          + ∑ j ∈ Finset.range auxs.length,
              (if p.1 = Index.aux j then p.2 else 0) * auxs.getD j 0)
          + (∑ j ∈ Finset.range ins.length,
              lcCoeff rest (Index.input j) * ins.getD j 0
            + ∑ j ∈ Finset.range auxs.length,
                lcCoeff rest (Index.aux j) * auxs.getD j 0) := by ring
      _ = varValue ins auxs p.1 * p.2
            + (rest.map (fun p => varValue ins auxs p.1 * p.2)).sum := by
          rw [hhead, ihr]

/-- All occurrences of aux variable `j` in the combination carry a zero
coefficient. -/
def auxCoeffZero (lc : LinearCombination F) (j : ℕ) : Prop :=
  ∀ p ∈ lc, p.1 = Index.aux j → p.2 = 0

/-- All occurrences of input variable `j` carry a zero coefficient. -/
def inputCoeffZero (lc : LinearCombination F) (j : ℕ) : Prop :=
  ∀ p ∈ lc, p.1 = Index.input j → p.2 = 0

theorem lcCoeff_aux_zero (lc : LinearCombination F) (j : ℕ)
    (h : auxCoeffZero lc j) : lcCoeff lc (Index.aux j) = 0 := by
  unfold lcCoeff
  refine List.sum_eq_zero fun x hx => ?_
  obtain ⟨p, hp, hpx⟩ := List.mem_map.mp hx
  rw [← hpx]
  by_cases hc : p.1 = Index.aux j
  · rw [if_pos hc]
    exact h p hp hc
  · rw [if_neg hc]

theorem lcCoeff_input_zero (lc : LinearCombination F) (j : ℕ)
    (h : inputCoeffZero lc j) : lcCoeff lc (Index.input j) = 0 := by
  unfold lcCoeff
  refine List.sum_eq_zero fun x hx => ?_
  obtain ⟨p, hp, hpx⟩ := List.mem_map.mp hx
  rw [← hpx]
  by_cases hc : p.1 = Index.input j
  · rw [if_pos hc]
    exact h p hp hc
  · rw [if_neg hc]

theorem getD_set_false (d : List Bool) (i j : ℕ)
    (h : (d.set i true).getD j false = false) : d.getD j false = false := by
  by_cases hij : i = j
  · subst hij
    by_cases hlen : i < d.length
    · rw [List.getD_eq_getElem _ _ (by simpa using hlen), List.getElem_set] at h
      rw [if_pos rfl] at h
      exact absurd h (by simp)
    · rw [List.set_eq_of_length_le (by omega)] at h
      exact h
  · by_cases hlen : j < d.length
    · rw [List.getD_eq_getElem _ _ (by simpa using hlen),
        List.getElem_set] at h
      rw [if_neg hij] at h
      rw [List.getD_eq_getElem _ _ hlen]
      exact h
    · rw [List.getD_eq_default _ _ (by omega)]

theorem evalDensityAux_length (lc : LinearCombination F) (d : List Bool) :
    (evalDensityAux lc d).length = d.length := by
  induction lc generalizing d with
  | nil => rfl
  | cons p rest ih =>
    unfold evalDensityAux
    rw [List.foldl_cons]
    have h := ih (if p.2 = 0 then d else match p.1 with
      | Index.input _ => d
      | Index.aux i => d.set i true)
    unfold evalDensityAux at h
    rw [h]
    by_cases h0 : p.2 = 0
    · rw [if_pos h0]
    · rw [if_neg h0]
      cases p.1 with
      | input i => rfl
      | aux i => exact List.length_set d i true

theorem evalDensityAux_monotone (lc : LinearCombination F) (d : List Bool)
    (j : ℕ) (h : (evalDensityAux lc d).getD j false = false) :
    d.getD j false = false := by
  induction lc generalizing d with
  | nil => exact h
  | cons p rest ih =>
    unfold evalDensityAux at h
    rw [List.foldl_cons] at h
    have h2 := ih _ h
    by_cases h0 : p.2 = 0
    · rw [if_pos h0] at h2
      exact h2
    · rw [if_neg h0] at h2
      cases hv : p.1 with
      | input i =>
        rw [hv] at h2
        exact h2
      | aux i =>
        rw [hv] at h2
        exact getD_set_false d i j h2

theorem evalDensityAux_covers (lc : LinearCombination F) (d : List Bool)
    (j : ℕ) (hlen : j < d.length)
    (h : (evalDensityAux lc d).getD j false = false) : auxCoeffZero lc j := by
  induction lc generalizing d with
  | nil =>
    intro q hq
    exact absurd hq (List.not_mem_nil q)
  | cons p rest ih =>
    unfold evalDensityAux at h
    rw [List.foldl_cons] at h
    intro q hq hq1
    rcases List.mem_cons.mp hq with hq | hq
    · subst hq
      by_cases h0 : q.2 = 0
      · exact h0
      · exfalso
        rw [if_neg h0, hq1] at h
        have hmono := evalDensityAux_monotone rest _ j h
        rw [List.getD_eq_getElem _ _ (by simpa using
          (by rw [List.length_set]; exact hlen : j < (d.set j true).length)),
          List.getElem_set, if_pos rfl] at hmono
        exact absurd hmono (by simp)
    · have hd' : (if p.2 = 0 then d else match p.1 with
          | Index.input _ => d
          | Index.aux i => d.set i true).length = d.length := by
        by_cases h0 : p.2 = 0
        · rw [if_pos h0]
        · rw [if_neg h0]
          cases p.1 with
          | input i => rfl
          | aux i => exact List.length_set d i true
      exact ih _ (by rw [hd']; exact hlen) h q hq hq1

theorem evalDensityInput_length (lc : LinearCombination F) (d : List Bool) :
    (evalDensityInput lc d).length = d.length := by
  induction lc generalizing d with
  | nil => rfl
  | cons p rest ih =>
    unfold evalDensityInput
    rw [List.foldl_cons]
    have h := ih (if p.2 = 0 then d else match p.1 with
      | Index.input i => d.set i true
      | Index.aux _ => d)
    unfold evalDensityInput at h
    rw [h]
    by_cases h0 : p.2 = 0
    · rw [if_pos h0]
    · rw [if_neg h0]
      cases p.1 with
      | input i => exact List.length_set d i true
      | aux i => rfl

theorem evalDensityInput_monotone (lc : LinearCombination F) (d : List Bool)
    (j : ℕ) (h : (evalDensityInput lc d).getD j false = false) :
    d.getD j false = false := by
  induction lc generalizing d with
  | nil => exact h
  | cons p rest ih =>
    unfold evalDensityInput at h
    rw [List.foldl_cons] at h
    have h2 := ih _ h
    by_cases h0 : p.2 = 0
    · rw [if_pos h0] at h2
      exact h2
    · rw [if_neg h0] at h2
      cases hv : p.1 with
      | input i =>
        rw [hv] at h2
        exact getD_set_false d i j h2
      | aux i =>
        rw [hv] at h2
        exact h2

theorem evalDensityInput_covers (lc : LinearCombination F) (d : List Bool)
    (j : ℕ) (hlen : j < d.length)
    (h : (evalDensityInput lc d).getD j false = false) : inputCoeffZero lc j := by
  induction lc generalizing d with
  | nil =>
    intro q hq
    exact absurd hq (List.not_mem_nil q)
  | cons p rest ih =>
    unfold evalDensityInput at h
    rw [List.foldl_cons] at h
    intro q hq hq1
    rcases List.mem_cons.mp hq with hq | hq
    · subst hq
      by_cases h0 : q.2 = 0
      · exact h0
      · exfalso
        rw [if_neg h0, hq1] at h
        have hmono := evalDensityInput_monotone rest _ j h
        rw [List.getD_eq_getElem _ _ (by simpa using
          (by rw [List.length_set]; exact hlen : j < (d.set j true).length)),
          List.getElem_set, if_pos rfl] at hmono
        exact absurd hmono (by simp)
    · have hd' : (if p.2 = 0 then d else match p.1 with
          | Index.input i => d.set i true
          | Index.aux _ => d).length = d.length := by
        by_cases h0 : p.2 = 0
        · rw [if_pos h0]
        · rw [if_neg h0]
          cases p.1 with
          | input i => exact List.length_set d i true
          | aux i => rfl
      exact ih _ (by rw [hd']; exact hlen) h q hq hq1

/-! ### C1 — part 3: the keypair assembly and `generate_parameters` -/

/-- Modelled from the spec: the "key-assembly" synthesizer state (§4.H
step 1; `mirage/mod.rs` is not among the sources).  It records the shape
of the circuit: variable counts, the three rows of every constraint, the
aux-block boundaries and the transcript schedule. -/
structure KeypairAssembly (F : Type) where
  num_inputs : ℕ
  num_aux : ℕ
  rows_a : List (LinearCombination F)
  rows_b : List (LinearCombination F)
  rows_c : List (LinearCombination F)
  block_indices : List ℕ
  schedule : List TranscriptEntry

/-- Modelled from the spec: one builder call against the key assembly
(§4.G/§4.H: `alloc_input` records a `PublicInput` entry, `alloc_random` a
`Coin`, `end_aux_block` an `AuxCommit` and the boundary — with the same
`end > start` assertion as the prover — and `enforce` records the row). -/
def setupOp (st : KeypairAssembly F) (op : CircuitOp F) :
    Option (KeypairAssembly F) :=
  match op with
  | CircuitOp.alloc _ => some { st with num_aux := st.num_aux + 1 }
  | CircuitOp.allocInput _ => some { st with
      num_inputs := st.num_inputs + 1,
      schedule := st.schedule ++ [TranscriptEntry.publicInput] }
  | CircuitOp.allocRandom => some { st with
      num_inputs := st.num_inputs + 1,
      schedule := st.schedule ++ [TranscriptEntry.coin] }
  | CircuitOp.endAuxBlock =>
    if st.num_aux > st.block_indices.getLast?.getD 0 then
      some { st with
        block_indices := st.block_indices ++ [st.num_aux],
        schedule := st.schedule ++ [TranscriptEntry.auxCommit] }
    else none
  | CircuitOp.enforce la lb lc =>
    some { st with
      rows_a := st.rows_a ++ [la],
      rows_b := st.rows_b ++ [lb],
      rows_c := st.rows_c ++ [lc] }

/-- Modelled from the spec: tracing the circuit through the key assembly. -/
def setupRun (ops : List (CircuitOp F)) (st : KeypairAssembly F) :
    Option (KeypairAssembly F) :=
  ops.foldlM setupOp st

/-- Modelled from the spec: the input-pinning rows `(x_i)·0 = 0` added after
synthesis (§4.I step 3, mirrored at setup). -/
def pinRows (st : KeypairAssembly F) : KeypairAssembly F :=
  { st with
    rows_a := st.rows_a ++ (List.range st.num_inputs).map
      (fun i => [(Index.input i, (1 : F))]),
    rows_b := st.rows_b ++ (List.range st.num_inputs).map (fun _ => []),
    rows_c := st.rows_c ++ (List.range st.num_inputs).map (fun _ => []) }

/-- The evaluation at `τ` of variable `v`'s QAP polynomial for one side:
`Σ_r (coefficient of v in row r) · L_r(τ)` (§4.H step 1). -/
def uTauOf (rows : List (LinearCombination F)) (lag : ℕ → F) (v : Index) : F :=
  ∑ r ∈ Finset.range rows.length, lcCoeff (rows.getD r []) v * lag r

/-- Modelled from the spec: assembly of the `Parameters` tables from the
traced shape, the constraint domain and the trapdoors (§4.H steps 2–6). -/
def mkParameters (st : KeypairAssembly F) (dom : EvaluationDomain F)
    (alpha beta gamma tau : F) (deltas : List F) : Parameters F :=
  let m := 2 ^ dom.exp
  let lag := fun r => lagAt dom.omega tau m r
  let uT := fun v => uTauOf st.rows_a lag v
  let vT := fun v => uTauOf st.rows_b lag v
  let wT := fun v => uTauOf st.rows_c lag v
  let lin := fun v => beta * uT v + alpha * vT v + wT v
  let starts := fun b => (0 :: st.block_indices).getD b 0
  let ends := fun b => (st.block_indices ++ [st.num_aux]).getD b 0
  let icv := (List.range st.num_inputs).map
    (fun i => lin (Index.input i) * gamma⁻¹)
  let vkv : VerifyingKey F :=
    ⟨alpha, beta, beta, gamma, deltas, deltas, icv, st.schedule⟩
  let hv := (List.range (m - 1)).map
    (fun i => tau ^ i * (tau ^ m - 1) * (deltas.getD (deltas.length - 1) 0)⁻¹)
  let lv := (List.range (st.block_indices.length + 1)).map (fun b =>
    (List.range (ends b - starts b)).map
      (fun t => lin (Index.aux (starts b + t)) * (deltas.getD b 0)⁻¹))
  let ai := (List.range st.num_inputs).map (fun i => uT (Index.input i))
  let aa := (List.range st.num_aux).map (fun i => uT (Index.aux i))
  let bi := (List.range st.num_inputs).map (fun i => vT (Index.input i))
  let ba := (List.range st.num_aux).map (fun i => vT (Index.aux i))
  ⟨vkv, hv, lv, ai, aa, bi, ba, bi, ba⟩

/-- Modelled from the spec: `generate_parameters` (§4.H).  Inputs: the
circuit trace, the declared number of aux blocks and the trapdoors.  The
fixed input `1` is pre-allocated; the circuit is traced; the pinning rows
are added; the constraint-count domain is built with `from_coeffs` (whose
`PolynomialDegreeTooLarge` failure propagates); a zero `γ` or `δ` fails
with `UnexpectedIdentity`; a block count differing from the declared one,
or a δ-vector of the wrong length, is a panic (`none`). -/
def generate_parameters (Sa : ℕ) (ρ g : F) (ops : List (CircuitOp F)) (nb : ℕ)
    (alpha beta gamma tau : F) (deltas : List F) :
    Option (Except SynthesisError (Parameters F)) :=
  if deltas.length = nb + 1 then
    match setupRun ops (KeypairAssembly.mk 1 0 [] [] [] [] []) with
    | none => none
    | some st0 =>
      let st := pinRows st0
      if st.block_indices.length = nb then
        if gamma = 0 ∨ deltas.any (fun d => decide (d = 0)) then
          some (Except.error SynthesisError.unexpectedIdentity)
        else
          match fromCoeffs Sa ρ g (List.replicate st.rows_a.length (0 : F)) with
          | Except.error e => some (Except.error e)
          | Except.ok dom =>
            some (Except.ok (mkParameters st dom alpha beta gamma tau deltas))
      else none
  else none

/-- Number of `enforce` calls in the trace. -/
def countEnforce (ops : List (CircuitOp F)) : ℕ :=
  ops.countP (fun op => match op with
    | CircuitOp.enforce _ _ _ => true
    | _ => false)

/-- Number of input allocations (public inputs and coins) in the trace. -/
def countInputOps (ops : List (CircuitOp F)) : ℕ :=
  ops.countP (fun op => match op with
    | CircuitOp.allocInput _ => true
    | CircuitOp.allocRandom => true
    | _ => false)

/-- The circuit's public-input values, in allocation order. -/
def pubInputsOf (ops : List (CircuitOp F)) : List F :=
  ops.filterMap (fun op => match op with
    | CircuitOp.allocInput v => some v
    | _ => none)

/-- Every linear combination of the trace only references variables already
allocated (counting from `ni` inputs and `na` aux variables). -/
def WfOps (ni na : ℕ) : List (CircuitOp F) → Prop
  | [] => True
  | (CircuitOp.alloc _) :: rest => WfOps ni (na + 1) rest
  | (CircuitOp.allocInput _) :: rest => WfOps (ni + 1) na rest
  | CircuitOp.allocRandom :: rest => WfOps (ni + 1) na rest
  | CircuitOp.endAuxBlock :: rest => WfOps ni na rest
  | (CircuitOp.enforce la lb lc) :: rest =>
      (wfLc la ni na ∧ wfLc lb ni na ∧ wfLc lc ni na) ∧ WfOps ni na rest

/-! ### C1 — part 4: small list/sum helpers -/

theorem getD_map_range (f : ℕ → F) (n i : ℕ) (d : F) (h : i < n) :
    (((List.range n).map f).getD i d) = f i := by
  rw [List.getD_eq_getElem _ _ (by simpa using h)]
  simp

theorem msmFull_map_range (f : ℕ → F) (exps : List F) (n : ℕ)
    (h : exps.length ≤ n) :
    msmFull ((List.range n).map f) exps
      = ∑ i ∈ Finset.range exps.length, f i * exps.getD i 0 := by
  unfold msmFull
  refine Finset.sum_congr rfl fun i hi => ?_
  rw [getD_map_range f n i 0 (by have := Finset.mem_range.mp hi; omega)]

theorem msmDense_full (bases exps : List F) (density : List Bool)
    (h : ∀ i, i < exps.length → density.getD i false = false →
      bases.getD i 0 = 0) :
    msmDense bases exps density
      = ∑ i ∈ Finset.range exps.length, bases.getD i 0 * exps.getD i 0 := by
  unfold msmDense
  refine Finset.sum_congr rfl fun i hi => ?_
  by_cases hd : density.getD i false = true
  · rw [if_pos hd]
  · rw [if_neg hd, h i (Finset.mem_range.mp hi) (by simpa using hd), zero_mul]

theorem zipWith_mul_sum (l1 l2 : List F) :
    (List.zipWith (fun d nd => d * nd) l1 l2).sum
      = ∑ i ∈ Finset.range (min l1.length l2.length),
          l1.getD i 0 * l2.getD i 0 := by
  induction l1 generalizing l2 with
  | nil => simp
  | cons x r1 ih =>
    cases l2 with
    | nil => simp
    | cons y r2 =>
      rw [List.zipWith_cons_cons, List.sum_cons, ih r2]
      have hmin : min (x :: r1).length (y :: r2).length
          = min r1.length r2.length + 1 := by
        simp only [List.length_cons]
        omega
      rw [hmin, Finset.sum_range_succ']
      simp [List.getD_cons_succ, List.getD_cons_zero, add_comm]

theorem getLast_getD_eq {α : Type} (l : List α) (d : α) (h : l ≠ []) :
    l.getLast?.getD d = l.getD (l.length - 1) d := by
  rw [List.getLast?_eq_getElem?, List.getD_eq_getElem?_getD]

/-- Partition ordering: consecutive boundary entries are nondecreasing,
starting from `lo`. -/
def partOK : ℕ → List ℕ → Prop
  | _, [] => True
  | lo, e :: rest => lo ≤ e ∧ partOK e rest

theorem partOK_append (x : ℕ) :
    ∀ (bl : List ℕ) (lo : ℕ), partOK lo bl → bl.getLast?.getD lo ≤ x →
      partOK lo (bl ++ [x]) := by
  intro bl
  induction bl with
  | nil =>
    intro lo _ hx
    exact ⟨by simpa using hx, trivial⟩
  | cons e rest ih =>
    intro lo hp hx
    refine ⟨hp.1, ih e hp.2 ?_⟩
    rcases rest with _ | ⟨f, r2⟩
    · simpa using hx
    · simpa [List.getLast?_cons_cons] using hx

theorem partOK_last_le (x : ℕ) :
    ∀ (bl : List ℕ) (lo : ℕ), partOK lo bl → lo ≤ x →
      (∀ y ∈ bl, y ≤ x) → bl.getLast?.getD lo ≤ x := by
  intro bl
  induction bl with
  | nil =>
    intro lo _ hlo _
    simpa using hlo
  | cons e rest ih =>
    intro lo hp hlo hall
    rcases rest with _ | ⟨f, r2⟩
    · simpa using hall e (by simp)
    · simpa [List.getLast?_cons_cons] using
        ih e hp.2 (hall e (by simp)) (fun y hy => hall y (by simp [hy]))

/-- Summing a function block by block over consecutive intervals covers the
whole range. -/
theorem interval_sum_parts (f : ℕ → F) :
    ∀ (bl : List ℕ) (lo hi : ℕ), partOK lo bl → (∀ x ∈ bl, x ≤ hi) →
      lo ≤ hi →
      ∑ b ∈ Finset.range (bl.length + 1),
        ∑ t ∈ Finset.range ((bl ++ [hi]).getD b 0 - (lo :: bl).getD b 0),
          f ((lo :: bl).getD b 0 + t)
      = ∑ t ∈ Finset.range (hi - lo), f (lo + t) := by
  intro bl
  induction bl with
  | nil =>
    intro lo hi _ _ _
    simp
  | cons e rest ih =>
    intro lo hi hp hall hlohi
    have he_hi : e ≤ hi := hall e (by simp)
    have hlo_e : lo ≤ e := hp.1
    rw [Finset.sum_range_succ']
    beta_reduce
    simp only [List.length_cons]
    have hshift : ∀ b ∈ Finset.range (rest.length + 1),
        ∑ t ∈ Finset.range (((e :: rest) ++ [hi]).getD (b + 1) 0
            - (lo :: e :: rest).getD (b + 1) 0),
          f ((lo :: e :: rest).getD (b + 1) 0 + t)
        = ∑ t ∈ Finset.range ((rest ++ [hi]).getD b 0 - (e :: rest).getD b 0),
            f ((e :: rest).getD b 0 + t) := by
      intro b _
      rfl
    rw [Finset.sum_congr rfl hshift,
      ih e hi hp.2 (fun x hx => hall x (by simp [hx])) he_hi]
    have h0 : ((e :: rest) ++ [hi]).getD 0 0 = e := rfl
    have h0' : (lo :: e :: rest).getD 0 0 = lo := rfl
    rw [h0, h0']
    have hr1 : ∑ t ∈ Finset.range (e - lo), f (lo + t)
        = ∑ j ∈ Finset.Ico lo e, f j := by
      rw [Finset.sum_Ico_eq_sum_range]
    have hr2 : ∑ t ∈ Finset.range (hi - e), f (e + t)
        = ∑ j ∈ Finset.Ico e hi, f j := by
      rw [Finset.sum_Ico_eq_sum_range]
    have hr3 : ∑ t ∈ Finset.range (hi - lo), f (lo + t)
        = ∑ j ∈ Finset.Ico lo hi, f j := by
      rw [Finset.sum_Ico_eq_sum_range]
    rw [hr2, hr1, hr3, add_comm, Finset.sum_Ico_consecutive f hlo_e he_hi]

theorem foldlM_congr_fn {α β : Type} (f h : β → α → Option β) (l : List α)
    (hfh : ∀ s x, f s x = h s x) :
    ∀ init : β, l.foldlM f init = l.foldlM h init := by
  induction l with
  | nil =>
    intro init
    rfl
  | cons x rest ih =>
    intro init
    rw [List.foldlM_cons, List.foldlM_cons, hfh init x]
    cases h init x with
    | none => rfl
    | some s =>
      exact ih s

/-- `verifyStep` only reads `ic` from the key and `ds` from the proof. -/
theorem verifyStep_ic_ds (coinOf : List (TMsg F) → F)
    (pvk pvk' : PreparedVerifyingKey F) (pf pf' : Proof F) (pubs : List F)
    (hic : pvk.ic = pvk'.ic) (hds : pf.ds = pf'.ds) (st : VState F)
    (t : TranscriptEntry) :
    verifyStep coinOf pvk pf pubs st t = verifyStep coinOf pvk' pf' pubs st t := by
  cases t with
  | coin => simp only [verifyStep, hic]
  | publicInput => simp only [verifyStep, hic]
  | auxCommit => simp only [verifyStep, hds]

theorem getD_append_self (l : List ℕ) (x : ℕ) (d : ℕ) :
    (l ++ [x]).getD l.length d = x := by
  rw [List.getD_append_right l [x] d l.length le_rfl, Nat.sub_self]
  rfl

theorem getD_append_self_f (l : List F) (x : F) (d : F) :
    (l ++ [x]).getD l.length d = x := by
  rw [List.getD_append_right l [x] d l.length le_rfl, Nat.sub_self]
  rfl

theorem getLast_getD_cons (bl : List ℕ) :
    bl.getLast?.getD 0 = (0 :: bl).getD bl.length 0 := by
  rcases bl with _ | ⟨e, rest⟩
  · rfl
  · rw [getLast_getD_eq _ _ (by simp), List.length_cons, Nat.add_sub_cancel,
      List.getD_cons_succ]

theorem zero_cons_append_getD (bl : List ℕ) (x : ℕ) (b : ℕ)
    (hb : b < bl.length + 1) :
    (0 :: (bl ++ [x])).getD b 0 = (0 :: bl).getD b 0 := by
  cases b with
  | zero => rfl
  | succ b' =>
    rw [List.getD_cons_succ, List.getD_cons_succ,
      List.getD_append bl [x] 0 b' (by omega)]

theorem partOK_getD :
    ∀ (bl : List ℕ) (lo : ℕ), partOK lo bl →
      ∀ b, b < bl.length → (lo :: bl).getD b 0 ≤ bl.getD b 0 := by
  intro bl
  induction bl with
  | nil =>
    intro lo _ b hb
    exact absurd hb (by simp)
  | cons e rest ih =>
    intro lo hp b hb
    cases b with
    | zero => exact hp.1
    | succ b' =>
      rw [List.getD_cons_succ, List.getD_cons_succ]
      exact ih e hp.2 b' (by simpa using hb)

theorem getD_le_of_all (bl : List ℕ) (na : ℕ) (h : ∀ x ∈ bl, x ≤ na)
    (b : ℕ) : bl.getD b 0 ≤ na := by
  by_cases hb : b < bl.length
  · rw [List.getD_eq_getElem _ _ hb]
    exact h _ (bl.getElem_mem hb)
  · rw [List.getD_eq_default _ _ (by omega)]
    omega

theorem slice_append (l l2 : List F) (s k : ℕ) (h : s + k ≤ l.length) :
    (((l ++ l2).drop s).take k) = ((l.drop s).take k) := by
  rw [List.drop_append_of_le_length (by omega),
    List.take_append_of_le_length (by simpa using (by omega : k ≤ l.length - s))]

theorem setupRun_nil (st : KeypairAssembly F) : setupRun [] st = some st := rfl

theorem setupRun_cons (op : CircuitOp F) (rest : List (CircuitOp F))
    (st : KeypairAssembly F) :
    setupRun (op :: rest) st
      = (setupOp st op).bind (fun s => setupRun rest s) := by
  rcases h : setupOp st op with _ | stm
  · simp only [setupRun, List.foldlM_cons, h, Option.bind]
    rfl
  · simp only [setupRun, List.foldlM_cons, h, Option.bind]
    rfl

theorem synthesize_cons (coinOf : List (TMsg F) → F) (params : Parameters F)
    (op : CircuitOp F) (rest : List (CircuitOp F)) (st : ProvingAssignment F) :
    synthesize coinOf params (op :: rest) st
      = (match op with
         | CircuitOp.alloc v => some (alloc st v)
         | CircuitOp.allocInput v => some (alloc_input st v)
         | CircuitOp.allocRandom => some (alloc_random coinOf st)
         | CircuitOp.endAuxBlock => end_aux_block params st
         | CircuitOp.enforce la lb lc => some (enforce st la lb lc)).bind
          (fun s => synthesize coinOf params rest s) := by
  have hcases : ∀ x : Option (ProvingAssignment F),
      (x >>= fun s => List.foldlM (fun st op => match op with
        | CircuitOp.alloc v => some (alloc st v)
        | CircuitOp.allocInput v => some (alloc_input st v)
        | CircuitOp.allocRandom => some (alloc_random coinOf st)
        | CircuitOp.endAuxBlock => end_aux_block params st
        | CircuitOp.enforce la lb lc => some (enforce st la lb lc)) s rest)
      = x.bind (fun s => synthesize coinOf params rest s) := by
    intro x
    cases x <;> rfl
  rw [← hcases]
  rfl

/-- The structural content of a setup run: input and row counts. -/
theorem setup_shape (ops : List (CircuitOp F)) :
    ∀ st st', setupRun ops st = some st' →
      st'.num_inputs = st.num_inputs + countInputOps ops ∧
      st'.rows_a.length = st.rows_a.length + countEnforce ops := by
  induction ops with
  | nil =>
    intro st st' hrun
    rw [setupRun_nil, Option.some.injEq] at hrun
    rw [← hrun]
    simp [countInputOps, countEnforce]
  | cons op rest ih =>
    intro st st' hrun
    rw [setupRun_cons] at hrun
    match op with
    | CircuitOp.alloc v =>
      simp only [setupOp, Option.bind] at hrun
      have h := ih _ _ hrun
      simp [countInputOps, countEnforce, List.countP_cons] at h ⊢
      omega
    | CircuitOp.allocInput v =>
      simp only [setupOp, Option.bind] at hrun
      have h := ih _ _ hrun
      simp [countInputOps, countEnforce, List.countP_cons] at h ⊢
      omega
    | CircuitOp.allocRandom =>
      simp only [setupOp, Option.bind] at hrun
      have h := ih _ _ hrun
      simp [countInputOps, countEnforce, List.countP_cons] at h ⊢
      omega
    | CircuitOp.endAuxBlock =>
      simp only [setupOp] at hrun
      by_cases hc : st.num_aux > st.block_indices.getLast?.getD 0
      · rw [if_pos hc] at hrun
        simp only [Option.bind] at hrun
        have h := ih _ _ hrun
        simp [countInputOps, countEnforce, List.countP_cons] at h ⊢
        omega
      · rw [if_neg hc] at hrun
        exact absurd hrun (by simp [Option.bind])
    | CircuitOp.enforce la lb lc =>
      simp only [setupOp, Option.bind] at hrun
      have h := ih _ _ hrun
      simp [countInputOps, countEnforce, List.countP_cons] at h ⊢
      omega

/-- Boundary count is monotone along a setup run. -/
theorem setup_bi_mono (ops : List (CircuitOp F)) :
    ∀ st st', setupRun ops st = some st' →
      st.block_indices.length ≤ st'.block_indices.length := by
  induction ops with
  | nil =>
    intro st st' hrun
    rw [setupRun_nil, Option.some.injEq] at hrun
    rw [← hrun]
  | cons op rest ih =>
    intro st st' hrun
    rw [setupRun_cons] at hrun
    match op with
    | CircuitOp.alloc v =>
      simp only [setupOp, Option.bind] at hrun
      have h := ih _ _ hrun
      exact h
    | CircuitOp.allocInput v =>
      simp only [setupOp, Option.bind] at hrun
      have h := ih _ _ hrun
      exact h
    | CircuitOp.allocRandom =>
      simp only [setupOp, Option.bind] at hrun
      have h := ih _ _ hrun
      exact h
    | CircuitOp.endAuxBlock =>
      simp only [setupOp] at hrun
      by_cases hc : st.num_aux > st.block_indices.getLast?.getD 0
      · rw [if_pos hc] at hrun
        simp only [Option.bind] at hrun
        have h := ih _ _ hrun
        simp only [List.length_append, List.length_cons] at h
        omega
      · rw [if_neg hc] at hrun
        exact absurd hrun (by simp [Option.bind])
    | CircuitOp.enforce la lb lc =>
      simp only [setupOp, Option.bind] at hrun
      have h := ih _ _ hrun
      exact h

/-- The prover–setup simulation invariant: the prover state carries exactly
the values of the recorded shape, its transcript replays against the
recorded schedule, and the density bitmaps cover every referenced
variable. -/
structure SimRel (coinOf : List (TMsg F) → F) (params : Parameters F)
    (kappa : List F) (stP : ProvingAssignment F) (stS : KeypairAssembly F)
    (piVals : List F) : Prop where
  hni : stP.input_assignment.length = stS.num_inputs
  hna : stP.aux_assignment.length = stS.num_aux
  hra : stP.a = stS.rows_a.map
    (fun lc => eval lc stP.input_assignment stP.aux_assignment)
  hrb : stP.b = stS.rows_b.map
    (fun lc => eval lc stP.input_assignment stP.aux_assignment)
  hrc : stP.c = stS.rows_c.map
    (fun lc => eval lc stP.input_assignment stP.aux_assignment)
  hbi : stP.aux_block_indices = stS.block_indices
  hpart : partOK 0 stS.block_indices
  hble : ∀ x ∈ stS.block_indices, x ≤ stS.num_aux
  hwa : ∀ lc ∈ stS.rows_a, wfLc lc stS.num_inputs stS.num_aux
  hwb : ∀ lc ∈ stS.rows_b, wfLc lc stS.num_inputs stS.num_aux
  hwc : ∀ lc ∈ stS.rows_c, wfLc lc stS.num_inputs stS.num_aux
  hkap : stP.kappa_3s = kappa
  hds : stP.pi_ds = (List.range stS.block_indices.length).map (fun b =>
    msmFull (params.l.getD b [])
      ((stP.aux_assignment.drop ((0 :: stS.block_indices).getD b 0)).take
        (stS.block_indices.getD b 0 - (0 :: stS.block_indices).getD b 0))
    + params.vk.deltas_g1.getLast?.getD 0 * kappa.getD b 0)
  hdal : stP.a_aux_density.length = stS.num_aux
  hdbl : stP.b_aux_density.length = stS.num_aux
  hdil : stP.b_input_density.length = stS.num_inputs
  hdac : ∀ j, stP.a_aux_density.getD j false = false →
    ∀ lc ∈ stS.rows_a, auxCoeffZero lc j
  hdbc : ∀ j, stP.b_aux_density.getD j false = false →
    ∀ lc ∈ stS.rows_b, auxCoeffZero lc j
  hdic : ∀ j, stP.b_input_density.getD j false = false →
    ∀ lc ∈ stS.rows_b, inputCoeffZero lc j
  hsc : stS.num_inputs = 1 + countPI stS.schedule + countCoin stS.schedule
  hac : countAC stS.schedule = stS.block_indices.length
  hpilen : piVals.length = countPI stS.schedule
  hreplay : ∀ (ic : List F) (restp restd : List F),
    stS.num_inputs ≤ ic.length →
    stS.schedule.foldlM
      (verifyStep coinOf (PreparedVerifyingKey.mk 0 0 [] ic [])
        (Proof.mk 0 0 0 (stP.pi_ds ++ restd)) (piVals ++ restp))
      (VState.mk [TMsg.input 1] (ic.getD 0 0) 0 0 1)
    = some (VState.mk stP.transcript
        (∑ j ∈ Finset.range stS.num_inputs,
          ic.getD j 0 * stP.input_assignment.getD j 0)
        piVals.length stP.pi_ds.length stS.num_inputs)

theorem inBounds_mono (ni na ni' na' : ℕ) (v : Index) (h : inBounds ni na v)
    (h1 : ni ≤ ni') (h2 : na ≤ na') : inBounds ni' na' v := by
  cases v with
  | input i => exact Nat.lt_of_lt_of_le h h1
  | aux i => exact Nat.lt_of_lt_of_le h h2

theorem wfLc_mono (lc : LinearCombination F) (ni na ni' na' : ℕ)
    (h : wfLc lc ni na) (h1 : ni ≤ ni') (h2 : na ≤ na') : wfLc lc ni' na' :=
  fun p hp => inBounds_mono ni na ni' na' p.1 (h p hp) h1 h2

theorem getD_append_false (d : List Bool) (j : ℕ)
    (h : (d ++ [false]).getD j false = false) : d.getD j false = false := by
  by_cases hj : j < d.length
  · rw [← List.getD_append d [false] false j hj]
    exact h
  · rw [List.getD_eq_default _ _ (by omega)]

/-- `alloc` preserves the simulation invariant. -/
theorem simStep_alloc (coinOf : List (TMsg F) → F) (params : Parameters F)
    (kappa : List F) (stP : ProvingAssignment F) (stS : KeypairAssembly F)
    (piVals : List F) (v : F)
    (h : SimRel coinOf params kappa stP stS piVals) :
    SimRel coinOf params kappa (alloc stP v)
      { stS with num_aux := stS.num_aux + 1 } piVals := by
  have heval : ∀ rows : List (LinearCombination F),
      (∀ lc ∈ rows, wfLc lc stS.num_inputs stS.num_aux) →
      rows.map (fun lc => eval lc (alloc stP v).input_assignment
        (alloc stP v).aux_assignment)
      = rows.map (fun lc => eval lc stP.input_assignment stP.aux_assignment) := by
    intro rows hw
    refine List.map_congr_left fun lc hlc => ?_
    have h1 := eval_append lc stP.input_assignment stP.aux_assignment [] [v]
      (by rw [h.hni, h.hna]; exact hw lc hlc)
    show eval lc stP.input_assignment (stP.aux_assignment ++ [v]) = _
    rw [← h1, List.append_nil]
  refine ⟨?_, ?_, ?_, ?_, ?_, ?_, ?_, ?_, ?_, ?_, ?_, ?_, ?_, ?_, ?_, ?_,
    ?_, ?_, ?_, ?_, ?_, ?_, ?_⟩
  · exact h.hni
  · show (stP.aux_assignment ++ [v]).length = stS.num_aux + 1
    rw [List.length_append, h.hna]
    rfl
  · rw [heval stS.rows_a h.hwa]
    exact h.hra
  · rw [heval stS.rows_b h.hwb]
    exact h.hrb
  · rw [heval stS.rows_c h.hwc]
    exact h.hrc
  · exact h.hbi
  · exact h.hpart
  · exact fun x hx => Nat.le_succ_of_le (h.hble x hx)
  · exact fun lc hlc => wfLc_mono lc _ _ _ _ (h.hwa lc hlc) le_rfl (Nat.le_succ _)
  · exact fun lc hlc => wfLc_mono lc _ _ _ _ (h.hwb lc hlc) le_rfl (Nat.le_succ _)
  · exact fun lc hlc => wfLc_mono lc _ _ _ _ (h.hwc lc hlc) le_rfl (Nat.le_succ _)
  · exact h.hkap
  · show stP.pi_ds = _
    rw [h.hds]
    refine List.map_congr_left fun b hb => ?_
    have hblt : b < stS.block_indices.length := List.mem_range.mp hb
    have hs_le : (0 :: stS.block_indices).getD b 0
        ≤ stS.block_indices.getD b 0 :=
      partOK_getD stS.block_indices 0 h.hpart b hblt
    have he_le : stS.block_indices.getD b 0 ≤ stS.num_aux :=
      getD_le_of_all stS.block_indices stS.num_aux h.hble b
    have hslice : (((stP.aux_assignment ++ [v]).drop
          ((0 :: stS.block_indices).getD b 0)).take
          (stS.block_indices.getD b 0 - (0 :: stS.block_indices).getD b 0))
        = ((stP.aux_assignment.drop ((0 :: stS.block_indices).getD b 0)).take
          (stS.block_indices.getD b 0 - (0 :: stS.block_indices).getD b 0)) :=
      slice_append stP.aux_assignment [v] _ _ (by rw [h.hna]; omega)
    show _ = msmFull (params.l.getD b [])
        (((stP.aux_assignment ++ [v]).drop _).take _) + _
    rw [hslice]
  · show (stP.a_aux_density ++ [false]).length = stS.num_aux + 1
    rw [List.length_append, h.hdal]
    rfl
  · show (stP.b_aux_density ++ [false]).length = stS.num_aux + 1
    rw [List.length_append, h.hdbl]
    rfl
  · exact h.hdil
  · intro j hj
    exact h.hdac j (getD_append_false _ _ hj)
  · intro j hj
    exact h.hdbc j (getD_append_false _ _ hj)
  · exact h.hdic
  · exact h.hsc
  · exact h.hac
  · exact h.hpilen
  · intro ic restp restd hlen
    exact h.hreplay ic restp restd hlen

/-- `enforce` preserves the simulation invariant. -/
theorem simStep_enforce (coinOf : List (TMsg F) → F) (params : Parameters F)
    (kappa : List F) (stP : ProvingAssignment F) (stS : KeypairAssembly F)
    (piVals : List F) (la lb lc : LinearCombination F)
    (hwla : wfLc la stS.num_inputs stS.num_aux)
    (hwlb : wfLc lb stS.num_inputs stS.num_aux)
    (hwlc : wfLc lc stS.num_inputs stS.num_aux)
    (h : SimRel coinOf params kappa stP stS piVals) :
    SimRel coinOf params kappa (enforce stP la lb lc)
      { stS with
        rows_a := stS.rows_a ++ [la],
        rows_b := stS.rows_b ++ [lb],
        rows_c := stS.rows_c ++ [lc] } piVals := by
  have hcov : ∀ (lx : LinearCombination F) (d : List Bool)
      (rows : List (LinearCombination F)),
      d.length = stS.num_aux →
      wfLc lx stS.num_inputs stS.num_aux →
      (∀ j, d.getD j false = false → ∀ l0 ∈ rows, auxCoeffZero l0 j) →
      ∀ j, (evalDensityAux lx d).getD j false = false →
        ∀ l0 ∈ rows ++ [lx], auxCoeffZero l0 j := by
    intro lx d rows hdl hwlx hold j hj l0 hl0
    rcases List.mem_append.mp hl0 with hl0 | hl0
    · exact hold j (evalDensityAux_monotone lx d j hj) l0 hl0
    · rw [List.mem_singleton.mp hl0]
      by_cases hjna : j < stS.num_aux
      · exact evalDensityAux_covers lx d j (by omega) hj
      · intro p hp hp1
        have hb := hwlx p hp
        rw [hp1] at hb
        exact absurd hb (by simpa [inBounds] using (by omega : ¬ j < stS.num_aux))
  have hcovi : ∀ (lx : LinearCombination F) (d : List Bool)
      (rows : List (LinearCombination F)),
      d.length = stS.num_inputs →
      wfLc lx stS.num_inputs stS.num_aux →
      (∀ j, d.getD j false = false → ∀ l0 ∈ rows, inputCoeffZero l0 j) →
      ∀ j, (evalDensityInput lx d).getD j false = false →
        ∀ l0 ∈ rows ++ [lx], inputCoeffZero l0 j := by
    intro lx d rows hdl hwlx hold j hj l0 hl0
    rcases List.mem_append.mp hl0 with hl0 | hl0
    · exact hold j (evalDensityInput_monotone lx d j hj) l0 hl0
    · rw [List.mem_singleton.mp hl0]
      by_cases hjni : j < stS.num_inputs
      · exact evalDensityInput_covers lx d j (by omega) hj
      · intro p hp hp1
        have hb := hwlx p hp
        rw [hp1] at hb
        exact absurd hb (by simpa [inBounds] using
          (by omega : ¬ j < stS.num_inputs))
  refine ⟨?_, ?_, ?_, ?_, ?_, ?_, ?_, ?_, ?_, ?_, ?_, ?_, ?_, ?_, ?_, ?_,
    ?_, ?_, ?_, ?_, ?_, ?_, ?_⟩
  · exact h.hni
  · exact h.hna
  · show stP.a ++ [eval la stP.input_assignment stP.aux_assignment] = _
    rw [List.map_append, h.hra]
    rfl
  · show stP.b ++ [eval lb stP.input_assignment stP.aux_assignment] = _
    rw [List.map_append, h.hrb]
    rfl
  · show stP.c ++ [eval lc stP.input_assignment stP.aux_assignment] = _
    rw [List.map_append, h.hrc]
    rfl
  · exact h.hbi
  · exact h.hpart
  · exact h.hble
  · intro l0 hl0
    rcases List.mem_append.mp hl0 with hl0 | hl0
    · exact h.hwa l0 hl0
    · rw [List.mem_singleton.mp hl0]
      exact hwla
  · intro l0 hl0
    rcases List.mem_append.mp hl0 with hl0 | hl0
    · exact h.hwb l0 hl0
    · rw [List.mem_singleton.mp hl0]
      exact hwlb
  · intro l0 hl0
    rcases List.mem_append.mp hl0 with hl0 | hl0
    · exact h.hwc l0 hl0
    · rw [List.mem_singleton.mp hl0]
      exact hwlc
  · exact h.hkap
  · exact h.hds
  · show (evalDensityAux la stP.a_aux_density).length = stS.num_aux
    rw [evalDensityAux_length, h.hdal]
  · show (evalDensityAux lb stP.b_aux_density).length = stS.num_aux
    rw [evalDensityAux_length, h.hdbl]
  · show (evalDensityInput lb stP.b_input_density).length = stS.num_inputs
    rw [evalDensityInput_length, h.hdil]
  · exact hcov la stP.a_aux_density stS.rows_a h.hdal hwla h.hdac
  · exact hcov lb stP.b_aux_density stS.rows_b h.hdbl hwlb h.hdbc
  · exact hcovi lb stP.b_input_density stS.rows_b h.hdil hwlb h.hdic
  · exact h.hsc
  · exact h.hac
  · exact h.hpilen
  · intro ic restp restd hlen
    exact h.hreplay ic restp restd hlen

theorem foldlM_append_single {α β : Type} (f : β → α → Option β)
    (l : List α) (t : α) (init mid fin : β)
    (h1 : l.foldlM f init = some mid) (h2 : f mid t = some fin) :
    (l ++ [t]).foldlM f init = some fin := by
  rw [List.foldlM_append, h1]
  show [t].foldlM f mid = some fin
  rw [List.foldlM_cons, h2]
  rfl

theorem getElem?_append_mid {α : Type} (l1 : List α) (x : α) (l2 : List α) :
    (l1 ++ (x :: l2))[l1.length]? = some x := by
  rw [List.getElem?_append_right le_rfl, Nat.sub_self]
  simp

/-- `alloc_input` preserves the simulation invariant, consuming the value as
the next public input. -/
theorem simStep_allocInput (coinOf : List (TMsg F) → F) (params : Parameters F)
    (kappa : List F) (stP : ProvingAssignment F) (stS : KeypairAssembly F)
    (piVals : List F) (v : F)
    (h : SimRel coinOf params kappa stP stS piVals) :
    SimRel coinOf params kappa (alloc_input stP v)
      { stS with
        num_inputs := stS.num_inputs + 1,
        schedule := stS.schedule ++ [TranscriptEntry.publicInput] }
      (piVals ++ [v]) := by
  refine ⟨?_, ?_, ?_, ?_, ?_, ?_, ?_, ?_, ?_, ?_, ?_, ?_, ?_, ?_, ?_, ?_,
    ?_, ?_, ?_, ?_, ?_, ?_, ?_⟩
  · show (stP.input_assignment ++ [v]).length = stS.num_inputs + 1
    rw [List.length_append, h.hni]
    rfl
  · exact h.hna
  · show stP.a = _
    rw [h.hra]
    refine List.map_congr_left fun lc hlc => ?_
    have h1 := eval_append lc stP.input_assignment stP.aux_assignment [v] []
      (by rw [h.hni, h.hna]; exact h.hwa lc hlc)
    rw [List.append_nil] at h1
    exact h1.symm
  · show stP.b = _
    rw [h.hrb]
    refine List.map_congr_left fun lc hlc => ?_
    have h1 := eval_append lc stP.input_assignment stP.aux_assignment [v] []
      (by rw [h.hni, h.hna]; exact h.hwb lc hlc)
    rw [List.append_nil] at h1
    exact h1.symm
  · show stP.c = _
    rw [h.hrc]
    refine List.map_congr_left fun lc hlc => ?_
    have h1 := eval_append lc stP.input_assignment stP.aux_assignment [v] []
      (by rw [h.hni, h.hna]; exact h.hwc lc hlc)
    rw [List.append_nil] at h1
    exact h1.symm
  · exact h.hbi
  · exact h.hpart
  · exact h.hble
  · exact fun lc hlc => wfLc_mono lc _ _ _ _ (h.hwa lc hlc) (Nat.le_succ _) le_rfl
  · exact fun lc hlc => wfLc_mono lc _ _ _ _ (h.hwb lc hlc) (Nat.le_succ _) le_rfl
  · exact fun lc hlc => wfLc_mono lc _ _ _ _ (h.hwc lc hlc) (Nat.le_succ _) le_rfl
  · exact h.hkap
  · exact h.hds
  · exact h.hdal
  · exact h.hdbl
  · show (stP.b_input_density ++ [false]).length = stS.num_inputs + 1
    rw [List.length_append, h.hdil]
    rfl
  · exact h.hdac
  · exact h.hdbc
  · intro j hj
    exact h.hdic j (getD_append_false _ _ hj)
  · show stS.num_inputs + 1 = 1 + countPI (stS.schedule ++ [TranscriptEntry.publicInput])
      + countCoin (stS.schedule ++ [TranscriptEntry.publicInput])
    have h1 := h.hsc
    simp only [countPI, countCoin, List.countP_append] at h1 ⊢
    simp
    omega
  · show countAC (stS.schedule ++ [TranscriptEntry.publicInput]) = _
    have h1 := h.hac
    simp only [countAC, List.countP_append] at h1 ⊢
    simpa using h1
  · show (piVals ++ [v]).length = _
    have h1 := h.hpilen
    simp only [countPI, List.countP_append, List.length_append] at h1 ⊢
    simp
    omega
  · intro ic restp restd hlen
    have hlen' : stS.num_inputs + 1 ≤ ic.length := hlen
    have hlt : stS.num_inputs < ic.length := by omega
    have hpubs : (piVals ++ [v]) ++ restp = piVals ++ (v :: restp) := by
      rw [List.append_assoc]
      rfl
    have hmid := h.hreplay ic (v :: restp) restd (by omega)
    have hic : ic[stS.num_inputs]? = some (ic.getD stS.num_inputs 0) := by
      rw [List.getElem?_eq_getElem hlt, List.getD_eq_getElem _ _ hlt]
    have hpub : (piVals ++ (v :: restp))[piVals.length]? = some v :=
      getElem?_append_mid piVals v restp
    have hstep : verifyStep coinOf (PreparedVerifyingKey.mk 0 0 [] ic [])
        (Proof.mk 0 0 0 (stP.pi_ds ++ restd)) (piVals ++ (v :: restp))
        (VState.mk stP.transcript
          (∑ j ∈ Finset.range stS.num_inputs,
            ic.getD j 0 * stP.input_assignment.getD j 0)
          piVals.length stP.pi_ds.length stS.num_inputs)
        TranscriptEntry.publicInput
      = some (VState.mk (stP.transcript ++ [TMsg.input v])
          ((∑ j ∈ Finset.range stS.num_inputs,
            ic.getD j 0 * stP.input_assignment.getD j 0)
            + ic.getD stS.num_inputs 0 * v)
          (piVals.length + 1) stP.pi_ds.length (stS.num_inputs + 1)) := by
      simp only [verifyStep]
      rw [hic, hpub]
      rfl
    have hacc : (∑ j ∈ Finset.range stS.num_inputs,
          ic.getD j 0 * stP.input_assignment.getD j 0)
          + ic.getD stS.num_inputs 0 * v
        = ∑ j ∈ Finset.range (stS.num_inputs + 1),
            ic.getD j 0 * (stP.input_assignment ++ [v]).getD j 0 := by
      rw [Finset.sum_range_succ]
      congr 1
      · refine Finset.sum_congr rfl fun j hj => ?_
        rw [List.getD_append _ _ 0 j
          (by rw [h.hni]; exact Finset.mem_range.mp hj)]
      · rw [show (stP.input_assignment ++ [v]).getD stS.num_inputs 0 = v from by
          rw [← h.hni]
          exact getD_append_self_f _ _ _]
    show (stS.schedule ++ [TranscriptEntry.publicInput]).foldlM
        (verifyStep coinOf (PreparedVerifyingKey.mk 0 0 [] ic [])
          (Proof.mk 0 0 0 (stP.pi_ds ++ restd)) ((piVals ++ [v]) ++ restp))
        (VState.mk [TMsg.input 1] (ic.getD 0 0) 0 0 1)
      = some (VState.mk (stP.transcript ++ [TMsg.input v])
          (∑ j ∈ Finset.range (stS.num_inputs + 1),
            ic.getD j 0 * (stP.input_assignment ++ [v]).getD j 0)
          (piVals ++ [v]).length stP.pi_ds.length (stS.num_inputs + 1))
    rw [hpubs, ← hacc]
    have hfin := foldlM_append_single _ stS.schedule TranscriptEntry.publicInput
      _ _ _ hmid hstep
    rw [hfin]
    have hlenv : (piVals ++ [v]).length = piVals.length + 1 := by
      rw [List.length_append]
      rfl
    rw [hlenv]

/-- `alloc_random` preserves the simulation invariant: the verifier derives
the same coin from the identical transcript. -/
theorem simStep_allocRandom (coinOf : List (TMsg F) → F) (params : Parameters F)
    (kappa : List F) (stP : ProvingAssignment F) (stS : KeypairAssembly F)
    (piVals : List F)
    (h : SimRel coinOf params kappa stP stS piVals) :
    SimRel coinOf params kappa (alloc_random coinOf stP)
      { stS with
        num_inputs := stS.num_inputs + 1,
        schedule := stS.schedule ++ [TranscriptEntry.coin] }
      piVals := by
  refine ⟨?_, ?_, ?_, ?_, ?_, ?_, ?_, ?_, ?_, ?_, ?_, ?_, ?_, ?_, ?_, ?_,
    ?_, ?_, ?_, ?_, ?_, ?_, ?_⟩
  · show (stP.input_assignment ++ [coinOf stP.transcript]).length
      = stS.num_inputs + 1
    rw [List.length_append, h.hni]
    rfl
  · exact h.hna
  · show stP.a = _
    rw [h.hra]
    refine List.map_congr_left fun lc hlc => ?_
    have h1 := eval_append lc stP.input_assignment stP.aux_assignment
      [coinOf stP.transcript] [] (by rw [h.hni, h.hna]; exact h.hwa lc hlc)
    rw [List.append_nil] at h1
    exact h1.symm
  · show stP.b = _
    rw [h.hrb]
    refine List.map_congr_left fun lc hlc => ?_
    have h1 := eval_append lc stP.input_assignment stP.aux_assignment
      [coinOf stP.transcript] [] (by rw [h.hni, h.hna]; exact h.hwb lc hlc)
    rw [List.append_nil] at h1
    exact h1.symm
  · show stP.c = _
    rw [h.hrc]
    refine List.map_congr_left fun lc hlc => ?_
    have h1 := eval_append lc stP.input_assignment stP.aux_assignment
      [coinOf stP.transcript] [] (by rw [h.hni, h.hna]; exact h.hwc lc hlc)
    rw [List.append_nil] at h1
    exact h1.symm
  · exact h.hbi
  · exact h.hpart
  · exact h.hble
  · exact fun lc hlc => wfLc_mono lc _ _ _ _ (h.hwa lc hlc) (Nat.le_succ _) le_rfl
  · exact fun lc hlc => wfLc_mono lc _ _ _ _ (h.hwb lc hlc) (Nat.le_succ _) le_rfl
  · exact fun lc hlc => wfLc_mono lc _ _ _ _ (h.hwc lc hlc) (Nat.le_succ _) le_rfl
  · exact h.hkap
  · exact h.hds
  · exact h.hdal
  · exact h.hdbl
  · show (stP.b_input_density ++ [false]).length = stS.num_inputs + 1
    rw [List.length_append, h.hdil]
    rfl
  · exact h.hdac
  · exact h.hdbc
  · intro j hj
    exact h.hdic j (getD_append_false _ _ hj)
  · show stS.num_inputs + 1 = 1 + countPI (stS.schedule ++ [TranscriptEntry.coin])
      + countCoin (stS.schedule ++ [TranscriptEntry.coin])
    have h1 := h.hsc
    simp only [countPI, countCoin, List.countP_append] at h1 ⊢
    simp
    omega
  · show countAC (stS.schedule ++ [TranscriptEntry.coin]) = _
    have h1 := h.hac
    simp only [countAC, List.countP_append] at h1 ⊢
    simpa using h1
  · show piVals.length = _
    have h1 := h.hpilen
    simp only [countPI, List.countP_append] at h1 ⊢
    simpa using h1
  · intro ic restp restd hlen
    have hlen' : stS.num_inputs + 1 ≤ ic.length := hlen
    have hlt : stS.num_inputs < ic.length := by omega
    have hmid := h.hreplay ic restp restd (by omega)
    have hic : ic[stS.num_inputs]? = some (ic.getD stS.num_inputs 0) := by
      rw [List.getElem?_eq_getElem hlt, List.getD_eq_getElem _ _ hlt]
    have hstep : verifyStep coinOf (PreparedVerifyingKey.mk 0 0 [] ic [])
        (Proof.mk 0 0 0 (stP.pi_ds ++ restd)) (piVals ++ restp)
        (VState.mk stP.transcript
          (∑ j ∈ Finset.range stS.num_inputs,
            ic.getD j 0 * stP.input_assignment.getD j 0)
          piVals.length stP.pi_ds.length stS.num_inputs)
        TranscriptEntry.coin
      = some (VState.mk (stP.transcript ++ [TMsg.input (coinOf stP.transcript)])
          ((∑ j ∈ Finset.range stS.num_inputs,
            ic.getD j 0 * stP.input_assignment.getD j 0)
            + ic.getD stS.num_inputs 0 * coinOf stP.transcript)
          piVals.length stP.pi_ds.length (stS.num_inputs + 1)) := by
      simp only [verifyStep]
      rw [hic]
      rfl
    have hacc : (∑ j ∈ Finset.range stS.num_inputs,
          ic.getD j 0 * stP.input_assignment.getD j 0)
          + ic.getD stS.num_inputs 0 * coinOf stP.transcript
        = ∑ j ∈ Finset.range (stS.num_inputs + 1), ic.getD j 0
            * (stP.input_assignment ++ [coinOf stP.transcript]).getD j 0 := by
      rw [Finset.sum_range_succ]
      congr 1
      · refine Finset.sum_congr rfl fun j hj => ?_
        rw [List.getD_append _ _ 0 j
          (by rw [h.hni]; exact Finset.mem_range.mp hj)]
      · rw [show (stP.input_assignment ++ [coinOf stP.transcript]).getD
            stS.num_inputs 0 = coinOf stP.transcript from by
          rw [← h.hni]
          exact getD_append_self_f _ _ _]
    show (stS.schedule ++ [TranscriptEntry.coin]).foldlM
        (verifyStep coinOf (PreparedVerifyingKey.mk 0 0 [] ic [])
          (Proof.mk 0 0 0 (stP.pi_ds ++ restd)) (piVals ++ restp))
        (VState.mk [TMsg.input 1] (ic.getD 0 0) 0 0 1)
      = some (VState.mk
          (stP.transcript ++ [TMsg.input (coinOf stP.transcript)])
          (∑ j ∈ Finset.range (stS.num_inputs + 1), ic.getD j 0
            * (stP.input_assignment ++ [coinOf stP.transcript]).getD j 0)
          piVals.length stP.pi_ds.length (stS.num_inputs + 1))
    rw [← hacc]
    exact foldlM_append_single _ stS.schedule TranscriptEntry.coin
      _ _ _ hmid hstep

/-- `end_aux_block` succeeds under the setup-side assertion and preserves
the simulation invariant, appending the block commitment. -/
theorem simStep_endAuxBlock (coinOf : List (TMsg F) → F) (params : Parameters F)
    (kappa : List F) (stP : ProvingAssignment F) (stS : KeypairAssembly F)
    (piVals : List F)
    (hdl : params.vk.deltas_g1 ≠ [])
    (hkb : stS.block_indices.length < kappa.length)
    (hassert : stS.block_indices.getLast?.getD 0 < stS.num_aux)
    (h : SimRel coinOf params kappa stP stS piVals) :
    ∃ stP', end_aux_block params stP = some stP' ∧
      SimRel coinOf params kappa stP'
        { stS with
          block_indices := stS.block_indices ++ [stS.num_aux],
          schedule := stS.schedule ++ [TranscriptEntry.auxCommit] } piVals := by
  obtain ⟨dl, hdl2⟩ : ∃ dl, params.vk.deltas_g1.getLast? = some dl := by
    rcases hgl : params.vk.deltas_g1.getLast? with _ | dl
    · rw [List.getLast?_eq_none_iff] at hgl
      exact absurd hgl hdl
    · exact ⟨dl, rfl⟩
  have hcnt : stP.kappa_3s[stP.aux_block_indices.length]?
      = some (kappa.getD stS.block_indices.length 0) := by
    rw [h.hkap, h.hbi, List.getElem?_eq_getElem hkb,
      List.getD_eq_getElem _ _ hkb]
  refine ⟨{ stP with
      aux_blocks := stP.aux_blocks ++ [(stP.aux_assignment.drop
        (stP.aux_block_indices.getLast?.getD 0)).take
        (stP.aux_assignment.length - stP.aux_block_indices.getLast?.getD 0)],
      pi_ds := stP.pi_ds ++ [msmFull
        (params.l.getD stP.aux_block_indices.length [])
        ((stP.aux_assignment.drop (stP.aux_block_indices.getLast?.getD 0)).take
          (stP.aux_assignment.length - stP.aux_block_indices.getLast?.getD 0))
        + dl * kappa.getD stS.block_indices.length 0],
      transcript := stP.transcript ++ [TMsg.auxCommit (msmFull
        (params.l.getD stP.aux_block_indices.length [])
        ((stP.aux_assignment.drop (stP.aux_block_indices.getLast?.getD 0)).take
          (stP.aux_assignment.length - stP.aux_block_indices.getLast?.getD 0))
        + dl * kappa.getD stS.block_indices.length 0)],
      aux_block_indices := stP.aux_block_indices
        ++ [stP.aux_assignment.length] }, ?_, ?_⟩
  · unfold end_aux_block
    rw [if_pos (by rw [h.hna, h.hbi]; exact hassert), hdl2, hcnt]
  · have hgl0 : params.vk.deltas_g1.getLast?.getD 0 = dl := by
      rw [hdl2]
      rfl
    refine ⟨?_, ?_, ?_, ?_, ?_, ?_, ?_, ?_, ?_, ?_, ?_, ?_, ?_, ?_, ?_, ?_,
      ?_, ?_, ?_, ?_, ?_, ?_, ?_⟩
    · exact h.hni
    · exact h.hna
    · exact h.hra
    · exact h.hrb
    · exact h.hrc
    · show stP.aux_block_indices ++ [stP.aux_assignment.length] = _
      rw [h.hbi, h.hna]
    · exact partOK_append stS.num_aux stS.block_indices 0 h.hpart
        (Nat.le_of_lt hassert)
    · intro x hx
      rcases List.mem_append.mp hx with hx | hx
      · exact h.hble x hx
      · rw [List.mem_singleton.mp hx]
    · exact h.hwa
    · exact h.hwb
    · exact h.hwc
    · exact h.hkap
    · show stP.pi_ds ++ [msmFull (params.l.getD stP.aux_block_indices.length [])
          ((stP.aux_assignment.drop (stP.aux_block_indices.getLast?.getD 0)).take
            (stP.aux_assignment.length - stP.aux_block_indices.getLast?.getD 0))
          + dl * kappa.getD stS.block_indices.length 0]
        = (List.range (stS.block_indices ++ [stS.num_aux]).length).map (fun b =>
            msmFull (params.l.getD b [])
              ((stP.aux_assignment.drop
                ((0 :: (stS.block_indices ++ [stS.num_aux])).getD b 0)).take
                ((stS.block_indices ++ [stS.num_aux]).getD b 0
                  - (0 :: (stS.block_indices ++ [stS.num_aux])).getD b 0))
            + params.vk.deltas_g1.getLast?.getD 0 * kappa.getD b 0)
      have hlen1 : (stS.block_indices ++ [stS.num_aux]).length
          = stS.block_indices.length + 1 := by
        rw [List.length_append]
        rfl
      rw [hlen1, List.range_succ, List.map_append]
      congr 1
      · rw [h.hds]
        refine List.map_congr_left fun b hb => ?_
        have hblt : b < stS.block_indices.length := List.mem_range.mp hb
        rw [zero_cons_append_getD stS.block_indices stS.num_aux b (by omega),
          List.getD_append stS.block_indices [stS.num_aux] 0 b hblt]
      · rw [List.map_cons, List.map_nil]
        congr 1
        rw [zero_cons_append_getD stS.block_indices stS.num_aux
            stS.block_indices.length (by omega),
          ← getLast_getD_cons, getD_append_self, h.hbi, h.hna, hgl0]
    · exact h.hdal
    · exact h.hdbl
    · exact h.hdil
    · exact h.hdac
    · exact h.hdbc
    · exact h.hdic
    · show stS.num_inputs = 1 + countPI (stS.schedule ++ [TranscriptEntry.auxCommit])
        + countCoin (stS.schedule ++ [TranscriptEntry.auxCommit])
      have h1 := h.hsc
      simp only [countPI, countCoin, List.countP_append] at h1 ⊢
      simpa using h1
    · show countAC (stS.schedule ++ [TranscriptEntry.auxCommit])
        = (stS.block_indices ++ [stS.num_aux]).length
      have h1 := h.hac
      simp only [countAC, List.countP_append, List.length_append] at h1 ⊢
      simp
      omega
    · show piVals.length = _
      have h1 := h.hpilen
      simp only [countPI, List.countP_append] at h1 ⊢
      simpa using h1
    · intro ic restp restd hlen
      have hlen0 : stS.num_inputs ≤ ic.length := hlen
      set pidP := msmFull (params.l.getD stP.aux_block_indices.length [])
          ((stP.aux_assignment.drop (stP.aux_block_indices.getLast?.getD 0)).take
            (stP.aux_assignment.length - stP.aux_block_indices.getLast?.getD 0))
          + dl * kappa.getD stS.block_indices.length 0 with hpid
      have hdsassoc : (stP.pi_ds ++ [pidP]) ++ restd
          = stP.pi_ds ++ (pidP :: restd) := by
        rw [List.append_assoc]
        rfl
      have hmid := h.hreplay ic restp (pidP :: restd) hlen0
      have hd : (stP.pi_ds ++ (pidP :: restd))[stP.pi_ds.length]? = some pidP :=
        getElem?_append_mid stP.pi_ds pidP restd
      have hstep : verifyStep coinOf (PreparedVerifyingKey.mk 0 0 [] ic [])
          (Proof.mk 0 0 0 (stP.pi_ds ++ (pidP :: restd))) (piVals ++ restp)
          (VState.mk stP.transcript
            (∑ j ∈ Finset.range stS.num_inputs,
              ic.getD j 0 * stP.input_assignment.getD j 0)
            piVals.length stP.pi_ds.length stS.num_inputs)
          TranscriptEntry.auxCommit
        = some (VState.mk (stP.transcript ++ [TMsg.auxCommit pidP])
            (∑ j ∈ Finset.range stS.num_inputs,
              ic.getD j 0 * stP.input_assignment.getD j 0)
            piVals.length (stP.pi_ds.length + 1) stS.num_inputs) := by
        simp only [verifyStep]
        rw [hd]
        rfl
      show (stS.schedule ++ [TranscriptEntry.auxCommit]).foldlM
          (verifyStep coinOf (PreparedVerifyingKey.mk 0 0 [] ic [])
            (Proof.mk 0 0 0 ((stP.pi_ds ++ [pidP]) ++ restd)) (piVals ++ restp))
          (VState.mk [TMsg.input 1] (ic.getD 0 0) 0 0 1)
        = some (VState.mk (stP.transcript ++ [TMsg.auxCommit pidP])
            (∑ j ∈ Finset.range stS.num_inputs,
              ic.getD j 0 * stP.input_assignment.getD j 0)
            piVals.length (stP.pi_ds ++ [pidP]).length stS.num_inputs)
      rw [hdsassoc, List.length_append]
      exact foldlM_append_single _ stS.schedule TranscriptEntry.auxCommit
        _ _ _ hmid hstep

/-- The prover's synthesis simulates the setup trace: whenever the setup
run succeeds, synthesis succeeds and the invariant carries to the final
states, with the public-input values extracted from the trace. -/
theorem sim_run (coinOf : List (TMsg F) → F) (params : Parameters F)
    (kappa : List F) (hdl : params.vk.deltas_g1 ≠ [])
    (ops : List (CircuitOp F)) :
    ∀ stS stS' stP piVals,
      setupRun ops stS = some stS' →
      stS'.block_indices.length ≤ kappa.length →
      WfOps stS.num_inputs stS.num_aux ops →
      SimRel coinOf params kappa stP stS piVals →
      ∃ stP', synthesize coinOf params ops stP = some stP' ∧
        SimRel coinOf params kappa stP' stS' (piVals ++ pubInputsOf ops) := by
  induction ops with
  | nil =>
    intro stS stS' stP piVals hrun hkb hwf hrel
    rw [setupRun_nil, Option.some.injEq] at hrun
    refine ⟨stP, rfl, ?_⟩
    rw [← hrun]
    simpa [pubInputsOf] using hrel
  | cons op rest ih =>
    intro stS stS' stP piVals hrun hkb hwf hrel
    rw [setupRun_cons] at hrun
    match op with
    | CircuitOp.alloc v =>
      simp only [setupOp, Option.bind] at hrun
      have hrel2 := simStep_alloc coinOf params kappa stP stS piVals v hrel
      have hwf2 : WfOps stS.num_inputs (stS.num_aux + 1) rest := hwf
      obtain ⟨stP', hsyn, hrel'⟩ :=
        ih { stS with num_aux := stS.num_aux + 1 } stS' (alloc stP v) piVals
          hrun hkb hwf2 hrel2
      refine ⟨stP', ?_, ?_⟩
      · rw [synthesize_cons]
        simp only [Option.bind]
        exact hsyn
      · have he : pubInputsOf (CircuitOp.alloc v :: rest) = pubInputsOf rest := by
          simp [pubInputsOf, List.filterMap_cons]
        rw [he]
        exact hrel'
    | CircuitOp.allocInput v =>
      simp only [setupOp, Option.bind] at hrun
      have hrel2 := simStep_allocInput coinOf params kappa stP stS piVals v hrel
      have hwf2 : WfOps (stS.num_inputs + 1) stS.num_aux rest := hwf
      obtain ⟨stP', hsyn, hrel'⟩ :=
        ih { stS with
            num_inputs := stS.num_inputs + 1,
            schedule := stS.schedule ++ [TranscriptEntry.publicInput] }
          stS' (alloc_input stP v) (piVals ++ [v]) hrun hkb hwf2 hrel2
      refine ⟨stP', ?_, ?_⟩
      · rw [synthesize_cons]
        simp only [Option.bind]
        exact hsyn
      · have he : pubInputsOf (CircuitOp.allocInput v :: rest)
            = v :: pubInputsOf rest := by
          simp [pubInputsOf, List.filterMap_cons]
        rw [he, show piVals ++ (v :: pubInputsOf rest)
            = (piVals ++ [v]) ++ pubInputsOf rest from by
          rw [List.append_assoc]
          rfl]
        exact hrel'
    | CircuitOp.allocRandom =>
      simp only [setupOp, Option.bind] at hrun
      have hrel2 := simStep_allocRandom coinOf params kappa stP stS piVals hrel
      have hwf2 : WfOps (stS.num_inputs + 1) stS.num_aux rest := hwf
      obtain ⟨stP', hsyn, hrel'⟩ :=
        ih { stS with
            num_inputs := stS.num_inputs + 1,
            schedule := stS.schedule ++ [TranscriptEntry.coin] }
          stS' (alloc_random coinOf stP) piVals hrun hkb hwf2 hrel2
      refine ⟨stP', ?_, ?_⟩
      · rw [synthesize_cons]
        simp only [Option.bind]
        exact hsyn
      · have he : pubInputsOf (CircuitOp.allocRandom :: rest)
            = pubInputsOf rest := by
          simp [pubInputsOf, List.filterMap_cons]
        rw [he]
        exact hrel'
    | CircuitOp.endAuxBlock =>
      simp only [setupOp] at hrun
      by_cases hc : stS.num_aux > stS.block_indices.getLast?.getD 0
      · rw [if_pos hc] at hrun
        simp only [Option.bind] at hrun
        have hkb2 : stS.block_indices.length < kappa.length := by
          have hmono := setup_bi_mono rest _ _ hrun
          have h2 : ({ stS with
              block_indices := stS.block_indices ++ [stS.num_aux],
              schedule := stS.schedule ++ [TranscriptEntry.auxCommit] }
              : KeypairAssembly F).block_indices.length
              = stS.block_indices.length + 1 := by
            show (stS.block_indices ++ [stS.num_aux]).length = _
            rw [List.length_append]
            rfl
          rw [h2] at hmono
          omega
        obtain ⟨stPm, hP, hrelm⟩ := simStep_endAuxBlock coinOf params kappa
          stP stS piVals hdl hkb2 hc hrel
        have hwf2 : WfOps stS.num_inputs stS.num_aux rest := hwf
        obtain ⟨stP', hsyn, hrel'⟩ :=
          ih { stS with
              block_indices := stS.block_indices ++ [stS.num_aux],
              schedule := stS.schedule ++ [TranscriptEntry.auxCommit] }
            stS' stPm piVals hrun hkb hwf2 hrelm
        refine ⟨stP', ?_, ?_⟩
        · rw [synthesize_cons]
          show (end_aux_block params stP).bind _ = _
          rw [hP]
          simp only [Option.bind]
          exact hsyn
        · have he : pubInputsOf (CircuitOp.endAuxBlock :: rest)
              = pubInputsOf rest := by
            simp [pubInputsOf, List.filterMap_cons]
          rw [he]
          exact hrel'
      · rw [if_neg hc] at hrun
        exact absurd hrun (by simp [Option.bind])
    | CircuitOp.enforce la lb lc =>
      simp only [setupOp, Option.bind] at hrun
      obtain ⟨⟨hwla, hwlb, hwlc⟩, hwfrest⟩ := hwf
      have hrel2 := simStep_enforce coinOf params kappa stP stS piVals
        la lb lc hwla hwlb hwlc hrel
      obtain ⟨stP', hsyn, hrel'⟩ :=
        ih { stS with
            rows_a := stS.rows_a ++ [la],
            rows_b := stS.rows_b ++ [lb],
            rows_c := stS.rows_c ++ [lc] }
          stS' (enforce stP la lb lc) piVals hrun hkb hwfrest hrel2
      refine ⟨stP', ?_, ?_⟩
      · rw [synthesize_cons]
        simp only [Option.bind]
        exact hsyn
      · have he : pubInputsOf (CircuitOp.enforce la lb lc :: rest)
            = pubInputsOf rest := by
          simp [pubInputsOf, List.filterMap_cons]
        rw [he]
        exact hrel'

/-- The input-pinning fold preserves the simulation invariant against the
pinned rows. -/
theorem pin_fold_rel (coinOf : List (TMsg F) → F) (params : Parameters F)
    (kappa : List F) :
    ∀ (n : ℕ) (stP : ProvingAssignment F) (stS : KeypairAssembly F)
      (piVals : List F),
      SimRel coinOf params kappa stP stS piVals →
      n ≤ stS.num_inputs →
      SimRel coinOf params kappa
        ((List.range n).foldl
          (fun st i => enforce st [(Index.input i, 1)] [] []) stP)
        { stS with
          rows_a := stS.rows_a ++ (List.range n).map
            (fun i => [(Index.input i, (1 : F))]),
          rows_b := stS.rows_b ++ (List.range n).map (fun _ => []),
          rows_c := stS.rows_c ++ (List.range n).map (fun _ => []) }
        piVals := by
  intro n
  induction n with
  | zero =>
    intro stP stS piVals h _
    simpa using h
  | succ k ih =>
    intro stP stS piVals h hn
    have hrel1 := ih stP stS piVals h (by omega)
    have hwla : wfLc [(Index.input k, (1 : F))]
        ({ stS with
          rows_a := stS.rows_a ++ (List.range k).map
            (fun i => [(Index.input i, (1 : F))]),
          rows_b := stS.rows_b ++ (List.range k).map (fun _ => []),
          rows_c := stS.rows_c ++ (List.range k).map (fun _ => []) }
          : KeypairAssembly F).num_inputs
        ({ stS with
          rows_a := stS.rows_a ++ (List.range k).map
            (fun i => [(Index.input i, (1 : F))]),
          rows_b := stS.rows_b ++ (List.range k).map (fun _ => []),
          rows_c := stS.rows_c ++ (List.range k).map (fun _ => []) }
          : KeypairAssembly F).num_aux := by
      intro p hp
      rw [List.mem_singleton.mp hp]
      show k < stS.num_inputs
      omega
    have hwemp : ∀ (m1 m2 : ℕ), wfLc ([] : LinearCombination F) m1 m2 :=
      fun m1 m2 p hp => absurd hp (List.not_mem_nil p)
    have hre := simStep_enforce coinOf params kappa _ _ piVals
      [(Index.input k, (1 : F))] [] [] hwla (hwemp _ _) (hwemp _ _) hrel1
    rw [List.range_succ, List.foldl_append, List.foldl_cons, List.foldl_nil]
    have hstate : ({ ({ stS with
          rows_a := stS.rows_a ++ (List.range k).map
            (fun i => [(Index.input i, (1 : F))]),
          rows_b := stS.rows_b ++ (List.range k).map (fun _ => []),
          rows_c := stS.rows_c ++ (List.range k).map (fun _ => []) }
          : KeypairAssembly F) with
        rows_a := (stS.rows_a ++ (List.range k).map
            (fun i => [(Index.input i, (1 : F))])) ++ [[(Index.input k, (1 : F))]],
        rows_b := (stS.rows_b ++ (List.range k).map (fun _ => []))
          ++ [([] : LinearCombination F)],
        rows_c := (stS.rows_c ++ (List.range k).map (fun _ => []))
          ++ [([] : LinearCombination F)] } : KeypairAssembly F)
        = { stS with
          rows_a := stS.rows_a ++ (List.range (k + 1)).map
            (fun i => [(Index.input i, (1 : F))]),
          rows_b := stS.rows_b ++ (List.range (k + 1)).map (fun _ => []),
          rows_c := stS.rows_c ++ (List.range (k + 1)).map (fun _ => []) } := by
      simp only [List.range_succ, List.map_append, List.map_cons, List.map_nil,
        List.append_assoc]
    rw [hstate] at hre
    rw [List.range_succ] at hre
    exact hre

theorem getD_map_range_g {α : Type} (f : ℕ → α) (n i : ℕ) (d : α) (h : i < n) :
    ((List.range n).map f).getD i d = f i := by
  rw [List.getD_eq_getElem _ _ (by simpa using h)]
  simp

theorem getD_map_lt {α β : Type} (f : α → β) (l : List α) (i : ℕ)
    (h : i < l.length) (d : β) (d' : α) :
    (l.map f).getD i d = f (l.getD i d') := by
  rw [List.getD_eq_getElem _ _ (by simpa using h), List.getElem_map,
    List.getD_eq_getElem _ _ h]

theorem length_drop_take {α : Type} (l : List α) (s k : ℕ)
    (h : s + k ≤ l.length) : ((l.drop s).take k).length = k := by
  rw [List.length_take, List.length_drop]
  omega

theorem getD_drop_take (l : List F) (s k t : ℕ) (ht : t < k)
    (h : s + k ≤ l.length) :
    ((l.drop s).take k).getD t 0 = l.getD (s + t) 0 := by
  have h1 : t < ((l.drop s).take k).length := by
    rw [length_drop_take l s k h]
    exact ht
  rw [List.getD_eq_getElem _ _ h1, List.getElem_take, List.getElem_drop,
    List.getD_eq_getElem _ _ (by omega)]

theorem foldl_add_sum (f : ℕ → F) :
    ∀ (n : ℕ) (init : F),
      (List.range n).foldl (fun acc i => acc + f i) init
        = init + ∑ i ∈ Finset.range n, f i := by
  intro n
  induction n with
  | zero =>
    intro init
    simp
  | succ k ih =>
    intro init
    rw [List.range_succ, List.foldl_append, List.foldl_cons, List.foldl_nil,
      ih, Finset.sum_range_succ]
    ring

/-- Exchanging the per-variable and per-row summations: the MSM of the
per-variable QAP evaluations against the assignments equals the
Lagrange-weighted sum of the row values. -/
theorem uTau_sum_eval (rows : List (LinearCombination F)) (ins auxv : List F)
    (lag : ℕ → F)
    (hw : ∀ lc ∈ rows, wfLc lc ins.length auxv.length) :
    ∑ j ∈ Finset.range ins.length,
        uTauOf rows lag (Index.input j) * ins.getD j 0
      + ∑ j ∈ Finset.range auxv.length,
          uTauOf rows lag (Index.aux j) * auxv.getD j 0
    = ∑ r ∈ Finset.range rows.length,
        eval (rows.getD r []) ins auxv * lag r := by
  unfold uTauOf
  have h1 : ∑ j ∈ Finset.range ins.length,
      (∑ r ∈ Finset.range rows.length,
        lcCoeff (rows.getD r []) (Index.input j) * lag r) * ins.getD j 0
      = ∑ r ∈ Finset.range rows.length,
          (∑ j ∈ Finset.range ins.length,
            lcCoeff (rows.getD r []) (Index.input j) * ins.getD j 0) * lag r := by
    rw [Finset.sum_congr rfl fun j _ => Finset.sum_mul _ _ _, Finset.sum_comm]
    refine Finset.sum_congr rfl fun r _ => ?_
    rw [Finset.sum_mul]
    refine Finset.sum_congr rfl fun j _ => ?_
    ring
  have h2 : ∑ j ∈ Finset.range auxv.length,
      (∑ r ∈ Finset.range rows.length,
        lcCoeff (rows.getD r []) (Index.aux j) * lag r) * auxv.getD j 0
      = ∑ r ∈ Finset.range rows.length,
          (∑ j ∈ Finset.range auxv.length,
            lcCoeff (rows.getD r []) (Index.aux j) * auxv.getD j 0) * lag r := by
    rw [Finset.sum_congr rfl fun j _ => Finset.sum_mul _ _ _, Finset.sum_comm]
    refine Finset.sum_congr rfl fun r _ => ?_
    rw [Finset.sum_mul]
    refine Finset.sum_congr rfl fun j _ => ?_
    ring
  rw [h1, h2, ← Finset.sum_add_distrib]
  refine Finset.sum_congr rfl fun rr hrr => ?_
  rw [← add_mul]
  congr 1
  refine lc_group_sum (rows.getD rr []) ins auxv ?_
  refine hw _ ?_
  rw [List.getD_eq_getElem _ _ (Finset.mem_range.mp hrr)]
  exact rows.getElem_mem (Finset.mem_range.mp hrr)

/-- The initial prover state (after allocating the constant `1`) is in
simulation with the initial key assembly. -/
theorem simRel_init (coinOf : List (TMsg F) → F) (params : Parameters F)
    (kappa : List F) :
    SimRel coinOf params kappa
      (alloc_input
        (ProvingAssignment.mk [] [] [] [] [] [] [] [] kappa [] [] [] []) 1)
      (KeypairAssembly.mk 1 0 [] [] [] [] []) [] := by
  refine ⟨?_, ?_, ?_, ?_, ?_, ?_, ?_, ?_, ?_, ?_, ?_, ?_, ?_, ?_, ?_, ?_,
    ?_, ?_, ?_, ?_, ?_, ?_, ?_⟩
  · rfl
  · rfl
  · rfl
  · rfl
  · rfl
  · rfl
  · exact trivial
  · intro x hx
    exact absurd hx (List.not_mem_nil x)
  · intro lc hlc
    exact absurd hlc (List.not_mem_nil lc)
  · intro lc hlc
    exact absurd hlc (List.not_mem_nil lc)
  · intro lc hlc
    exact absurd hlc (List.not_mem_nil lc)
  · rfl
  · rfl
  · rfl
  · rfl
  · rfl
  · intro j hj
    intro lc hlc
    exact absurd hlc (List.not_mem_nil lc)
  · intro j hj
    intro lc hlc
    exact absurd hlc (List.not_mem_nil lc)
  · intro j hj
    intro lc hlc
    exact absurd hlc (List.not_mem_nil lc)
  · rfl
  · rfl
  · rfl
  · intro ic restp restd hlen
    show some _ = some _
    rw [Option.some.injEq]
    simp [alloc_input, Finset.sum_range_one]
/-- What a successful `generate_parameters` run did. -/
theorem generate_parameters_ok (Sa : ℕ) (ρ g : F) (ops : List (CircuitOp F))
    (nb : ℕ) (alpha beta gamma tau : F) (deltas : List F)
    (params : Parameters F) (hS : 1 ≤ Sa)
    (hgen : generate_parameters Sa ρ g ops nb alpha beta gamma tau deltas
      = some (Except.ok params)) :
    ∃ st0, setupRun ops (KeypairAssembly.mk 1 0 [] [] [] [] []) = some st0 ∧
      deltas.length = nb + 1 ∧
      (pinRows st0).block_indices.length = nb ∧
      gamma ≠ 0 ∧ (∀ d ∈ deltas, d ≠ 0) ∧
      Nat.clog 2 (pinRows st0).rows_a.length < Sa ∧
      params = mkParameters (pinRows st0)
        (EvaluationDomain.mk
          (List.replicate (pinRows st0).rows_a.length (0 : F)
            ++ List.replicate (2 ^ Nat.clog 2 (pinRows st0).rows_a.length
              - (pinRows st0).rows_a.length) 0)
          (Nat.clog 2 (pinRows st0).rows_a.length)
          (ρ ^ 2 ^ (Sa - Nat.clog 2 (pinRows st0).rows_a.length))
          (ρ ^ 2 ^ (Sa - Nat.clog 2 (pinRows st0).rows_a.length))⁻¹
          g⁻¹
          (((2 ^ Nat.clog 2 (pinRows st0).rows_a.length : ℕ) : F))⁻¹)
        alpha beta gamma tau deltas := by
  unfold generate_parameters at hgen
  by_cases hdel : deltas.length = nb + 1
  swap
  · rw [if_neg hdel] at hgen
    exact absurd hgen (by simp)
  rw [if_pos hdel] at hgen
  rcases hset : setupRun ops (KeypairAssembly.mk 1 0 [] [] [] [] [])
    with _ | st0 <;> rw [hset] at hgen
  · exact absurd hgen (by simp)
  refine ⟨st0, rfl, hdel, ?_⟩
  replace hgen : (if (pinRows st0).block_indices.length = nb then
      (if gamma = 0 ∨ (deltas.any fun d => decide (d = 0)) = true then
        some (Except.error SynthesisError.unexpectedIdentity)
      else
        match fromCoeffs Sa ρ g
            (List.replicate (pinRows st0).rows_a.length (0 : F)) with
        | Except.error e => some (Except.error e)
        | Except.ok dom =>
          some (Except.ok (mkParameters (pinRows st0) dom
            alpha beta gamma tau deltas)))
    else none) = some (Except.ok params) := hgen
  by_cases hblk : (pinRows st0).block_indices.length = nb
  swap
  · rw [if_neg hblk] at hgen
    exact absurd hgen (by simp)
  rw [if_pos hblk] at hgen
  refine ⟨hblk, ?_⟩
  by_cases hgd : gamma = 0 ∨ deltas.any (fun d => decide (d = 0))
  · rw [if_pos hgd] at hgen
    rw [Option.some.injEq] at hgen
    exact absurd hgen (by simp)
  rw [if_neg hgd] at hgen
  have hγ : gamma ≠ 0 := fun hc => hgd (Or.inl hc)
  have hδ : ∀ d ∈ deltas, d ≠ 0 := by
    intro d hd hc
    exact hgd (Or.inr (List.any_eq_true.mpr ⟨d, hd, by simp [hc]⟩))
  refine ⟨hγ, hδ, ?_⟩
  by_cases hclog : Nat.clog 2 (pinRows st0).rows_a.length < Sa
  swap
  · rw [show (List.replicate (pinRows st0).rows_a.length (0 : F))
        = (List.replicate (pinRows st0).rows_a.length (0 : F)) from rfl] at hgen
    rw [fromCoeffs_err Sa ρ g _ hS
      (by rw [List.length_replicate]; omega)] at hgen
    exact absurd hgen (by simp)
  refine ⟨hclog, ?_⟩
  rw [fromCoeffs_ok Sa ρ g _ hS
    (by rw [List.length_replicate]; exact hclog)] at hgen
  rw [List.length_replicate] at hgen
  rw [Option.some.injEq, Except.ok.injEq] at hgen
  exact hgen.symm

/-- The `β·u + α·v + w` combination the setup bakes into the `IC` and `L`
queries (§4.H). -/
def linComb (ra rb rc : List (LinearCombination F)) (lag : ℕ → F)
    (alpha beta : F) (v : Index) : F :=
  beta * uTauOf ra lag v + alpha * uTauOf rb lag v + uTauOf rc lag v

/-- A variable never read by any row has a vanishing QAP evaluation. -/
theorem uTauOf_aux_zero (rows : List (LinearCombination F)) (lag : ℕ → F)
    (j : ℕ) (h : ∀ lc ∈ rows, auxCoeffZero lc j) :
    uTauOf rows lag (Index.aux j) = 0 := by
  unfold uTauOf
  refine Finset.sum_eq_zero fun rr hrr => ?_
  have hm : rows.getD rr [] ∈ rows := by
    rw [List.getD_eq_getElem _ _ (Finset.mem_range.mp hrr)]
    exact rows.getElem_mem (Finset.mem_range.mp hrr)
  rw [lcCoeff_aux_zero _ _ (h _ hm), zero_mul]

theorem uTauOf_input_zero (rows : List (LinearCombination F)) (lag : ℕ → F)
    (j : ℕ) (h : ∀ lc ∈ rows, inputCoeffZero lc j) :
    uTauOf rows lag (Index.input j) = 0 := by
  unfold uTauOf
  refine Finset.sum_eq_zero fun rr hrr => ?_
  have hm : rows.getD rr [] ∈ rows := by
    rw [List.getD_eq_getElem _ _ (Finset.mem_range.mp hrr)]
    exact rows.getElem_mem (Finset.mem_range.mp hrr)
  rw [lcCoeff_input_zero _ _ (h _ hm), zero_mul]

/-- The `A`-side MSM (full input half plus density-gated aux half) against
the per-variable QAP evaluations regroups into the row sum. -/
theorem msm_eval_A (rows : List (LinearCombination F)) (lag : ℕ → F)
    (ins auxs : List F) (da : List Bool)
    (hw : ∀ lc ∈ rows, wfLc lc ins.length auxs.length)
    (hzero : ∀ j, da.getD j false = false → ∀ lc ∈ rows, auxCoeffZero lc j) :
    msmFull ((List.range ins.length).map
        (fun i => uTauOf rows lag (Index.input i))) ins
      + msmDense ((List.range auxs.length).map
          (fun i => uTauOf rows lag (Index.aux i))) auxs da
    = ∑ r ∈ Finset.range rows.length,
        eval (rows.getD r []) ins auxs * lag r := by
  rw [msmFull_map_range _ _ _ le_rfl,
    msmDense_full ((List.range auxs.length).map
        (fun i => uTauOf rows lag (Index.aux i))) auxs da
      (fun i hi hd => by
        rw [getD_map_range _ _ _ 0 hi]
        exact uTauOf_aux_zero rows lag i (hzero i hd))]
  have h2 : ∑ i ∈ Finset.range auxs.length,
      ((List.range auxs.length).map
        (fun i => uTauOf rows lag (Index.aux i))).getD i 0 * auxs.getD i 0
      = ∑ i ∈ Finset.range auxs.length,
          uTauOf rows lag (Index.aux i) * auxs.getD i 0 := by
    refine Finset.sum_congr rfl fun i hi => ?_
    rw [getD_map_range _ _ _ 0 (Finset.mem_range.mp hi)]
  rw [h2]
  exact uTau_sum_eval rows ins auxs lag hw

/-- The `B`-side MSM (both halves density-gated) likewise regroups into the
row sum. -/
theorem msm_eval_B (rows : List (LinearCombination F)) (lag : ℕ → F)
    (ins auxs : List F) (di da : List Bool)
    (hw : ∀ lc ∈ rows, wfLc lc ins.length auxs.length)
    (hzi : ∀ j, di.getD j false = false → ∀ lc ∈ rows, inputCoeffZero lc j)
    (hza : ∀ j, da.getD j false = false → ∀ lc ∈ rows, auxCoeffZero lc j) :
    msmDense ((List.range ins.length).map
        (fun i => uTauOf rows lag (Index.input i))) ins di
      + msmDense ((List.range auxs.length).map
          (fun i => uTauOf rows lag (Index.aux i))) auxs da
    = ∑ r ∈ Finset.range rows.length,
        eval (rows.getD r []) ins auxs * lag r := by
  rw [msmDense_full ((List.range ins.length).map
        (fun i => uTauOf rows lag (Index.input i))) ins di
      (fun i hi hd => by
        rw [getD_map_range _ _ _ 0 hi]
        exact uTauOf_input_zero rows lag i (hzi i hd)),
    msmDense_full ((List.range auxs.length).map
        (fun i => uTauOf rows lag (Index.aux i))) auxs da
      (fun i hi hd => by
        rw [getD_map_range _ _ _ 0 hi]
        exact uTauOf_aux_zero rows lag i (hza i hd))]
  have h1 : ∑ i ∈ Finset.range ins.length,
      ((List.range ins.length).map
        (fun i => uTauOf rows lag (Index.input i))).getD i 0 * ins.getD i 0
      = ∑ i ∈ Finset.range ins.length,
          uTauOf rows lag (Index.input i) * ins.getD i 0 := by
    refine Finset.sum_congr rfl fun i hi => ?_
    rw [getD_map_range _ _ _ 0 (Finset.mem_range.mp hi)]
  have h2 : ∑ i ∈ Finset.range auxs.length,
      ((List.range auxs.length).map
        (fun i => uTauOf rows lag (Index.aux i))).getD i 0 * auxs.getD i 0
      = ∑ i ∈ Finset.range auxs.length,
          uTauOf rows lag (Index.aux i) * auxs.getD i 0 := by
    refine Finset.sum_congr rfl fun i hi => ?_
    rw [getD_map_range _ _ _ 0 (Finset.mem_range.mp hi)]
  rw [h1, h2]
  exact uTau_sum_eval rows ins auxs lag hw

/-- The Lagrange-weighted row sum is the interpolation of the row values,
evaluated at `τ`. -/
theorem rows_sum_evalPoly (rows : List (LinearCombination F)) (ins auxs : List F)
    (ω tau : F) (m : ℕ) (hm : rows.length ≤ m) :
    ∑ r ∈ Finset.range rows.length,
        eval (rows.getD r []) ins auxs * lagAt ω tau m r
      = evalPoly (coeffOf (fun t =>
          (rows.map (fun lc => eval lc ins auxs)).getD t 0) ω m) tau m := by
  rw [evalPoly_coeffOf_lag,
    sum_mul_restrict (fun t => (rows.map (fun lc => eval lc ins auxs)).getD t 0)
      (fun t => lagAt ω tau m t) rows.length m hm
      (fun t ht => List.getD_eq_default _ _ (by rw [List.length_map]; exact ht))]
  refine Finset.sum_congr rfl fun rr hrr => ?_
  rw [getD_map_lt (fun lc => eval lc ins auxs) rows rr
    (Finset.mem_range.mp hrr) 0 []]

theorem map_range_dropLast {α : Type} (f : ℕ → α) (n : ℕ) (hn : 1 ≤ n) :
    ((List.range n).map f).dropLast = (List.range (n - 1)).map f := by
  have h : n = n - 1 + 1 := by omega
  rw [h, List.range_succ, List.map_append, List.map_cons, List.map_nil,
    List.dropLast_concat, Nat.add_sub_cancel]

theorem evalPoly_top_zero (c : ℕ → F) (x : F) (m : ℕ) (hm : 1 ≤ m)
    (htop : c (m - 1) = 0) :
    evalPoly c x m = ∑ i ∈ Finset.range (m - 1), c i * x ^ i := by
  unfold evalPoly
  have h : m = m - 1 + 1 := by omega
  rw [h, Finset.sum_range_succ, Nat.add_sub_cancel, htop, zero_mul, add_zero]

theorem getD_drop (l : List F) (s t : ℕ) (h : s + t < l.length) :
    (List.drop s l).getD t 0 = l.getD (s + t) 0 := by
  have h1 : t < (List.drop s l).length := by
    rw [List.length_drop]
    omega
  rw [List.getD_eq_getElem _ _ h1, List.getElem_drop, List.getD_eq_getElem _ _ h]

theorem sum_lin_split (n : ℕ) (alpha beta : F) (A B C x : ℕ → F) :
    ∑ j ∈ Finset.range n, (beta * A j + alpha * B j + C j) * x j
      = beta * ∑ j ∈ Finset.range n, A j * x j
        + alpha * ∑ j ∈ Finset.range n, B j * x j
        + ∑ j ∈ Finset.range n, C j * x j := by
  rw [Finset.mul_sum, Finset.mul_sum, ← Finset.sum_add_distrib,
    ← Finset.sum_add_distrib]
  refine Finset.sum_congr rfl fun j _ => ?_
  ring

/-- The tail of `verify_proof` after a successful transcript replay: if the
counters line up, the δ-count matches, and the multi-pairing equation holds,
the verifier accepts. -/
theorem verify_tail_ok (coinOf : List (TMsg F) → F)
    (pvk : PreparedVerifyingKey F) (proof : Proof F) (pubs : List F)
    (l : List TranscriptEntry) (st : VState F) (ic0 : F)
    (h0 : pvk.ic[0]? = some ic0) (htl : pvk.transcript = l)
    (hfold : List.foldlM (verifyStep coinOf pvk proof pubs)
      (VState.mk [TMsg.input 1] ic0 0 0 1) l = some st)
    (hi : st.i = pvk.ic.length) (hac : st.aux_commits_i = proof.ds.length)
    (hnd : pvk.neg_deltas_g2.length = proof.ds.length + 1)
    (hpair : pvk.alpha_g1_beta_g2 = proof.a * proof.b
      + st.acc * pvk.neg_gamma_g2
      + proof.c * pvk.neg_deltas_g2.getD (pvk.neg_deltas_g2.length - 1) 0
      + (List.zipWith (fun d nd => d * nd) proof.ds pvk.neg_deltas_g2).sum) :
    verify_proof coinOf pvk proof pubs = some (Except.ok ()) := by
  unfold verify_proof
  rw [h0]
  simp only [bind, Option.bind]
  rw [htl, hfold]
  simp only [Option.bind]
  have hneg : ¬ (st.i ≠ pvk.ic.length ∨ st.aux_commits_i ≠ proof.ds.length) := by
    push_neg
    exact ⟨hi, hac⟩
  rw [if_neg hneg, if_pos hnd]
  show (if pvk.alpha_g1_beta_g2 = proof.a * proof.b
      + st.acc * pvk.neg_gamma_g2
      + proof.c * pvk.neg_deltas_g2.getD (pvk.neg_deltas_g2.length - 1) 0
      + (List.zipWith (fun d nd => d * nd) proof.ds pvk.neg_deltas_g2).sum
    then some (Except.ok ())
    else some (Except.error VerificationError.invalidProof))
    = some (Except.ok ())
  rw [if_pos hpair]

set_option maxHeartbeats 12800000 in
/-- **C1.** For every commitment-carrying circuit (a straight-line trace of
builder calls, all of whose linear combinations reference only allocated
variables) whose synthesized R1CS rows — including the input-pinning rows —
are satisfied by its assignment, and for parameters generated from valid
trapdoors (`generate_parameters` succeeded, so `γ` and every `δ` are
non-identity), `create_proof` succeeds for every choice of `r`, `s`,
`κ₃`-vector and worker, and `verify_proof` accepts the resulting proof on
the circuit's public inputs.  (`ρ` is the `2^S`-th primitive root of the
scalar field, `g` its multiplicative generator: `g ≠ 0` and `g^m ≠ 1` for
the constraint-domain size `m`.) -/
theorem mirage_completeness (Sa : ℕ) (ρ g : F) (coinOf : List (TMsg F) → F)
    (ops : List (CircuitOp F)) (nb : ℕ) (alpha beta gamma tau : F)
    (deltas : List F) (r s : F) (kappa_3s : List F) (params : Parameters F)
    (w : Worker)
    (hS : 1 ≤ Sa) (hρ : IsPrimitiveRoot ρ (2 ^ Sa)) (hg0 : g ≠ 0)
    (hgm : g ^ 2 ^ Nat.clog 2 (countEnforce ops + (1 + countInputOps ops)) ≠ 1)
    (hkl : kappa_3s.length = nb)
    (hwf : WfOps 1 0 ops)
    (hgen : generate_parameters Sa ρ g ops nb alpha beta gamma tau deltas
      = some (Except.ok params))
    (hsat : ∀ st2, synthesize coinOf params ops
        (alloc_input (ProvingAssignment.mk [] [] [] [] [] [] [] [] kappa_3s
          [] [] [] []) 1) = some st2 →
      ∀ rr, ((List.range st2.input_assignment.length).foldl
          (fun st i => enforce st [(Index.input i, 1)] [] []) st2).a.getD rr 0
        * ((List.range st2.input_assignment.length).foldl
          (fun st i => enforce st [(Index.input i, 1)] [] []) st2).b.getD rr 0
        = ((List.range st2.input_assignment.length).foldl
          (fun st i => enforce st [(Index.input i, 1)] [] []) st2).c.getD rr 0) :
    ∃ (pf : Proof F) (blocks : List (List F)),
      create_proof coinOf Sa ρ g ops nb params r s kappa_3s w
        = some (Except.ok (pf, blocks)) ∧
      verify_proof coinOf (prepare_verifying_key params.vk) pf
        (pubInputsOf ops) = some (Except.ok ()) := by
  obtain ⟨st0, hset, hdel, hblk, hγ, hδ, hclog, hparams⟩ :=
    generate_parameters_ok Sa ρ g ops nb alpha beta gamma tau deltas params
      hS hgen
  have hd1 : params.vk.deltas_g1 = deltas := by
    rw [hparams]
    rfl
  have hd2 : params.vk.deltas_g2 = deltas := by
    rw [hparams]
    rfl
  have hdlne : params.vk.deltas_g1 ≠ [] := by
    rw [hd1]
    intro hc
    rw [hc] at hdel
    exact absurd hdel (by simp)
  -- the simulation up to the end of synthesis
  have hkb0 : st0.block_indices.length ≤ kappa_3s.length := by
    have : st0.block_indices.length = nb := hblk
    omega
  obtain ⟨st2, hsyn, hrel2⟩ := sim_run coinOf params kappa_3s hdlne ops
    (KeypairAssembly.mk 1 0 [] [] [] [] []) st0
    (alloc_input (ProvingAssignment.mk [] [] [] [] [] [] [] []
      kappa_3s [] [] [] []) 1) [] hset hkb0 hwf
    (simRel_init coinOf params kappa_3s)
  rw [List.nil_append] at hrel2
  -- the pinning fold
  have hrel3 := pin_fold_rel coinOf params kappa_3s st0.num_inputs st2 st0
    (pubInputsOf ops) hrel2 le_rfl
  have hni2 : st2.input_assignment.length = st0.num_inputs := hrel2.hni
  set st3 := (List.range st2.input_assignment.length).foldl
    (fun st i => enforce st [(Index.input i, 1)] [] []) st2 with hst3
  have hst3' : st3 = (List.range st0.num_inputs).foldl
      (fun st i => enforce st [(Index.input i, 1)] [] []) st2 := by
    rw [hst3, hni2]
  have hrel : SimRel coinOf params kappa_3s st3 (pinRows st0)
      (pubInputsOf ops) := by
    rw [hst3']
    exact hrel3
  -- shapes
  have hlb : st3.b.length = st3.a.length ∧ st3.c.length = st3.a.length := by
    rw [hst3]
    refine pinning_preserves_abc st2.input_assignment.length st2 ?_
    refine synthesize_preserves_abc coinOf params ops _ st2 hsyn ⟨rfl, rfl⟩
  have hRa : st3.a.length = (pinRows st0).rows_a.length := by
    rw [hrel.hra, List.length_map]
  have hshape := setup_shape ops _ _ hset
  have hs1 : st0.num_inputs = 1 + countInputOps ops := hshape.1
  have hs2 : st0.rows_a.length = 0 + countEnforce ops := hshape.2
  have hRcount : (pinRows st0).rows_a.length
      = countEnforce ops + (1 + countInputOps ops) := by
    show (st0.rows_a ++ (List.range st0.num_inputs).map
      (fun i => [(Index.input i, (1 : F))])).length = _
    rw [List.length_append, List.length_map, List.length_range]
    omega
  have hsat3 := hsat st2 hsyn
  rw [← hst3] at hsat3
  clear hsat hgen
  -- the three domains
  have hfa := fromCoeffs_ok Sa ρ g st3.a hS (by rw [hRa]; omega)
  have hfb := fromCoeffs_ok Sa ρ g st3.b hS (by rw [hlb.1, hRa]; omega)
  have hfc := fromCoeffs_ok Sa ρ g st3.c hS (by rw [hlb.2, hRa]; omega)
  have hpipe := pipeline_closed_form Sa ρ g hS hρ st3.a st3.b st3.c
    hlb.1 hlb.2 _ _ _ hfa hfb hfc w
  -- reduce `create_proof`
  have hguard : ((List.range deltas.length).any
      (fun i => decide (deltas.getD i 0 = 0 ∨ deltas.getD i 0 = 0))) = false := by
    rw [List.any_eq_false]
    intro x hx
    rw [List.mem_range] at hx
    simp only [decide_eq_true_eq]
    intro hc
    have hmem : deltas.getD x 0 ∈ deltas := by
      rw [List.getD_eq_getElem _ _ hx]
      exact deltas.getElem_mem hx
    rcases hc with hc | hc <;> exact hδ _ hmem hc
  have hcp : create_proof coinOf Sa ρ g ops nb params r s kappa_3s w
      = some (Except.ok (Proof.mk
        (deltas.getD (deltas.length - 1) 0 * r + params.vk.alpha_g1 +
          (msmFull params.a_input st3.input_assignment +
            msmDense params.a_aux st3.aux_assignment st3.a_aux_density))
        (deltas.getD (deltas.length - 1) 0 * s + params.vk.beta_g2 +
          (msmDense params.b_g2_input st3.input_assignment
              st3.b_input_density +
            msmDense params.b_g2_aux st3.aux_assignment st3.b_aux_density))
        (List.foldl (fun acc i => acc + -deltas.getD i 0 * kappa_3s.getD i 0)
            (deltas.getD (deltas.length - 1) 0 * (r * s))
            (List.range kappa_3s.length) +
          params.vk.alpha_g1 * s + params.vk.beta_g1 * r +
          (msmFull params.a_input st3.input_assignment +
            msmDense params.a_aux st3.aux_assignment st3.a_aux_density) * s +
          (msmDense params.b_g1_input st3.input_assignment
              st3.b_input_density +
            msmDense params.b_g1_aux st3.aux_assignment
              st3.b_aux_density) * r +
          msmFull params.h
            (EvaluationDomain.mk
              (List.map
                (hPipeCoeff (fun t => st3.a.getD t 0)
                  (fun t => st3.b.getD t 0) (fun t => st3.c.getD t 0)
                  (ρ ^ 2 ^ (Sa - Nat.clog 2 st3.a.length)) g
                  (((2 ^ Nat.clog 2 st3.a.length : ℕ) : F))⁻¹ g⁻¹
                  (g ^ 2 ^ Nat.clog 2 st3.a.length - 1)⁻¹
                  (2 ^ Nat.clog 2 st3.a.length))
                (List.range (2 ^ Nat.clog 2 st3.a.length)))
              (Nat.clog 2 st3.a.length)
              (ρ ^ 2 ^ (Sa - Nat.clog 2 st3.a.length))
              (ρ ^ 2 ^ (Sa - Nat.clog 2 st3.a.length))⁻¹
              g⁻¹
              (((2 ^ Nat.clog 2 st3.a.length : ℕ) : F))⁻¹).coeffs.dropLast +
          msmFull (params.l.getD st3.aux_block_indices.length [])
            (List.drop (st3.aux_block_indices.getLast?.getD 0)
              st3.aux_assignment))
        st3.pi_ds, st3.aux_blocks)) := by
    unfold create_proof
    rw [if_pos hkl]
    simp only [hsyn]
    rw [← hst3]
    simp only [hfa, hfb, hfc]
    rw [hpipe, hd1, hd2, if_pos le_rfl,
      if_neg (by rw [hguard]; simp)]
  -- flatten the pipeline-domain projection and name the proof components
  rw [hRa] at hcp
  simp only [] at hcp
  set Rn := (pinRows st0).rows_a.length with hRn
  set e := Nat.clog 2 Rn with he
  set ω := ρ ^ 2 ^ (Sa - e) with hom
  set dL := deltas.getD (deltas.length - 1) 0 with hdL
  set Am := msmFull params.a_input st3.input_assignment
    + msmDense params.a_aux st3.aux_assignment st3.a_aux_density with hAm
  set B1m := msmDense params.b_g1_input st3.input_assignment st3.b_input_density
    + msmDense params.b_g1_aux st3.aux_assignment st3.b_aux_density with hB1m
  set B2m := msmDense params.b_g2_input st3.input_assignment st3.b_input_density
    + msmDense params.b_g2_aux st3.aux_assignment st3.b_aux_density with hB2m
  set Km := List.foldl (fun acc i => acc + -deltas.getD i 0 * kappa_3s.getD i 0)
    (dL * (r * s)) (List.range kappa_3s.length) with hKm
  set Hm := msmFull params.h
    (List.map (hPipeCoeff (fun t => st3.a.getD t 0) (fun t => st3.b.getD t 0)
        (fun t => st3.c.getD t 0) ω g (((2 ^ e : ℕ) : F))⁻¹ g⁻¹
        (g ^ 2 ^ e - 1)⁻¹ (2 ^ e))
      (List.range (2 ^ e))).dropLast with hHm
  set Lm := msmFull (params.l.getD st3.aux_block_indices.length [])
    (List.drop (st3.aux_block_indices.getLast?.getD 0) st3.aux_assignment)
    with hLm
  -- the setup tables, componentwise
  have hvα : params.vk.alpha_g1 = alpha := by
    rw [hparams]
    rfl
  have hvβ1 : params.vk.beta_g1 = beta := by
    rw [hparams]
    rfl
  have hvβ2 : params.vk.beta_g2 = beta := by
    rw [hparams]
    rfl
  have hvγ : params.vk.gamma_g2 = gamma := by
    rw [hparams]
    rfl
  have hicv : params.vk.ic = (List.range st0.num_inputs).map (fun i =>
      linComb (pinRows st0).rows_a (pinRows st0).rows_b (pinRows st0).rows_c
        (lagAt ω tau (2 ^ e)) alpha beta (Index.input i) * gamma⁻¹) := by
    rw [hparams]
    rfl
  have hicl : params.vk.ic.length = st0.num_inputs := by
    rw [hicv, List.length_map, List.length_range]
  have hh : params.h = (List.range (2 ^ e - 1)).map (fun i =>
      tau ^ i * (tau ^ 2 ^ e - 1) * (deltas.getD (deltas.length - 1) 0)⁻¹) := by
    rw [hparams]
    rfl
  rw [← hdL] at hh
  have hlp : params.l = (List.range (st0.block_indices.length + 1)).map (fun b =>
      (List.range ((st0.block_indices ++ [st0.num_aux]).getD b 0
          - (0 :: st0.block_indices).getD b 0)).map
        (fun t => linComb (pinRows st0).rows_a (pinRows st0).rows_b
            (pinRows st0).rows_c (lagAt ω tau (2 ^ e)) alpha beta
            (Index.aux ((0 :: st0.block_indices).getD b 0 + t))
          * (deltas.getD b 0)⁻¹)) := by
    rw [hparams]
    rfl
  have hai : params.a_input = (List.range st0.num_inputs).map
      (fun i => uTauOf (pinRows st0).rows_a (lagAt ω tau (2 ^ e))
        (Index.input i)) := by
    rw [hparams]
    rfl
  have haa : params.a_aux = (List.range st0.num_aux).map
      (fun i => uTauOf (pinRows st0).rows_a (lagAt ω tau (2 ^ e))
        (Index.aux i)) := by
    rw [hparams]
    rfl
  have hbi1 : params.b_g1_input = (List.range st0.num_inputs).map
      (fun i => uTauOf (pinRows st0).rows_b (lagAt ω tau (2 ^ e))
        (Index.input i)) := by
    rw [hparams]
    rfl
  have hba1 : params.b_g1_aux = (List.range st0.num_aux).map
      (fun i => uTauOf (pinRows st0).rows_b (lagAt ω tau (2 ^ e))
        (Index.aux i)) := by
    rw [hparams]
    rfl
  have hbi2 : params.b_g2_input = (List.range st0.num_inputs).map
      (fun i => uTauOf (pinRows st0).rows_b (lagAt ω tau (2 ^ e))
        (Index.input i)) := by
    rw [hparams]
    rfl
  have hba2 : params.b_g2_aux = (List.range st0.num_aux).map
      (fun i => uTauOf (pinRows st0).rows_b (lagAt ω tau (2 ^ e))
        (Index.aux i)) := by
    rw [hparams]
    rfl
  -- shapes and nonvanishing facts
  have hblk2 : st0.block_indices.length = nb := hblk
  have hinl : st3.input_assignment.length = st0.num_inputs := hrel.hni
  have hauxl : st3.aux_assignment.length = st0.num_aux := hrel.hna
  have habl : st3.aux_block_indices = st0.block_indices := hrel.hbi
  have hpart0 : partOK 0 st0.block_indices := hrel.hpart
  have hble0 : ∀ x ∈ st0.block_indices, x ≤ st0.num_aux := hrel.hble
  have hdne : deltas ≠ [] := by
    intro hc
    rw [hc] at hdel
    exact absurd hdel (by simp)
  have hδn : ∀ b, b < nb + 1 → deltas.getD b 0 ≠ 0 := by
    intro b hb
    refine hδ _ ?_
    rw [List.getD_eq_getElem _ _ (by omega)]
    exact deltas.getElem_mem _
  have hdLnb : dL = deltas.getD nb 0 := by
    rw [hdL, hdel, Nat.add_sub_cancel]
  have hdLne : dL ≠ 0 := by
    rw [hdLnb]
    exact hδn nb (by omega)
  have hdsl : st3.pi_ds.length = nb := by
    rw [hrel.hds, List.length_map, List.length_range]
    exact hblk
  have hcanδ : ∀ d L x : F, d ≠ 0 → L * d⁻¹ * x * d = L * x := by
    intro d L x hd
    calc L * d⁻¹ * x * d = L * x * (d⁻¹ * d) := by ring
    _ = L * x := by rw [inv_mul_cancel₀ hd, mul_one]
  have hsatm : ∀ rr, rr < 2 ^ e → st3.a.getD rr 0 * st3.b.getD rr 0
      - st3.c.getD rr 0 = 0 := by
    intro rr _
    rw [hsat3 rr, sub_self]
  have hgm2 : g ^ 2 ^ e ≠ 1 := by
    rw [he, hRcount]
    exact hgm
  have hωprim : IsPrimitiveRoot ω (2 ^ e) := by
    rw [hom]
    refine IsPrimitiveRoot.pow (by positivity) hρ ?_
    rw [← pow_add]
    congr 1
    omega
  have hm0 : ((2 ^ e : ℕ) : F) ≠ 0 := two_pow_cast_ne_zero ω e hωprim
  have hRle : (pinRows st0).rows_a.length ≤ 2 ^ e := by
    rw [← hRn, he]
    exact Nat.le_pow_clog (by norm_num) _
  have hRb : (pinRows st0).rows_b.length = Rn := by
    have h1 : st3.b.length = (pinRows st0).rows_b.length := by
      rw [hrel.hrb, List.length_map]
    rw [← h1, hlb.1]
    exact hRa
  have hRc : (pinRows st0).rows_c.length = Rn := by
    have h1 : st3.c.length = (pinRows st0).rows_c.length := by
      rw [hrel.hrc, List.length_map]
    rw [← h1, hlb.2]
    exact hRa
  have hRble : (pinRows st0).rows_b.length ≤ 2 ^ e := by
    rw [hRb, he]
    exact Nat.le_pow_clog (by norm_num) _
  have hRcle : (pinRows st0).rows_c.length ≤ 2 ^ e := by
    rw [hRc, he]
    exact Nat.le_pow_clog (by norm_num) _
  have hwfa : ∀ lc ∈ (pinRows st0).rows_a,
      wfLc lc st3.input_assignment.length st3.aux_assignment.length := by
    rw [hinl, hauxl]
    exact hrel.hwa
  have hwfb : ∀ lc ∈ (pinRows st0).rows_b,
      wfLc lc st3.input_assignment.length st3.aux_assignment.length := by
    rw [hinl, hauxl]
    exact hrel.hwb
  have hwfc : ∀ lc ∈ (pinRows st0).rows_c,
      wfLc lc st3.input_assignment.length st3.aux_assignment.length := by
    rw [hinl, hauxl]
    exact hrel.hwc
  -- the per-side interpolation evaluations at τ
  have hUa : (∑ j ∈ Finset.range st0.num_inputs,
        uTauOf (pinRows st0).rows_a (lagAt ω tau (2 ^ e)) (Index.input j)
          * st3.input_assignment.getD j 0)
      + ∑ t ∈ Finset.range st0.num_aux,
          uTauOf (pinRows st0).rows_a (lagAt ω tau (2 ^ e)) (Index.aux t)
            * st3.aux_assignment.getD t 0
      = evalPoly (coeffOf (fun t => st3.a.getD t 0) ω (2 ^ e)) tau (2 ^ e) := by
    rw [← hinl, ← hauxl,
      uTau_sum_eval (pinRows st0).rows_a st3.input_assignment
        st3.aux_assignment (lagAt ω tau (2 ^ e)) hwfa,
      rows_sum_evalPoly (pinRows st0).rows_a st3.input_assignment
        st3.aux_assignment ω tau (2 ^ e) hRle, ← hrel.hra]
  have hUb : (∑ j ∈ Finset.range st0.num_inputs,
        uTauOf (pinRows st0).rows_b (lagAt ω tau (2 ^ e)) (Index.input j)
          * st3.input_assignment.getD j 0)
      + ∑ t ∈ Finset.range st0.num_aux,
          uTauOf (pinRows st0).rows_b (lagAt ω tau (2 ^ e)) (Index.aux t)
            * st3.aux_assignment.getD t 0
      = evalPoly (coeffOf (fun t => st3.b.getD t 0) ω (2 ^ e)) tau (2 ^ e) := by
    rw [← hinl, ← hauxl,
      uTau_sum_eval (pinRows st0).rows_b st3.input_assignment
        st3.aux_assignment (lagAt ω tau (2 ^ e)) hwfb,
      rows_sum_evalPoly (pinRows st0).rows_b st3.input_assignment
        st3.aux_assignment ω tau (2 ^ e) hRble, ← hrel.hrb]
  have hUc : (∑ j ∈ Finset.range st0.num_inputs,
        uTauOf (pinRows st0).rows_c (lagAt ω tau (2 ^ e)) (Index.input j)
          * st3.input_assignment.getD j 0)
      + ∑ t ∈ Finset.range st0.num_aux,
          uTauOf (pinRows st0).rows_c (lagAt ω tau (2 ^ e)) (Index.aux t)
            * st3.aux_assignment.getD t 0
      = evalPoly (coeffOf (fun t => st3.c.getD t 0) ω (2 ^ e)) tau (2 ^ e) := by
    rw [← hinl, ← hauxl,
      uTau_sum_eval (pinRows st0).rows_c st3.input_assignment
        st3.aux_assignment (lagAt ω tau (2 ^ e)) hwfc,
      rows_sum_evalPoly (pinRows st0).rows_c st3.input_assignment
        st3.aux_assignment ω tau (2 ^ e) hRcle, ← hrel.hrc]
  -- the three proof-element MSMs
  have hAm2 : Am = evalPoly (coeffOf (fun t => st3.a.getD t 0) ω (2 ^ e))
      tau (2 ^ e) := by
    rw [hAm, hai, haa, ← hinl, ← hauxl,
      msm_eval_A (pinRows st0).rows_a (lagAt ω tau (2 ^ e))
        st3.input_assignment st3.aux_assignment st3.a_aux_density hwfa
        hrel.hdac,
      rows_sum_evalPoly (pinRows st0).rows_a st3.input_assignment
        st3.aux_assignment ω tau (2 ^ e) hRle, ← hrel.hra]
  have hB2m2 : B2m = evalPoly (coeffOf (fun t => st3.b.getD t 0) ω (2 ^ e))
      tau (2 ^ e) := by
    rw [hB2m, hbi2, hba2, ← hinl, ← hauxl,
      msm_eval_B (pinRows st0).rows_b (lagAt ω tau (2 ^ e))
        st3.input_assignment st3.aux_assignment st3.b_input_density
        st3.b_aux_density hwfb hrel.hdic hrel.hdbc,
      rows_sum_evalPoly (pinRows st0).rows_b st3.input_assignment
        st3.aux_assignment ω tau (2 ^ e) hRble, ← hrel.hrb]
  have hB1m2 : B1m = evalPoly (coeffOf (fun t => st3.b.getD t 0) ω (2 ^ e))
      tau (2 ^ e) := by
    rw [hB1m, hbi1, hba1, ← hinl, ← hauxl,
      msm_eval_B (pinRows st0).rows_b (lagAt ω tau (2 ^ e))
        st3.input_assignment st3.aux_assignment st3.b_input_density
        st3.b_aux_density hwfb hrel.hdic hrel.hdbc,
      rows_sum_evalPoly (pinRows st0).rows_b st3.input_assignment
        st3.aux_assignment ω tau (2 ^ e) hRble, ← hrel.hrb]
  have hKm2 : Km = dL * (r * s)
      - ∑ b ∈ Finset.range nb, deltas.getD b 0 * kappa_3s.getD b 0 := by
    rw [hKm, foldl_add_sum (fun i => -deltas.getD i 0 * kappa_3s.getD i 0)
      kappa_3s.length (dL * (r * s)), hkl]
    simp only [neg_mul]
    rw [Finset.sum_neg_distrib, ← sub_eq_add_neg]
  -- the H query against the pipeline coefficients
  have hHm2 : Hm = (tau ^ 2 ^ e - 1)
      * evalPoly (convHi (coeffOf (fun t => st3.a.getD t 0) ω (2 ^ e))
          (coeffOf (fun t => st3.b.getD t 0) ω (2 ^ e)) (2 ^ e)) tau (2 ^ e)
      * dL⁻¹ := by
    rw [hHm, map_range_dropLast (hPipeCoeff (fun t => st3.a.getD t 0)
        (fun t => st3.b.getD t 0) (fun t => st3.c.getD t 0) ω g
        (((2 ^ e : ℕ) : F))⁻¹ g⁻¹ (g ^ 2 ^ e - 1)⁻¹ (2 ^ e)) (2 ^ e)
        (Nat.one_le_pow _ _ (by norm_num)),
      hh,
      msmFull_map_range (fun i => tau ^ i * (tau ^ 2 ^ e - 1) * dL⁻¹)
        ((List.range (2 ^ e - 1)).map (hPipeCoeff (fun t => st3.a.getD t 0)
          (fun t => st3.b.getD t 0) (fun t => st3.c.getD t 0) ω g
          (((2 ^ e : ℕ) : F))⁻¹ g⁻¹ (g ^ 2 ^ e - 1)⁻¹ (2 ^ e)))
        (2 ^ e - 1) (by rw [List.length_map, List.length_range]),
      List.length_map, List.length_range,
      evalPoly_top_zero (convHi (coeffOf (fun t => st3.a.getD t 0) ω (2 ^ e))
        (coeffOf (fun t => st3.b.getD t 0) ω (2 ^ e)) (2 ^ e)) tau (2 ^ e)
        (Nat.one_le_pow _ _ (by norm_num)) (convHi_top _ _ _),
      Finset.mul_sum, Finset.sum_mul]
    refine Finset.sum_congr rfl fun i hi => ?_
    have hilt := Finset.mem_range.mp hi
    rw [getD_map_range _ _ _ 0 hilt,
      hPipeCoeff_eq_convHi (fun t => st3.a.getD t 0) (fun t => st3.b.getD t 0)
        (fun t => st3.c.getD t 0) ω g (2 ^ e) hωprim hm0 hg0 hgm2 hsatm i
        (by omega)]
    ring
  have hHdL : Hm * dL = (tau ^ 2 ^ e - 1)
      * evalPoly (convHi (coeffOf (fun t => st3.a.getD t 0) ω (2 ^ e))
          (coeffOf (fun t => st3.b.getD t 0) ω (2 ^ e)) (2 ^ e)) tau (2 ^ e) := by
    rw [hHm2, mul_assoc, inv_mul_cancel₀ hdLne, mul_one]
  -- the per-block L queries
  have hlb2 : ∀ b, b < nb → params.l.getD b []
      = (List.range (st0.block_indices.getD b 0
          - (0 :: st0.block_indices).getD b 0)).map
        (fun t => linComb (pinRows st0).rows_a (pinRows st0).rows_b
            (pinRows st0).rows_c (lagAt ω tau (2 ^ e)) alpha beta
            (Index.aux ((0 :: st0.block_indices).getD b 0 + t))
          * (deltas.getD b 0)⁻¹) := by
    intro b hb
    rw [hlp, getD_map_range_g _ _ _ [] (by omega),
      List.getD_append st0.block_indices [st0.num_aux] 0 b
        (by rw [hblk2]; exact hb)]
  have hMb : ∀ b, b < nb →
      msmFull (params.l.getD b [])
        ((st3.aux_assignment.drop ((0 :: st0.block_indices).getD b 0)).take
          (st0.block_indices.getD b 0 - (0 :: st0.block_indices).getD b 0))
        * deltas.getD b 0
      = ∑ t ∈ Finset.range (st0.block_indices.getD b 0
          - (0 :: st0.block_indices).getD b 0),
          linComb (pinRows st0).rows_a (pinRows st0).rows_b
              (pinRows st0).rows_c (lagAt ω tau (2 ^ e)) alpha beta
              (Index.aux ((0 :: st0.block_indices).getD b 0 + t))
            * st3.aux_assignment.getD ((0 :: st0.block_indices).getD b 0 + t)
              0 := by
    intro b hb
    have hblt : b < st0.block_indices.length := by
      rw [hblk2]
      exact hb
    have hsb : (0 :: st0.block_indices).getD b 0 ≤ st0.block_indices.getD b 0 :=
      partOK_getD st0.block_indices 0 hpart0 b hblt
    have heb : st0.block_indices.getD b 0 ≤ st0.num_aux :=
      getD_le_of_all st0.block_indices st0.num_aux hble0 b
    have hok : (0 :: st0.block_indices).getD b 0
        + (st0.block_indices.getD b 0 - (0 :: st0.block_indices).getD b 0)
        ≤ st3.aux_assignment.length := by
      rw [hauxl]
      omega
    have hlen : ((st3.aux_assignment.drop
        ((0 :: st0.block_indices).getD b 0)).take
        (st0.block_indices.getD b 0 - (0 :: st0.block_indices).getD b 0)).length
        = st0.block_indices.getD b 0 - (0 :: st0.block_indices).getD b 0 :=
      length_drop_take _ _ _ hok
    rw [hlb2 b hb]
    unfold msmFull
    rw [hlen, Finset.sum_mul]
    refine Finset.sum_congr rfl fun t ht => ?_
    have htlt := Finset.mem_range.mp ht
    rw [getD_map_range _ _ _ 0 htlt,
      getD_drop_take st3.aux_assignment _ _ _ htlt hok]
    exact hcanδ (deltas.getD b 0) _ _ (hδn b (by omega))
  have hds2 : st3.pi_ds = (List.range st0.block_indices.length).map (fun b =>
      msmFull (params.l.getD b [])
        ((st3.aux_assignment.drop ((0 :: st0.block_indices).getD b 0)).take
          (st0.block_indices.getD b 0 - (0 :: st0.block_indices).getD b 0))
      + params.vk.deltas_g1.getLast?.getD 0 * kappa_3s.getD b 0) := hrel.hds
  have hdlast : params.vk.deltas_g1.getLast?.getD 0 = dL := by
    rw [hd1, hdL, getLast_getD_eq deltas 0 hdne]
  have hdsb : ∀ b, b < nb → st3.pi_ds.getD b 0
      = msmFull (params.l.getD b [])
          ((st3.aux_assignment.drop ((0 :: st0.block_indices).getD b 0)).take
            (st0.block_indices.getD b 0 - (0 :: st0.block_indices).getD b 0))
        + dL * kappa_3s.getD b 0 := by
    intro b hb
    rw [hds2, getD_map_range _ _ _ 0 (by rw [hblk2]; exact hb), hdlast]
  -- the last-block L query against the tail of the aux assignment
  have hLdL : Lm * dL = ∑ t ∈ Finset.range (st0.num_aux
        - (0 :: st0.block_indices).getD nb 0),
      linComb (pinRows st0).rows_a (pinRows st0).rows_b (pinRows st0).rows_c
          (lagAt ω tau (2 ^ e)) alpha beta
          (Index.aux ((0 :: st0.block_indices).getD nb 0 + t))
        * st3.aux_assignment.getD ((0 :: st0.block_indices).getD nb 0 + t)
          0 := by
    have hlN : params.l.getD nb []
        = (List.range (st0.num_aux - (0 :: st0.block_indices).getD nb 0)).map
          (fun t => linComb (pinRows st0).rows_a (pinRows st0).rows_b
              (pinRows st0).rows_c (lagAt ω tau (2 ^ e)) alpha beta
              (Index.aux ((0 :: st0.block_indices).getD nb 0 + t))
            * (deltas.getD nb 0)⁻¹) := by
      rw [hlp, getD_map_range_g _ _ _ [] (by omega)]
      have hlast2 : (st0.block_indices ++ [st0.num_aux]).getD nb 0
          = st0.num_aux := by
        rw [← hblk2]
        exact getD_append_self _ _ _
      rw [hlast2]
    rw [hLm, habl, hblk2, getLast_getD_cons, hblk2, hlN]
    unfold msmFull
    have hdroplen : (List.drop ((0 :: st0.block_indices).getD nb 0)
        st3.aux_assignment).length
        = st0.num_aux - (0 :: st0.block_indices).getD nb 0 := by
      rw [List.length_drop, hauxl]
    rw [hdroplen, Finset.sum_mul]
    refine Finset.sum_congr rfl fun t ht => ?_
    have htlt := Finset.mem_range.mp ht
    rw [getD_map_range _ _ _ 0 htlt,
      getD_drop st3.aux_assignment ((0 :: st0.block_indices).getD nb 0) t
        (by rw [hauxl]; omega),
      hdLnb]
    exact hcanδ (deltas.getD nb 0) _ _ (hδn nb (by omega))
  -- the transcript-carried block commitments against −δ
  have hzs2 : (List.zipWith (fun d nd => d * nd) st3.pi_ds
        (params.vk.deltas_g2.map (fun d => -d))).sum
      = -(∑ b ∈ Finset.range nb,
          ∑ t ∈ Finset.range (st0.block_indices.getD b 0
            - (0 :: st0.block_indices).getD b 0),
            linComb (pinRows st0).rows_a (pinRows st0).rows_b
                (pinRows st0).rows_c (lagAt ω tau (2 ^ e)) alpha beta
                (Index.aux ((0 :: st0.block_indices).getD b 0 + t))
              * st3.aux_assignment.getD
                ((0 :: st0.block_indices).getD b 0 + t) 0)
        - dL * ∑ b ∈ Finset.range nb,
            deltas.getD b 0 * kappa_3s.getD b 0 := by
    rw [hd2, zipWith_mul_sum]
    have hmin : min st3.pi_ds.length (deltas.map (fun d => -d)).length = nb := by
      rw [hdsl, List.length_map, hdel]
      omega
    rw [hmin]
    have hterm : ∀ b ∈ Finset.range nb,
        st3.pi_ds.getD b 0 * (deltas.map (fun d => -d)).getD b 0
        = -(∑ t ∈ Finset.range (st0.block_indices.getD b 0
              - (0 :: st0.block_indices).getD b 0),
            linComb (pinRows st0).rows_a (pinRows st0).rows_b
                (pinRows st0).rows_c (lagAt ω tau (2 ^ e)) alpha beta
                (Index.aux ((0 :: st0.block_indices).getD b 0 + t))
              * st3.aux_assignment.getD
                ((0 :: st0.block_indices).getD b 0 + t) 0)
          - dL * (deltas.getD b 0 * kappa_3s.getD b 0) := by
      intro b hb
      have hblt := Finset.mem_range.mp hb
      rw [getD_map_lt (fun d => -d) deltas b (by omega) 0 0, hdsb b hblt]
      have hM := hMb b hblt
      linear_combination (-1 : F) * hM
    rw [Finset.sum_congr rfl hterm, Finset.sum_sub_distrib,
      Finset.sum_neg_distrib, ← Finset.mul_sum]
  have hndlast : (params.vk.deltas_g2.map (fun d => -d)).getD
      ((params.vk.deltas_g2.map (fun d => -d)).length - 1) 0 = -dL := by
    rw [hd2, List.length_map, hdL,
      getD_map_lt (fun d => -d) deltas (deltas.length - 1) (by omega) 0 0]
  -- the IC accumulator against −γ
  have hACCg : (∑ j ∈ Finset.range st0.num_inputs,
        params.vk.ic.getD j 0 * st3.input_assignment.getD j 0) * -gamma
      = -(∑ j ∈ Finset.range st0.num_inputs,
          linComb (pinRows st0).rows_a (pinRows st0).rows_b
              (pinRows st0).rows_c (lagAt ω tau (2 ^ e)) alpha beta
              (Index.input j)
            * st3.input_assignment.getD j 0) := by
    have hterm : ∀ j ∈ Finset.range st0.num_inputs,
        params.vk.ic.getD j 0 * st3.input_assignment.getD j 0
        = linComb (pinRows st0).rows_a (pinRows st0).rows_b
            (pinRows st0).rows_c (lagAt ω tau (2 ^ e)) alpha beta
            (Index.input j) * gamma⁻¹
          * st3.input_assignment.getD j 0 := by
      intro j hj
      rw [hicv, getD_map_range _ _ _ 0 (Finset.mem_range.mp hj)]
    rw [Finset.sum_congr rfl hterm, Finset.sum_mul]
    have hterm2 : ∀ j ∈ Finset.range st0.num_inputs,
        linComb (pinRows st0).rows_a (pinRows st0).rows_b
            (pinRows st0).rows_c (lagAt ω tau (2 ^ e)) alpha beta
            (Index.input j) * gamma⁻¹
          * st3.input_assignment.getD j 0 * -gamma
        = -(linComb (pinRows st0).rows_a (pinRows st0).rows_b
            (pinRows st0).rows_c (lagAt ω tau (2 ^ e)) alpha beta
            (Index.input j)
          * st3.input_assignment.getD j 0) := by
      intro j hj
      have h1 := hcanδ gamma
        (linComb (pinRows st0).rows_a (pinRows st0).rows_b
          (pinRows st0).rows_c (lagAt ω tau (2 ^ e)) alpha beta
          (Index.input j))
        (st3.input_assignment.getD j 0) hγ
      linear_combination (-1 : F) * h1
    rw [Finset.sum_congr rfl hterm2, Finset.sum_neg_distrib]
  -- the grouped linear combination
  have hlin : (∑ j ∈ Finset.range st0.num_inputs,
        linComb (pinRows st0).rows_a (pinRows st0).rows_b
            (pinRows st0).rows_c (lagAt ω tau (2 ^ e)) alpha beta
            (Index.input j)
          * st3.input_assignment.getD j 0)
      + (∑ t ∈ Finset.range st0.num_aux,
          linComb (pinRows st0).rows_a (pinRows st0).rows_b
              (pinRows st0).rows_c (lagAt ω tau (2 ^ e)) alpha beta
              (Index.aux t)
            * st3.aux_assignment.getD t 0)
      = beta * evalPoly (coeffOf (fun t => st3.a.getD t 0) ω (2 ^ e))
          tau (2 ^ e)
        + alpha * evalPoly (coeffOf (fun t => st3.b.getD t 0) ω (2 ^ e))
            tau (2 ^ e)
        + evalPoly (coeffOf (fun t => st3.c.getD t 0) ω (2 ^ e))
            tau (2 ^ e) := by
    simp only [linComb]
    rw [sum_lin_split st0.num_inputs alpha beta
        (fun j => uTauOf (pinRows st0).rows_a (lagAt ω tau (2 ^ e))
          (Index.input j))
        (fun j => uTauOf (pinRows st0).rows_b (lagAt ω tau (2 ^ e))
          (Index.input j))
        (fun j => uTauOf (pinRows st0).rows_c (lagAt ω tau (2 ^ e))
          (Index.input j))
        (fun j => st3.input_assignment.getD j 0),
      sum_lin_split st0.num_aux alpha beta
        (fun t => uTauOf (pinRows st0).rows_a (lagAt ω tau (2 ^ e))
          (Index.aux t))
        (fun t => uTauOf (pinRows st0).rows_b (lagAt ω tau (2 ^ e))
          (Index.aux t))
        (fun t => uTauOf (pinRows st0).rows_c (lagAt ω tau (2 ^ e))
          (Index.aux t))
        (fun t => st3.aux_assignment.getD t 0)]
    linear_combination beta * hUa + alpha * hUb + hUc
  -- the block partition covers the whole aux assignment
  have hblocks : (∑ b ∈ Finset.range nb,
        ∑ t ∈ Finset.range (st0.block_indices.getD b 0
          - (0 :: st0.block_indices).getD b 0),
          linComb (pinRows st0).rows_a (pinRows st0).rows_b
              (pinRows st0).rows_c (lagAt ω tau (2 ^ e)) alpha beta
              (Index.aux ((0 :: st0.block_indices).getD b 0 + t))
            * st3.aux_assignment.getD
              ((0 :: st0.block_indices).getD b 0 + t) 0)
      + (∑ t ∈ Finset.range (st0.num_aux
          - (0 :: st0.block_indices).getD nb 0),
          linComb (pinRows st0).rows_a (pinRows st0).rows_b
              (pinRows st0).rows_c (lagAt ω tau (2 ^ e)) alpha beta
              (Index.aux ((0 :: st0.block_indices).getD nb 0 + t))
            * st3.aux_assignment.getD
              ((0 :: st0.block_indices).getD nb 0 + t) 0)
      = ∑ t ∈ Finset.range st0.num_aux,
          linComb (pinRows st0).rows_a (pinRows st0).rows_b
              (pinRows st0).rows_c (lagAt ω tau (2 ^ e)) alpha beta
              (Index.aux t)
            * st3.aux_assignment.getD t 0 := by
    have hint := interval_sum_parts
      (fun u => linComb (pinRows st0).rows_a (pinRows st0).rows_b
          (pinRows st0).rows_c (lagAt ω tau (2 ^ e)) alpha beta (Index.aux u)
        * st3.aux_assignment.getD u 0)
      st0.block_indices 0 st0.num_aux hpart0 hble0 (Nat.zero_le _)
    rw [hblk2, Finset.sum_range_succ, Nat.sub_zero] at hint
    have h1 : ∀ b ∈ Finset.range nb,
        (∑ t ∈ Finset.range ((st0.block_indices ++ [st0.num_aux]).getD b 0
            - (0 :: st0.block_indices).getD b 0),
          linComb (pinRows st0).rows_a (pinRows st0).rows_b
              (pinRows st0).rows_c (lagAt ω tau (2 ^ e)) alpha beta
              (Index.aux ((0 :: st0.block_indices).getD b 0 + t))
            * st3.aux_assignment.getD
              ((0 :: st0.block_indices).getD b 0 + t) 0)
        = ∑ t ∈ Finset.range (st0.block_indices.getD b 0
            - (0 :: st0.block_indices).getD b 0),
          linComb (pinRows st0).rows_a (pinRows st0).rows_b
              (pinRows st0).rows_c (lagAt ω tau (2 ^ e)) alpha beta
              (Index.aux ((0 :: st0.block_indices).getD b 0 + t))
            * st3.aux_assignment.getD
              ((0 :: st0.block_indices).getD b 0 + t) 0 := by
      intro b hb
      rw [List.getD_append st0.block_indices [st0.num_aux] 0 b
        (by rw [hblk2]; exact Finset.mem_range.mp hb)]
    rw [Finset.sum_congr rfl h1] at hint
    have h2 : (st0.block_indices ++ [st0.num_aux]).getD nb 0 = st0.num_aux := by
      rw [← hblk2]
      exact getD_append_self _ _ _
    rw [h2] at hint
    have h3 : ∀ t ∈ Finset.range st0.num_aux,
        linComb (pinRows st0).rows_a (pinRows st0).rows_b
            (pinRows st0).rows_c (lagAt ω tau (2 ^ e)) alpha beta
            (Index.aux (0 + t))
          * st3.aux_assignment.getD (0 + t) 0
        = linComb (pinRows st0).rows_a (pinRows st0).rows_b
            (pinRows st0).rows_c (lagAt ω tau (2 ^ e)) alpha beta
            (Index.aux t)
          * st3.aux_assignment.getD t 0 := by
      intro t ht
      rw [Nat.zero_add]
    rw [Finset.sum_congr rfl h3] at hint
    exact hint
  -- the vanishing-polynomial identity at τ
  have hqap := qap_eval_identity (fun t => st3.a.getD t 0)
    (fun t => st3.b.getD t 0) (fun t => st3.c.getD t 0) ω tau (2 ^ e)
    hωprim hm0 hsatm
  -- reduce `verify_proof`
  have h0lt : 0 < params.vk.ic.length := by
    rw [hicl]
    omega
  have hic0 : (prepare_verifying_key params.vk).ic[0]?
      = some (params.vk.ic.getD 0 0) := by
    show params.vk.ic[0]? = some (params.vk.ic.getD 0 0)
    rw [List.getElem?_eq_getElem h0lt, List.getD_eq_getElem _ _ h0lt]
  have htr2 : (prepare_verifying_key params.vk).transcript = st0.schedule := by
    show params.vk.transcript = st0.schedule
    rw [hparams]
    rfl
  have hpin1 : (pinRows st0).schedule = st0.schedule := rfl
  have hpin2 : (pinRows st0).num_inputs = st0.num_inputs := rfl
  have hfold : List.foldlM (verifyStep coinOf (prepare_verifying_key params.vk)
        (Proof.mk (dL * r + params.vk.alpha_g1 + Am)
          (dL * s + params.vk.beta_g2 + B2m)
          (Km + params.vk.alpha_g1 * s + params.vk.beta_g1 * r + Am * s
            + B1m * r + Hm + Lm) st3.pi_ds)
        (pubInputsOf ops))
      (VState.mk [TMsg.input 1] (params.vk.ic.getD 0 0) 0 0 1) st0.schedule
      = some (VState.mk st3.transcript
          (∑ j ∈ Finset.range st0.num_inputs,
            params.vk.ic.getD j 0 * st3.input_assignment.getD j 0)
          (pubInputsOf ops).length st3.pi_ds.length st0.num_inputs) := by
    have hfold0 := hrel.hreplay params.vk.ic [] [] (by
      rw [hicl]
      exact le_rfl)
    simp only [List.append_nil] at hfold0
    rw [hpin1, hpin2] at hfold0
    rw [foldlM_congr_fn (verifyStep coinOf (prepare_verifying_key params.vk)
        (Proof.mk (dL * r + params.vk.alpha_g1 + Am)
          (dL * s + params.vk.beta_g2 + B2m)
          (Km + params.vk.alpha_g1 * s + params.vk.beta_g1 * r + Am * s
            + B1m * r + Hm + Lm) st3.pi_ds)
        (pubInputsOf ops))
      (verifyStep coinOf (PreparedVerifyingKey.mk 0 0 [] params.vk.ic [])
        (Proof.mk 0 0 0 st3.pi_ds) (pubInputsOf ops))
      st0.schedule
      (fun s2 t => verifyStep_ic_ds coinOf
        (prepare_verifying_key params.vk)
        (PreparedVerifyingKey.mk 0 0 [] params.vk.ic [])
        (Proof.mk (dL * r + params.vk.alpha_g1 + Am)
          (dL * s + params.vk.beta_g2 + B2m)
          (Km + params.vk.alpha_g1 * s + params.vk.beta_g1 * r + Am * s
            + B1m * r + Hm + Lm) st3.pi_ds)
        (Proof.mk 0 0 0 st3.pi_ds) (pubInputsOf ops) rfl rfl s2 t) _]
    exact hfold0
  have hnd2 : (params.vk.deltas_g2.map (fun d => -d)).length
      = st3.pi_ds.length + 1 := by
    rw [List.length_map, hd2, hdsl, hdel]
  have hpair2 : params.vk.alpha_g1 * params.vk.beta_g2
      = (dL * r + params.vk.alpha_g1 + Am) * (dL * s + params.vk.beta_g2 + B2m)
        + (∑ j ∈ Finset.range st0.num_inputs,
            params.vk.ic.getD j 0 * st3.input_assignment.getD j 0)
          * -params.vk.gamma_g2
        + (Km + params.vk.alpha_g1 * s + params.vk.beta_g1 * r + Am * s
            + B1m * r + Hm + Lm)
          * (params.vk.deltas_g2.map (fun d => -d)).getD
              ((params.vk.deltas_g2.map (fun d => -d)).length - 1) 0
        + (List.zipWith (fun d nd => d * nd) st3.pi_ds
            (params.vk.deltas_g2.map (fun d => -d))).sum := by
    rw [hvα, hvβ1, hvβ2, hvγ, hndlast, hzs2, hAm2, hB1m2, hB2m2, hKm2, hACCg]
    linear_combination hHdL + hLdL + hblocks + hlin - hqap
  refine ⟨_, _, hcp, ?_⟩
  exact verify_tail_ok coinOf (prepare_verifying_key params.vk) _
    (pubInputsOf ops) st0.schedule _ _ hic0 htr2 hfold hicl.symm rfl hnd2 hpair2

/-- **C1 witness.**  The trivial circuit (no operations, no committed
blocks) over `F17`, with trapdoors `α = β = γ = τ = 1`, `δ = [1]`, 2-adicity
`S = 4`, `ρ = 3`, `g = 3`: `generate_parameters` succeeds, `create_proof`
succeeds, and the produced proof verifies. -/
theorem mirage_completeness_witness :
    ∃ params : Parameters F17,
      generate_parameters 4 (3 : F17) 3 ([] : List (CircuitOp F17)) 0
          1 1 1 1 [1] = some (Except.ok params) ∧
      ∃ (pf : Proof F17) (blocks : List (List F17)),
        create_proof (fun _ => 0) 4 3 3 [] 0 params 0 0 [] 0
          = some (Except.ok (pf, blocks)) ∧
        verify_proof (fun _ => 0) (prepare_verifying_key params.vk) pf
          (pubInputsOf []) = some (Except.ok ()) := by
  have hfc : fromCoeffs 4 (3 : F17) 3 (List.replicate 1 (0 : F17))
      = Except.ok
        { coeffs := List.replicate 1 (0 : F17) ++ List.replicate
            (2 ^ Nat.clog 2 (List.replicate 1 (0 : F17)).length
              - (List.replicate 1 (0 : F17)).length) 0,
          exp := Nat.clog 2 (List.replicate 1 (0 : F17)).length,
          omega := 3 ^ 2 ^ (4 - Nat.clog 2 (List.replicate 1 (0 : F17)).length),
          omegainv := (3 ^ 2 ^ (4 - Nat.clog 2
            (List.replicate 1 (0 : F17)).length))⁻¹,
          geninv := 3⁻¹,
          minv := ((2 ^ Nat.clog 2 (List.replicate 1 (0 : F17)).length : ℕ)
            : F17)⁻¹ } :=
    fromCoeffs_ok 4 3 3 _ (by norm_num)
      (by rw [List.length_replicate, Nat.clog_one_right]; norm_num)
  have hgen0 : ∃ P : Parameters F17,
      generate_parameters 4 (3 : F17) 3 ([] : List (CircuitOp F17)) 0
        1 1 1 1 [1] = some (Except.ok P) := by
    unfold generate_parameters
    rw [if_pos (show ([1] : List F17).length = 0 + 1 from rfl),
      show setupRun ([] : List (CircuitOp F17))
        (KeypairAssembly.mk 1 0 [] [] [] [] [])
        = some (KeypairAssembly.mk 1 0 [] [] [] [] []) from rfl]
    simp only []
    rw [if_pos (show (pinRows ((KeypairAssembly.mk 1 0 [] [] [] [] [])
        : KeypairAssembly F17)).block_indices.length = 0 from rfl)]
    rw [if_neg (show ¬ ((1 : F17) = 0 ∨ ([1] : List F17).any
        (fun d => decide (d = 0)) = true) from by decide)]
    rw [show List.replicate (pinRows ((KeypairAssembly.mk 1 0 [] [] [] [] [])
        : KeypairAssembly F17)).rows_a.length (0 : F17)
        = List.replicate 1 0 from rfl]
    rw [hfc]
    exact ⟨_, rfl⟩
  obtain ⟨P0, h0⟩ := hgen0
  refine ⟨P0, h0, ?_⟩
  refine mirage_completeness 4 3 3 (fun _ => 0) [] 0 1 1 1 1 [1] 0 0 [] P0 0
    (by norm_num) three_primitiveRoot_sixteen (by decide) ?_ rfl trivial h0 ?_
  · have h1 : countEnforce ([] : List (CircuitOp F17))
        + (1 + countInputOps ([] : List (CircuitOp F17))) = 1 := rfl
    rw [h1, Nat.clog_one_right]
    decide
  · intro st2 hst2
    have hst2e := Option.some.inj hst2
    subst hst2e
    intro rr
    rcases rr with _ | rr2
    · decide
    · show (0 : F17) * 0 = 0
      exact mul_zero 0
/-- A tiny parameter set over `F17` for concrete runs. -/
def paramsW : Parameters F17 :=
  ⟨⟨0, 0, 0, 0, [3], [3], [], []⟩, [], [[4]], [], [], [], [], [], []⟩

/-- **C9 witness.** -/
theorem aux_block_indices_invariant_witness :
    auxIndicesInv
      (⟨[false], [false], [false], [], [], [], [1], [5], [2], [9], [[5]], [1],
        [TMsg.input 1, TMsg.auxCommit 9]⟩ : ProvingAssignment F17) ∧
    (∀ st2 st3 : ProvingAssignment F17, end_aux_block paramsW st2 = some st3 →
      st2.aux_block_indices.getLast?.getD 0 < st2.aux_assignment.length ∧
      st3.aux_block_indices = st2.aux_block_indices ++ [st2.aux_assignment.length]) :=
  aux_block_indices_invariant (fun _ => 0) paramsW
    [CircuitOp.alloc 5, CircuitOp.endAuxBlock]
    (alloc_input ⟨[], [], [], [], [], [], [], [], [2], [], [], [], []⟩ 1)
    ⟨[false], [false], [false], [], [], [], [1], [5], [2], [9], [[5]], [1],
      [TMsg.input 1, TMsg.auxCommit 9]⟩
    (by refine ⟨?_, ?_⟩ <;> simp [auxIndicesInv, alloc_input])
    (by rfl)

/-- **C5 witness.** -/
theorem create_proof_deterministic_witness :
    create_proof (fun _ => (0 : F17)) 4 3 1 [] 0 paramsW 0 0 [] 0 =
    create_proof (fun _ => (0 : F17)) 4 3 1 [] 0 paramsW 0 0 [] 3 :=
  create_proof_deterministic (fun _ => (0 : F17)) 4 3 1 [] 0 paramsW 0 0 []
    (by norm_num) three_primitiveRoot_sixteen 0 3

end mirage

end BellmanProof
